import Mathlib

/-!
The printer of protodump: the descriptor-to-text printer of `pkg/protodump/proto.go`

A shallow embedding of the printer.  The Go methods on `*ProtoDefinition`
mutate a `strings.Builder` and an indentation counter; here every method is a
function from the printer state to the next printer state.  A Go panic (a
negative repeat count, an index out of range, a method call on a nil
descriptor) is the result `none`.

Descriptors are the read-only values of `protoreflect`; each accessor the
printer calls is a component of the corresponding record below and carries the
accessor's Go name.
-/

namespace Protodump

/-! ## Descriptors -/

/-- The accessors of `protoreflect.FieldDescriptor` that return plain values.
`Kind` and `Cardinality` hold `Kind().String()` and `Cardinality().String()`,
`Default` holds `Default().String()`, `Message` and `Enum` hold
`Message().FullName()` and `Enum().FullName()`, `DefaultEnumValue` holds
`DefaultEnumValue().Name()`.  `ContainingOneof` is `none` for a nil oneof and
otherwise the index of the oneof in its message. -/
structure FieldAttrs where
  Name : String := ""
  Number : Int := 0
  Kind : String := "int32"
  Cardinality : String := "optional"
  HasOptionalKeyword : Bool := false
  HasDefault : Bool := false
  Default : String := ""
  DefaultEnumValue : String := ""
  HasJSONName : Bool := false
  JSONName : String := ""
  ContainingOneof : Option Nat := none
  Message : String := ""
  Enum : String := ""

/-- A `protoreflect.FieldDescriptor`: its plain accessors together with
`MapKey()` and `MapValue()`, which are field descriptors again and are nil
(`none`) when the field is not a map field. -/
inductive FieldDescriptor where
  | mk (attrs : FieldAttrs) (mapKey : Option FieldDescriptor)
      (mapValue : Option FieldDescriptor)

/-- Plain accessors of a field descriptor. -/
def FieldDescriptor.attrs : FieldDescriptor → FieldAttrs
  | .mk a _ _ => a

/-- `field.MapKey()`. -/
def FieldDescriptor.MapKey : FieldDescriptor → Option FieldDescriptor
  | .mk _ k _ => k

/-- `field.MapValue()`. -/
def FieldDescriptor.MapValue : FieldDescriptor → Option FieldDescriptor
  | .mk _ _ v => v

/-- `field.IsMap()`: by the contract of `protoreflect`, `MapKey` and `MapValue`
are non-nil exactly for map fields. -/
def FieldDescriptor.IsMap (f : FieldDescriptor) : Bool :=
  f.MapKey.isSome && f.MapValue.isSome

/-- A `protoreflect.OneofDescriptor`. -/
structure OneofDescriptor where
  Name : String := ""
  IsSynthetic : Bool := false
  Fields : List FieldDescriptor := []

/-- A `protoreflect.EnumDescriptor`: its name and the (name, number) pairs of
its values. -/
structure EnumDescriptor where
  Name : String := ""
  Values : List (String × Int) := []

/-- A `protoreflect.MessageDescriptor`.  A reserved range is the pair
`[2]protoreflect.FieldNumber` of 32-bit signed numbers. -/
inductive MessageDescriptor where
  | mk (Name : String) (ReservedNames : List String)
      (ReservedRanges : List (Int × Int)) (Messages : List MessageDescriptor)
      (Enums : List EnumDescriptor) (Fields : List FieldDescriptor)
      (Oneofs : List OneofDescriptor)

/-- A `protoreflect.MethodDescriptor`; `Input` and `Output` hold
`Input().FullName()` and `Output().FullName()`. -/
structure MethodDescriptor where
  Name : String := ""
  Input : String := ""
  Output : String := ""
  IsStreamingClient : Bool := false
  IsStreamingServer : Bool := false

/-- A `protoreflect.ServiceDescriptor`. -/
structure ServiceDescriptor where
  Name : String := ""
  Methods : List MethodDescriptor := []

/-- A `protoreflect.FileImport`. -/
structure FileImport where
  Path : String := ""
  IsPublic : Bool := false

/-- A `protoreflect.FileDescriptor`; `SyntaxName` holds `Syntax().String()`. -/
structure FileDescriptor where
  SyntaxName : String := "proto3"
  FullName : String := ""
  Path : String := ""
  Imports : List FileImport := []
  Services : List ServiceDescriptor := []
  Messages : List MessageDescriptor := []
  Enums : List EnumDescriptor := []

/-- Modelled from the spec: `descriptorpb.FileOptions`, a type of the protobuf
library that is not part of this repository.  It is the fixed set of optional
settings the allow-list of `writeFileOptions` names: each is a pointer to a
string or to a bool, `none` when the pointer is nil. -/
structure FileOptions where
  JavaPackage : Option String := none
  JavaOuterClassname : Option String := none
  JavaMultipleFiles : Option Bool := none
  JavaStringCheckUtf8 : Option Bool := none
  GoPackage : Option String := none
  CcEnableArenas : Option Bool := none
  ObjcClassPrefix : Option String := none
  CsharpNamespace : Option String := none
  SwiftPrefix : Option String := none
  PhpClassPrefix : Option String := none
  PhpNamespace : Option String := none
  PhpMetadataNamespace : Option String := none
  RubyPackage : Option String := none

/-- The `descriptorpb.FileDescriptorProto` the printer was built from; only
`GetOptions()` is read, `none` being the nil options record. -/
structure FileDescriptorProto where
  GetOptions : Option FileOptions := none

/-! ## Library functions -/

/-- Concatenation of a list of texts, in order. -/
def concat : List String → String
  | [] => ""
  | s :: ss => s ++ concat ss

/-- `strings.Repeat(s, count)`: panics on a negative count. -/
def Repeat (s : String) (count : Int) : Option String :=
  if count < 0 then none else some (concat (List.replicate count.toNat s))

/-- Decimal rendering of a signed integer: `strconv.Itoa` and `%d`. -/
def Itoa (n : Int) : String := toString n

/-- `strconv.FormatBool`. -/
def FormatBool (b : Bool) : String := if b then "true" else "false"

/-- `strings.ReplaceAll(s, old, new)` for a one-character `old`: every
occurrence of the character is replaced, the other characters are kept. -/
def ReplaceAll (s : String) (old : Char) (new : String) : String :=
  String.mk (s.toList.flatMap (fun c => if c = old then new.toList else [c]))

/-- Modelled from the spec: `protowire.MaxValidNumber`, the maximum legal field
number 536,870,911, a constant of the protobuf library. -/
def MaxValidNumber : Int := 536870911

/-- Arithmetic of `protoreflect.FieldNumber`, a 32-bit signed integer: the
result of an operation is reduced into the range of the type. -/
def wrapInt32 (x : Int) : Int := (x + 2147483648) % 4294967296 - 2147483648

/-! ## The printer state -/

/-- The Go struct `ProtoDefinition`: the text built so far, the indentation
counter, and the two read-only descriptors. -/
structure ProtoDefinition where
  builder : String := ""
  indendation : Int := 0
  pb : FileDescriptorProto := {}
  descriptor : FileDescriptor := {}

namespace ProtoDefinition

/-- Go `indent`. -/
def indent (pd : ProtoDefinition) : ProtoDefinition :=
  { pd with indendation := pd.indendation + 1 }

/-- Go `dedent`. -/
def dedent (pd : ProtoDefinition) : ProtoDefinition :=
  { pd with indendation := pd.indendation - 1 }

/-- Go `write`. -/
def write (pd : ProtoDefinition) (s : String) : ProtoDefinition :=
  { pd with builder := pd.builder ++ s }

/-- Go `writeIndented`. -/
def writeIndented (pd : ProtoDefinition) (s : String) : Option ProtoDefinition :=
  match Repeat "  " pd.indendation with
  | none => none
  | some spaces => some ((pd.write spaces).write s)

/-- A Go counting loop `for i := 0; i < xs.Len(); i++ { body(xs.Get(i)) }`. -/
def forEach {α : Type} (body : α → ProtoDefinition → Option ProtoDefinition) :
    List α → ProtoDefinition → Option ProtoDefinition
  | [], pd => some pd
  | x :: xs, pd =>
    match body x pd with
    | none => none
    | some pd1 => forEach body xs pd1

/-- Go `writeMethod`. -/
def writeMethod (method : MethodDescriptor) (pd : ProtoDefinition) :
    Option ProtoDefinition := do
  let pd ← pd.writeIndented "rpc "
  let pd := pd.write method.Name
  let pd := pd.write " ("
  let pd := if method.IsStreamingClient then pd.write "stream " else pd
  let pd := pd.write "."
  let pd := pd.write method.Input
  let pd := pd.write ") returns ("
  let pd := if method.IsStreamingServer then pd.write "stream " else pd
  let pd := pd.write "."
  let pd := pd.write method.Output
  pure (pd.write ") \x7b\x7d\n")

/-- Go `writeService`. -/
def writeService (service : ServiceDescriptor) (pd : ProtoDefinition) :
    Option ProtoDefinition := do
  let pd := pd.write "service "
  let pd := pd.write service.Name
  let pd := pd.write " \x7b\n"
  let pd := pd.indent
  let pd ← forEach writeMethod service.Methods pd
  let pd := pd.dedent
  pd.writeIndented "\x7d\n\n"

mutual
/-- Go `writeType`.  The recursive calls receive `MapKey()` and `MapValue()`,
which may be nil. -/
def writeType : FieldDescriptor → ProtoDefinition → Option ProtoDefinition
  | .mk a mapKey mapValue, pd =>
    if a.Kind = "message" then
      some ((pd.write ".").write a.Message)
    else if a.Kind = "enum" then
      some ((pd.write ".").write a.Enum)
    else if a.Kind = "map" then
      match writeTypeOrNil mapKey (pd.write "map<") with
      | none => none
      | some pd1 =>
        match writeTypeOrNil mapValue (pd1.write ", ") with
        | none => none
        | some pd2 => some (pd2.write ">")
    else
      some (pd.write a.Kind)
/-- Go `writeType` called on a descriptor that may be nil: on nil the call of
`field.Kind()` panics. -/
def writeTypeOrNil : Option FieldDescriptor → ProtoDefinition → Option ProtoDefinition
  | none, _ => none
  | some field, pd => writeType field pd
end

/-- Go `writeField`; `is_oneof` is the variadic argument. -/
def writeField (field : FieldDescriptor) (is_oneof : List Int)
    (pd : ProtoDefinition) : Option ProtoDefinition := do
  let pd ← pd.writeIndented ""
  let pd :=
    if is_oneof.length < 1 then
      if field.attrs.HasOptionalKeyword then
        pd.write "optional "
      else if field.attrs.Cardinality = "repeated" then
        pd.write "repeated "
      else if field.attrs.Cardinality = "required" ∧
          pd.descriptor.SyntaxName = "proto2" then
        pd.write "required "
      else pd
    else pd
  let pd ← writeType field pd
  let pd := pd.write " "
  let pd := pd.write field.attrs.Name
  let pd := pd.write " = "
  let pd := pd.write (Itoa field.attrs.Number)
  let pd :=
    if field.attrs.HasDefault then
      let pd := pd.write " [default = "
      let pd :=
        if field.attrs.Kind = "string" then
          pd.write ("\"" ++ field.attrs.Default ++ "\"")
        else if field.attrs.Kind = "enum" then
          pd.write field.attrs.DefaultEnumValue
        else
          pd.write field.attrs.Default
      if !field.attrs.HasJSONName then pd.write "]" else pd
    else pd
  let pd :=
    if field.attrs.HasJSONName then
      let pd := if !field.attrs.HasDefault then pd.write " [" else pd.write ", "
      let pd := pd.write ("json_name=\"" ++ field.attrs.JSONName ++ "\"")
      pd.write "]"
    else pd
  pure (pd.write ";\n")

/-- Go `writeOneof`. -/
def writeOneof (oneof : OneofDescriptor) (pd : ProtoDefinition) :
    Option ProtoDefinition :=
  if oneof.IsSynthetic then
    match oneof.Fields[0]? with
    | none => none
    | some field => writeField field [] pd
  else do
    let pd ← pd.writeIndented ""
    let pd := pd.write "oneof "
    let pd := pd.write oneof.Name
    let pd := pd.write " \x7b\n"
    let pd := pd.indent
    let pd ← forEach (fun field => writeField field [1]) oneof.Fields pd
    let pd := pd.dedent
    pd.writeIndented "\x7d\n"

/-- The body of the loop over `enum.Values()` in Go `writeEnum`. -/
def writeEnumValue (value : String × Int) (pd : ProtoDefinition) :
    Option ProtoDefinition := do
  let pd ← pd.writeIndented value.1
  let pd := pd.write " = "
  let pd := pd.write (Itoa value.2)
  pure (pd.write ";\n")

/-- Go `writeEnum`. -/
def writeEnum (enum : EnumDescriptor) (pd : ProtoDefinition) :
    Option ProtoDefinition := do
  let pd ← pd.writeIndented "enum "
  let pd := pd.write enum.Name
  let pd := pd.write " \x7b\n"
  let pd := pd.indent
  let pd ← forEach writeEnumValue enum.Values pd
  let pd := pd.dedent
  pd.writeIndented "\x7d\n\n"

/-- The body of the loop over `message.ReservedNames()` in Go `writeMessage`. -/
def writeReservedName (name : String) (pd : ProtoDefinition) :
    Option ProtoDefinition := do
  let pd ← pd.writeIndented "reserved \""
  let pd := pd.write name
  pure (pd.write "\";\n")

/-- The body of the loop over `message.ReservedRanges()` in Go `writeMessage`:
the range is a local copy, its bounds are swapped when inverted, and its end
is decremented in 32-bit arithmetic. -/
def writeReservedRange (reservedRange : Int × Int) (pd : ProtoDefinition) :
    Option ProtoDefinition := do
  let pd ← pd.writeIndented "reserved "
  let r : Int × Int :=
    if reservedRange.1 > reservedRange.2 then (reservedRange.2, reservedRange.1)
    else reservedRange
  let r : Int × Int := (r.1, wrapInt32 (r.2 - 1))
  let pd :=
    if r.1 = r.2 then
      pd.write (Itoa r.1)
    else
      let pd := pd.write (Itoa r.1)
      let pd := pd.write " to "
      if r.2 = MaxValidNumber then pd.write "max" else pd.write (Itoa r.2)
  pure (pd.write ";\n")

/-- The body of the loop over `message.Fields()` in Go `writeMessage`. -/
def writePlainField (field : FieldDescriptor) (pd : ProtoDefinition) :
    Option ProtoDefinition :=
  if field.attrs.ContainingOneof = none then writeField field [] pd else some pd

mutual
/-- Go `writeMessage`. -/
def writeMessage : MessageDescriptor → ProtoDefinition → Option ProtoDefinition
  | .mk name reservedNames reservedRanges messages enums fields oneofs, pd => do
    let pd ← pd.writeIndented "message "
    let pd := pd.write name
    let pd := pd.write " \x7b\n"
    let pd := pd.indent
    let pd ← forEach writeReservedName reservedNames pd
    let pd ← forEach writeReservedRange reservedRanges pd
    let pd ← writeMessages messages pd
    let pd ← forEach writeEnum enums pd
    let pd ← forEach writePlainField fields pd
    let pd ← forEach writeOneof oneofs pd
    let pd := pd.dedent
    pd.writeIndented "\x7d\n\n"
/-- The loop over `message.Messages()` in Go `writeMessage`, and the loop over
the top-level messages in Go `writeFileDescriptor`. -/
def writeMessages : List MessageDescriptor → ProtoDefinition → Option ProtoDefinition
  | [], pd => some pd
  | m :: ms, pd =>
    match writeMessage m pd with
    | none => none
    | some pd1 => writeMessages ms pd1
end

/-- Go `writeImport`. -/
def writeImport (fileImport : FileImport) (pd : ProtoDefinition) :
    Option ProtoDefinition :=
  let pd := pd.write "import "
  let pd := if fileImport.IsPublic then pd.write "public " else pd
  let pd := pd.write "\""
  let pd := pd.write fileImport.Path
  some (pd.write "\";\n")

/-- Go `writeStringFileOptions`. -/
def writeStringFileOptions (name : String) (value : String) (pd : ProtoDefinition) :
    ProtoDefinition :=
  let pd := pd.write "option "
  let pd := pd.write name
  let pd := pd.write " = \""
  let pd := pd.write (ReplaceAll value '\\' "\\\\")
  pd.write "\";\n"

/-- Go `writeBoolFileOptions`. -/
def writeBoolFileOptions (name : String) (value : Bool) (pd : ProtoDefinition) :
    ProtoDefinition :=
  let pd := pd.write "option "
  let pd := pd.write name
  let pd := pd.write " = "
  let pd := pd.write (FormatBool value)
  pd.write ";\n"

end ProtoDefinition

/-- What `reflect` shows of a non-nil option pointer: `Elem()` of kind
`reflect.String` or of kind `reflect.Bool`. -/
inductive ReflectValue where
  | String (s : String)
  | Bool (b : Bool)

/-- `reflect.Value.FieldByName` on the options record: the outer `none` is the
zero Value of a name that is not a field (on which `IsNil` panics), the inner
`none` is a nil pointer. -/
def FileOptions.FieldByName (o : FileOptions) (name : String) :
    Option (Option ReflectValue) :=
  if name = "JavaPackage" then some (o.JavaPackage.map ReflectValue.String)
  else if name = "JavaOuterClassname" then
    some (o.JavaOuterClassname.map ReflectValue.String)
  else if name = "JavaMultipleFiles" then
    some (o.JavaMultipleFiles.map ReflectValue.Bool)
  else if name = "JavaStringCheckUtf8" then
    some (o.JavaStringCheckUtf8.map ReflectValue.Bool)
  else if name = "GoPackage" then some (o.GoPackage.map ReflectValue.String)
  else if name = "CcEnableArenas" then some (o.CcEnableArenas.map ReflectValue.Bool)
  else if name = "ObjcClassPrefix" then
    some (o.ObjcClassPrefix.map ReflectValue.String)
  else if name = "CsharpNamespace" then
    some (o.CsharpNamespace.map ReflectValue.String)
  else if name = "SwiftPrefix" then some (o.SwiftPrefix.map ReflectValue.String)
  else if name = "PhpClassPrefix" then
    some (o.PhpClassPrefix.map ReflectValue.String)
  else if name = "PhpNamespace" then some (o.PhpNamespace.map ReflectValue.String)
  else if name = "PhpMetadataNamespace" then
    some (o.PhpMetadataNamespace.map ReflectValue.String)
  else if name = "RubyPackage" then some (o.RubyPackage.map ReflectValue.String)
  else none

/-- The table `optionDefinitions` of Go `writeFileOptions`: (OptionName,
FieldName) in declaration order. -/
def optionDefinitions : List (String × String) :=
  [("java_package", "JavaPackage"),
   ("java_outer_classname", "JavaOuterClassname"),
   ("java_multiple_files", "JavaMultipleFiles"),
   ("java_string_check_utf8", "JavaStringCheckUtf8"),
   ("go_package", "GoPackage"),
   ("cc_enable_arenas", "CcEnableArenas"),
   ("objc_class_prefix", "ObjcClassPrefix"),
   ("csharp_namespace", "CsharpNamespace"),
   ("swift_prefix", "SwiftPrefix"),
   ("php_class_prefix", "PhpClassPrefix"),
   ("php_namespace", "PhpNamespace"),
   ("php_metadata_namespace", "PhpMetadataNamespace"),
   ("ruby_package", "RubyPackage")]

namespace ProtoDefinition

/-- The body of the loop over `optionDefinitions` in Go `writeFileOptions`; the
loop state is the printer together with the flag `printedOption`. -/
def writeFileOption (options : FileOptions) (option : String × String)
    (st : ProtoDefinition × Bool) : Option (ProtoDefinition × Bool) :=
  match options.FieldByName option.2 with
  | none => none
  | some none => some st
  | some (some (ReflectValue.String s)) =>
    some (st.1.writeStringFileOptions option.1 s, true)
  | some (some (ReflectValue.Bool b)) =>
    some (st.1.writeBoolFileOptions option.1 b, true)

/-- The loop over `optionDefinitions` in Go `writeFileOptions`. -/
def writeFileOptionsLoop (options : FileOptions) :
    List (String × String) → ProtoDefinition × Bool → Option (ProtoDefinition × Bool)
  | [], st => some st
  | option :: rest, st =>
    match writeFileOption options option st with
    | none => none
    | some st1 => writeFileOptionsLoop options rest st1

/-- Go `writeFileOptions`. -/
def writeFileOptions (pd : ProtoDefinition) : Option ProtoDefinition :=
  match pd.pb.GetOptions with
  | none => some pd
  | some options =>
    match writeFileOptionsLoop options optionDefinitions (pd, false) with
    | none => none
    | some (pd1, printedOption) =>
      if printedOption then some (pd1.write "\n") else some pd1

/-- Go `writeFileDescriptor`. -/
def writeFileDescriptor (pd : ProtoDefinition) : Option ProtoDefinition := do
  let pd := pd.write "syntax = \""
  let pd := pd.write pd.descriptor.SyntaxName
  let pd := pd.write "\";\n\n"
  let packageName := pd.descriptor.FullName
  let pd :=
    if packageName ≠ "" then
      ((pd.write "package ").write packageName).write ";\n\n"
    else pd
  let pd ← pd.writeFileOptions
  let pd ← forEach writeImport pd.descriptor.Imports pd
  let pd := if pd.descriptor.Imports.length > 0 then pd.write "\n" else pd
  let pd ← forEach writeService pd.descriptor.Services pd
  let pd ← writeMessages pd.descriptor.Messages pd
  forEach writeEnum pd.descriptor.Enums pd


/-! ## Texts written by the parts of the printer -/

/-- The indentation `writeIndented` writes at the current depth: two spaces
per level. -/
def margin (pd : ProtoDefinition) : String :=
  concat (List.replicate pd.indendation.toNat "  ")

/-- The text `writeType` writes for a field: the builder after `writeType` has
run on an empty printer, `none` when it panics. -/
def typeName (field : FieldDescriptor) : Option String :=
  (writeType field {}).map (fun pd => pd.builder)

/-- The modifier lines 130-138 of `writeField` write: nothing in a oneof
context, and otherwise the first that applies of `optional `, `repeated ` and
(under proto2 only) `required `. -/
def fieldModifier (field : FieldDescriptor) (is_oneof : List Int)
    (pd : ProtoDefinition) : String :=
  if is_oneof.length < 1 then
    if field.attrs.HasOptionalKeyword then "optional "
    else if field.attrs.Cardinality = "repeated" then "repeated "
    else if field.attrs.Cardinality = "required" ∧
        pd.descriptor.SyntaxName = "proto2" then "required "
    else ""
  else ""

/-- The default literal lines 146-153 of `writeField` write. -/
def defaultLiteral (field : FieldDescriptor) : String :=
  if field.attrs.Kind = "string" then "\"" ++ field.attrs.Default ++ "\""
  else if field.attrs.Kind = "enum" then field.attrs.DefaultEnumValue
  else field.attrs.Default

/-- The option clause lines 144-167 of `writeField` write after the number. -/
def fieldOptions (field : FieldDescriptor) : String :=
  (if field.attrs.HasDefault then
    " [default = " ++ defaultLiteral field ++
      (if field.attrs.HasJSONName then "" else "]")
  else "") ++
  (if field.attrs.HasJSONName then
    (if field.attrs.HasDefault then ", " else " [") ++
      "json_name=\"" ++ field.attrs.JSONName ++ "\"" ++ "]"
  else "")

/-- The line `writeStringFileOptions` writes for a string option under `key`
when the option is present; no text when it is absent. -/
def stringOptionLine (key : String) : Option String → String
  | none => ""
  | some v => "option " ++ key ++ " = \"" ++ ReplaceAll v '\\' "\\\\" ++ "\";\n"

/-- The line `writeBoolFileOptions` writes for a bool option under `key` when
the option is present; no text when it is absent. -/
def boolOptionLine (key : String) : Option Bool → String
  | none => ""
  | some b => "option " ++ key ++ " = " ++ FormatBool b ++ ";\n"

/-- The double-quote character. -/
def doubleQuote : Char := Char.ofNat 34

/-- The number of unescaped double quotes of a text, read from left to right:
a backslash escapes the character after it, and a double quote counts when it
is not escaped.  The flag tells whether the character before was an escaping
backslash. -/
def unescapedQuotes : List Char → Bool → Nat
  | [], _ => 0
  | _ :: cs, true => unescapedQuotes cs false
  | c :: cs, false =>
    if c = '\\' then unescapedQuotes cs true
    else if c = doubleQuote then unescapedQuotes cs false + 1
    else unescapedQuotes cs false

/-- `strings.Index(s, sep)` for a one-character `sep`: the position of the
first occurrence of the character, `-1` when there is none.  Positions count
characters; the text before the position is the same as with the byte
positions of Go, the separator being an ASCII character. -/
def Index (s : String) (sep : Char) : Int :=
  if sep ∈ s.toList then (s.toList.indexOf sep : Nat) else -1

/-- The Go slice `s[:n]`. -/
def slicePrefix (s : String) (n : Int) : String :=
  String.mk (s.toList.take n.toNat)

/-- `pb.GetOptions().GetGoPackage()`: the getters of the protobuf library
return the empty string for a nil options record and for an unset field. -/
def GetGoPackage (pb : FileDescriptorProto) : String :=
  match pb.GetOptions with
  | none => ""
  | some o =>
    match o.GoPackage with
    | none => ""
    | some g => g

/-- Go `Filename`.  `path.Join` (of two elements) and `path.Base` belong to the
Go standard library, not to this repository, and are parameters. -/
def Filename (Join : String → String → String) (Base : String → String)
    (pd : ProtoDefinition) : String :=
  let goPackage := GetGoPackage pd.pb
  let index := Index goPackage ';'
  if index = -1 then pd.descriptor.Path
  else Join (slicePrefix goPackage index) (Base pd.descriptor.Path)

/-! ## The emitted text as a list of lines -/

/-- A line of the emitted text: a blank line, or a statement line with its
nesting level and its content (the text after the indentation and before the
newline). -/
inductive Line where
  | blank
  | stmt (level : Nat) (content : String)

/-- The text of a line: a statement line is 2 times level space characters, its
content and a newline; a blank line is a newline. -/
def Line.render : Line → String
  | .blank => "\n"
  | .stmt level content =>
    String.mk (List.replicate (2 * level) ' ') ++ content ++ "\n"

/-- The text of a list of lines. -/
def render (ls : List Line) : String :=
  concat (ls.map Line.render)

/-- The content of the statement the loop body `writeReservedRange` writes. -/
def reservedRangeText (reservedRange : Int × Int) : String :=
  "reserved " ++
    Itoa (if reservedRange.1 > reservedRange.2 then reservedRange.2
      else reservedRange.1) ++
    (if (if reservedRange.1 > reservedRange.2 then reservedRange.2
          else reservedRange.1) =
        wrapInt32 ((if reservedRange.1 > reservedRange.2 then reservedRange.1
          else reservedRange.2) - 1) then ""
     else if wrapInt32 ((if reservedRange.1 > reservedRange.2 then reservedRange.1
          else reservedRange.2) - 1) = MaxValidNumber then " to max"
     else " to " ++ Itoa (wrapInt32 ((if reservedRange.1 > reservedRange.2
          then reservedRange.1 else reservedRange.2) - 1))) ++
    ";"

/-- The line `writeField` writes for a field at a nesting level, in a file
with descriptor `d`; the type is the text of `writeType`. -/
def fieldLine (d : FileDescriptor) (is_oneof : List Int) (level : Nat)
    (field : FieldDescriptor) : Line :=
  .stmt level
    (fieldModifier field is_oneof { descriptor := d } ++ (typeName field).getD "" ++
      " " ++ field.attrs.Name ++ " = " ++ Itoa field.attrs.Number ++
      fieldOptions field ++ ";")

/-- The lines `writeOneof` writes: for a synthetic oneof the line of its first
member as a plain field, otherwise the header, the members one level deeper
and the closing brace. -/
def oneofLines (d : FileDescriptor) (level : Nat) (oneof : OneofDescriptor) :
    List Line :=
  if oneof.IsSynthetic then
    (oneof.Fields.take 1).map (fieldLine d [] level)
  else
    [Line.stmt level ("oneof " ++ oneof.Name ++ " \x7b")] ++
      oneof.Fields.map (fieldLine d [1] (level + 1)) ++
      [Line.stmt level "\x7d"]

/-- The lines `writeEnum` writes. -/
def enumLines (level : Nat) (enum : EnumDescriptor) : List Line :=
  [Line.stmt level ("enum " ++ enum.Name ++ " \x7b")] ++
    enum.Values.map (fun v => Line.stmt (level + 1) (v.1 ++ " = " ++ Itoa v.2 ++ ";")) ++
    [Line.stmt level "\x7d", Line.blank]

mutual
/-- The lines `writeMessage` writes: the header, then one level deeper the
reserved names, the reserved ranges, the nested messages, the nested enums,
the fields outside a oneof and the oneofs, then the closing brace and a blank
line. -/
def messageLines (d : FileDescriptor) : Nat → MessageDescriptor → List Line
  | level, .mk name reservedNames reservedRanges messages enums fields oneofs =>
    [Line.stmt level ("message " ++ name ++ " \x7b")] ++
      reservedNames.map (fun n => Line.stmt (level + 1) ("reserved \"" ++ n ++ "\";")) ++
      reservedRanges.map (fun r => Line.stmt (level + 1) (reservedRangeText r)) ++
      messagesLines d (level + 1) messages ++
      enums.flatMap (enumLines (level + 1)) ++
      (fields.filter (fun f => f.attrs.ContainingOneof = none)).map
        (fieldLine d [] (level + 1)) ++
      oneofs.flatMap (oneofLines d (level + 1)) ++
      [Line.stmt level "\x7d", Line.blank]
/-- The lines of a sequence of messages, one message after the other. -/
def messagesLines (d : FileDescriptor) : Nat → List MessageDescriptor → List Line
  | _, [] => []
  | level, m :: ms => messageLines d level m ++ messagesLines d level ms
end

/-- The line `writeMethod` writes. -/
def methodLine (level : Nat) (method : MethodDescriptor) : Line :=
  .stmt level
    ("rpc " ++ method.Name ++ " (" ++
      (if method.IsStreamingClient then "stream " else "") ++ "." ++ method.Input ++
      ") returns (" ++
      (if method.IsStreamingServer then "stream " else "") ++ "." ++ method.Output ++
      ") \x7b\x7d")

/-- The lines `writeService` writes for a top-level service. -/
def serviceLines (service : ServiceDescriptor) : List Line :=
  [Line.stmt 0 ("service " ++ service.Name ++ " \x7b")] ++
    service.Methods.map (methodLine 1) ++
    [Line.stmt 0 "\x7d", Line.blank]

/-- The line `writeImport` writes. -/
def importLine (fileImport : FileImport) : Line :=
  .stmt 0 ("import " ++ (if fileImport.IsPublic then "public " else "") ++ "\"" ++
    fileImport.Path ++ "\";")

/-- The line of one entry of `optionDefinitions`, when the option is present. -/
def optionLine (options : FileOptions) (option : String × String) : Option Line :=
  match options.FieldByName option.2 with
  | some (some (ReflectValue.String s)) =>
    some (.stmt 0 ("option " ++ option.1 ++ " = \"" ++ ReplaceAll s '\\' "\\\\" ++ "\";"))
  | some (some (ReflectValue.Bool b)) =>
    some (.stmt 0 ("option " ++ option.1 ++ " = " ++ FormatBool b ++ ";"))
  | _ => none

/-- The lines `writeFileOptions` writes: the lines of the present options in
the order of `optionDefinitions`, and a blank line after them when there is at
least one. -/
def optionsLines : Option FileOptions → List Line
  | none => []
  | some options =>
    optionDefinitions.filterMap (optionLine options) ++
      (if (optionDefinitions.filterMap (optionLine options)).isEmpty then []
       else [Line.blank])

/-- The lines `writeFileDescriptor` writes. -/
def fileLines (pb : FileDescriptorProto) (d : FileDescriptor) : List Line :=
  [Line.stmt 0 ("syntax = \"" ++ d.SyntaxName ++ "\";"), Line.blank] ++
    (if d.FullName ≠ "" then [Line.stmt 0 ("package " ++ d.FullName ++ ";"), Line.blank]
     else []) ++
    optionsLines pb.GetOptions ++
    d.Imports.map importLine ++
    (if d.Imports.length > 0 then [Line.blank] else []) ++
    d.Services.flatMap serviceLines ++
    messagesLines d 0 d.Messages ++
    d.Enums.flatMap (enumLines 0)

/-! ## Well-formed descriptor trees -/

mutual
/-- A field descriptor honours the contract of `protoreflect` for map fields:
when its kind is reported as `map`, its key and its value descriptor are not
nil, and they are well-formed in turn. -/
def wellFormedField : FieldDescriptor → Bool
  | .mk a mapKey mapValue =>
    if a.Kind = "map" then wellFormedFieldOrNil mapKey && wellFormedFieldOrNil mapValue
    else true
/-- A descriptor that may be nil is not nil and well-formed. -/
def wellFormedFieldOrNil : Option FieldDescriptor → Bool
  | none => false
  | some field => wellFormedField field
end

/-- A oneof is well-formed when it has a member if it is synthetic, and its
members are well-formed fields. -/
def wellFormedOneof (oneof : OneofDescriptor) : Bool :=
  (!oneof.IsSynthetic || !oneof.Fields.isEmpty) && oneof.Fields.all wellFormedField

mutual
/-- A message is well-formed when its fields, its oneofs and its nested
messages are. -/
def wellFormedMessage : MessageDescriptor → Bool
  | .mk _ _ _ messages _ fields oneofs =>
    wellFormedMessages messages && fields.all wellFormedField &&
      oneofs.all wellFormedOneof
/-- All messages of a sequence are well-formed. -/
def wellFormedMessages : List MessageDescriptor → Bool
  | [] => true
  | m :: ms => wellFormedMessage m && wellFormedMessages ms
end

/-- The printer state stands at a nesting level of a file: its indentation
counter is the level and its file descriptor is `d`. -/
def AtLevel (d : FileDescriptor) (level : Nat) (pd : ProtoDefinition) : Prop :=
  pd.indendation = level ∧ pd.descriptor = d

/-! ## Lines of the text and tidy strings -/

/-- A text is free of newline characters. -/
def noNewline (s : String) : Bool :=
  s.data.all (fun c => c != '\n')

/-- A text is a word: not empty and free of spaces and newlines. -/
def isWord (s : String) : Bool :=
  !s.data.isEmpty && s.data.all (fun c => c != ' ' && c != '\n')

/-- A text is not empty and its first character is not a space. -/
def startsWithNonSpace (s : String) : Bool :=
  match s.data with
  | [] => false
  | c :: _ => c != ' '

/-- A statement line is proper when its content starts with a character that
is not a space and contains no newline, so that its text is one line of the
output; a blank line is proper. -/
def Line.proper : Line → Bool
  | .blank => true
  | .stmt _ content => startsWithNonSpace content && noNewline content

mutual
/-- The strings of a field are tidy: its kind name and its name are words, its
type names, default values and JSON name are free of newlines, and so are
those of its key and value descriptors. -/
def tidyField : FieldDescriptor → Bool
  | .mk a mapKey mapValue =>
    isWord a.Kind && isWord a.Name && noNewline a.Message && noNewline a.Enum &&
      noNewline a.Default && noNewline a.DefaultEnumValue && noNewline a.JSONName &&
      tidyFieldOrNil mapKey && tidyFieldOrNil mapValue
/-- A descriptor that may be nil is nil or tidy. -/
def tidyFieldOrNil : Option FieldDescriptor → Bool
  | none => true
  | some field => tidyField field
end

/-- The name of a oneof is a word and its members are tidy. -/
def tidyOneof (oneof : OneofDescriptor) : Bool :=
  isWord oneof.Name && oneof.Fields.all tidyField

/-- The name of an enum and the names of its values are words. -/
def tidyEnum (enum : EnumDescriptor) : Bool :=
  isWord enum.Name && enum.Values.all (fun v => isWord v.1)

mutual
/-- The strings of a message are tidy: its name and its reserved names are
words, and its nested messages, enums, fields and oneofs are tidy. -/
def tidyMessage : MessageDescriptor → Bool
  | .mk name reservedNames _ messages enums fields oneofs =>
    isWord name && reservedNames.all isWord && tidyMessages messages &&
      enums.all tidyEnum && fields.all tidyField && oneofs.all tidyOneof
/-- All messages of a sequence are tidy. -/
def tidyMessages : List MessageDescriptor → Bool
  | [] => true
  | m :: ms => tidyMessage m && tidyMessages ms
end

/-- The name of a method is a word and its type names are free of newlines. -/
def tidyMethod (method : MethodDescriptor) : Bool :=
  isWord method.Name && noNewline method.Input && noNewline method.Output

/-- The name of a service is a word and its methods are tidy. -/
def tidyService (service : ServiceDescriptor) : Bool :=
  isWord service.Name && service.Methods.all tidyMethod

/-- A string option that is present is free of newlines. -/
def tidyOption (value : Option String) : Bool :=
  match value with
  | none => true
  | some v => noNewline v

/-- The string options of an options record are free of newlines. -/
def tidyOptions : Option FileOptions → Bool
  | none => true
  | some o =>
    tidyOption o.JavaPackage && tidyOption o.JavaOuterClassname &&
      tidyOption o.GoPackage && tidyOption o.ObjcClassPrefix &&
      tidyOption o.CsharpNamespace && tidyOption o.SwiftPrefix &&
      tidyOption o.PhpClassPrefix && tidyOption o.PhpNamespace &&
      tidyOption o.PhpMetadataNamespace && tidyOption o.RubyPackage

/-- The strings of a file are tidy: every name is a word, and the syntax name,
the package name, the option values, the import paths, the type names, the
default values and the JSON names are free of newlines. -/
def tidyFile (pb : FileDescriptorProto) (d : FileDescriptor) : Bool :=
  noNewline d.SyntaxName && noNewline d.FullName && tidyOptions pb.GetOptions &&
    d.Imports.all (fun i => noNewline i.Path) && d.Services.all tidyService &&
    tidyMessages d.Messages && d.Enums.all tidyEnum

/-- The lines of a text: the pieces between its newline characters. -/
def textLines : List Char → List (List Char)
  | [] => [[]]
  | c :: cs =>
    if c = '\n' then [] :: textLines cs
    else
      match textLines cs with
      | [] => [[c]]
      | l :: ls => (c :: l) :: ls

/-- The number of space characters a line begins with. -/
def leadingSpaces : List Char → Nat
  | [] => 0
  | c :: cs => if c = ' ' then leadingSpaces cs + 1 else 0

/-- The characters of a line without its newline. -/
def Line.chars : Line → List Char
  | .blank => []
  | .stmt level content => List.replicate (2 * level) ' ' ++ content.data

/-! ## The printer with a log of the indentation counter

The same code once more, run on a printer that records every value assigned to
`indendation`.  The counter is assigned in Go `indent` and Go `dedent` only,
so these two append to the log; the other functions are embedded as above, on
the logged state.  A run returns `ok` with the final state, or `error` with
the state in which the Go code panics. -/

end ProtoDefinition

/-- The printer together with the log of its indentation counter: the values
assigned to the counter so far, oldest first. -/
structure Logged where
  pd : ProtoDefinition := {}
  log : List Int := []

namespace Logged

/-- Go `indent`; the value assigned to the counter is appended to the log. -/
def indent (l : Logged) : Logged :=
  { pd := l.pd.indent, log := l.log ++ [l.pd.indent.indendation] }

/-- Go `dedent`; the value assigned to the counter is appended to the log. -/
def dedent (l : Logged) : Logged :=
  { pd := l.pd.dedent, log := l.log ++ [l.pd.dedent.indendation] }

/-- Go `write`. -/
def write (l : Logged) (s : String) : Logged :=
  { l with pd := l.pd.write s }

/-- Go `writeIndented`. -/
def writeIndented (l : Logged) (s : String) : Except Logged Logged :=
  match Repeat "  " l.pd.indendation with
  | none => .error l
  | some spaces => .ok ((l.write spaces).write s)

/-- A Go counting loop `for i := 0; i < xs.Len(); i++ { body(xs.Get(i)) }`. -/
def forEach {α : Type} (body : α → Logged → Except Logged Logged) :
    List α → Logged → Except Logged Logged
  | [], l => .ok l
  | x :: xs, l =>
    match body x l with
    | .error e => .error e
    | .ok l1 => forEach body xs l1

/-- Go `writeMethod`. -/
def writeMethod (method : MethodDescriptor) (l : Logged) : Except Logged Logged := do
  let l ← l.writeIndented "rpc "
  let l := l.write method.Name
  let l := l.write " ("
  let l := if method.IsStreamingClient then l.write "stream " else l
  let l := l.write "."
  let l := l.write method.Input
  let l := l.write ") returns ("
  let l := if method.IsStreamingServer then l.write "stream " else l
  let l := l.write "."
  let l := l.write method.Output
  pure (l.write ") \x7b\x7d\n")

/-- Go `writeService`. -/
def writeService (service : ServiceDescriptor) (l : Logged) : Except Logged Logged := do
  let l := l.write "service "
  let l := l.write service.Name
  let l := l.write " \x7b\n"
  let l := l.indent
  let l ← forEach writeMethod service.Methods l
  let l := l.dedent
  l.writeIndented "\x7d\n\n"

mutual
/-- Go `writeType`. -/
def writeType : FieldDescriptor → Logged → Except Logged Logged
  | .mk a mapKey mapValue, l =>
    if a.Kind = "message" then
      .ok ((l.write ".").write a.Message)
    else if a.Kind = "enum" then
      .ok ((l.write ".").write a.Enum)
    else if a.Kind = "map" then
      match writeTypeOrNil mapKey (l.write "map<") with
      | .error e => .error e
      | .ok l1 =>
        match writeTypeOrNil mapValue (l1.write ", ") with
        | .error e => .error e
        | .ok l2 => .ok (l2.write ">")
    else
      .ok (l.write a.Kind)
/-- Go `writeType` called on a descriptor that may be nil: on nil the call of
`field.Kind()` panics. -/
def writeTypeOrNil : Option FieldDescriptor → Logged → Except Logged Logged
  | none, l => .error l
  | some field, l => writeType field l
end

/-- Go `writeField`; `is_oneof` is the variadic argument. -/
def writeField (field : FieldDescriptor) (is_oneof : List Int)
    (l : Logged) : Except Logged Logged := do
  let l ← l.writeIndented ""
  let l :=
    if is_oneof.length < 1 then
      if field.attrs.HasOptionalKeyword then
        l.write "optional "
      else if field.attrs.Cardinality = "repeated" then
        l.write "repeated "
      else if field.attrs.Cardinality = "required" ∧
          l.pd.descriptor.SyntaxName = "proto2" then
        l.write "required "
      else l
    else l
  let l ← writeType field l
  let l := l.write " "
  let l := l.write field.attrs.Name
  let l := l.write " = "
  let l := l.write (Itoa field.attrs.Number)
  let l :=
    if field.attrs.HasDefault then
      let l := l.write " [default = "
      let l :=
        if field.attrs.Kind = "string" then
          l.write ("\"" ++ field.attrs.Default ++ "\"")
        else if field.attrs.Kind = "enum" then
          l.write field.attrs.DefaultEnumValue
        else
          l.write field.attrs.Default
      if !field.attrs.HasJSONName then l.write "]" else l
    else l
  let l :=
    if field.attrs.HasJSONName then
      let l := if !field.attrs.HasDefault then l.write " [" else l.write ", "
      let l := l.write ("json_name=\"" ++ field.attrs.JSONName ++ "\"")
      l.write "]"
    else l
  pure (l.write ";\n")

/-- Go `writeOneof`. -/
def writeOneof (oneof : OneofDescriptor) (l : Logged) : Except Logged Logged :=
  if oneof.IsSynthetic then
    match oneof.Fields[0]? with
    | none => .error l
    | some field => writeField field [] l
  else do
    let l ← l.writeIndented ""
    let l := l.write "oneof "
    let l := l.write oneof.Name
    let l := l.write " \x7b\n"
    let l := l.indent
    let l ← forEach (fun field => writeField field [1]) oneof.Fields l
    let l := l.dedent
    l.writeIndented "\x7d\n"

/-- The body of the loop over `enum.Values()` in Go `writeEnum`. -/
def writeEnumValue (value : String × Int) (l : Logged) : Except Logged Logged := do
  let l ← l.writeIndented value.1
  let l := l.write " = "
  let l := l.write (Itoa value.2)
  pure (l.write ";\n")

/-- Go `writeEnum`. -/
def writeEnum (enum : EnumDescriptor) (l : Logged) : Except Logged Logged := do
  let l ← l.writeIndented "enum "
  let l := l.write enum.Name
  let l := l.write " \x7b\n"
  let l := l.indent
  let l ← forEach writeEnumValue enum.Values l
  let l := l.dedent
  l.writeIndented "\x7d\n\n"

/-- The body of the loop over `message.ReservedNames()` in Go `writeMessage`. -/
def writeReservedName (name : String) (l : Logged) : Except Logged Logged := do
  let l ← l.writeIndented "reserved \""
  let l := l.write name
  pure (l.write "\";\n")

/-- The body of the loop over `message.ReservedRanges()` in Go `writeMessage`. -/
def writeReservedRange (reservedRange : Int × Int) (l : Logged) : Except Logged Logged := do
  let l ← l.writeIndented "reserved "
  let r : Int × Int :=
    if reservedRange.1 > reservedRange.2 then (reservedRange.2, reservedRange.1)
    else reservedRange
  let r : Int × Int := (r.1, wrapInt32 (r.2 - 1))
  let l :=
    if r.1 = r.2 then
      l.write (Itoa r.1)
    else
      let l := l.write (Itoa r.1)
      let l := l.write " to "
      if r.2 = MaxValidNumber then l.write "max" else l.write (Itoa r.2)
  pure (l.write ";\n")

/-- The body of the loop over `message.Fields()` in Go `writeMessage`. -/
def writePlainField (field : FieldDescriptor) (l : Logged) : Except Logged Logged :=
  if field.attrs.ContainingOneof = none then writeField field [] l else .ok l

mutual
/-- Go `writeMessage`. -/
def writeMessage : MessageDescriptor → Logged → Except Logged Logged
  | .mk name reservedNames reservedRanges messages enums fields oneofs, l => do
    let l ← l.writeIndented "message "
    let l := l.write name
    let l := l.write " \x7b\n"
    let l := l.indent
    let l ← forEach writeReservedName reservedNames l
    let l ← forEach writeReservedRange reservedRanges l
    let l ← writeMessages messages l
    let l ← forEach writeEnum enums l
    let l ← forEach writePlainField fields l
    let l ← forEach writeOneof oneofs l
    let l := l.dedent
    l.writeIndented "\x7d\n\n"
/-- The loop over `message.Messages()` in Go `writeMessage`, and the loop over
the top-level messages in Go `writeFileDescriptor`. -/
def writeMessages : List MessageDescriptor → Logged → Except Logged Logged
  | [], l => .ok l
  | m :: ms, l =>
    match writeMessage m l with
    | .error e => .error e
    | .ok l1 => writeMessages ms l1
end

/-- Go `writeImport`. -/
def writeImport (fileImport : FileImport) (l : Logged) : Except Logged Logged :=
  let l := l.write "import "
  let l := if fileImport.IsPublic then l.write "public " else l
  let l := l.write "\""
  let l := l.write fileImport.Path
  .ok (l.write "\";\n")

/-- Go `writeStringFileOptions`. -/
def writeStringFileOptions (name : String) (value : String) (l : Logged) : Logged :=
  let l := l.write "option "
  let l := l.write name
  let l := l.write " = \""
  let l := l.write (ReplaceAll value '\\' "\\\\")
  l.write "\";\n"

/-- Go `writeBoolFileOptions`. -/
def writeBoolFileOptions (name : String) (value : Bool) (l : Logged) : Logged :=
  let l := l.write "option "
  let l := l.write name
  let l := l.write " = "
  let l := l.write (FormatBool value)
  l.write ";\n"

/-- The body of the loop over `optionDefinitions` in Go `writeFileOptions`. -/
def writeFileOption (options : FileOptions) (option : String × String)
    (st : Logged × Bool) : Except Logged (Logged × Bool) :=
  match options.FieldByName option.2 with
  | none => .error st.1
  | some none => .ok st
  | some (some (ReflectValue.String s)) =>
    .ok (st.1.writeStringFileOptions option.1 s, true)
  | some (some (ReflectValue.Bool b)) =>
    .ok (st.1.writeBoolFileOptions option.1 b, true)

/-- The loop over `optionDefinitions` in Go `writeFileOptions`. -/
def writeFileOptionsLoop (options : FileOptions) :
    List (String × String) → Logged × Bool → Except Logged (Logged × Bool)
  | [], st => .ok st
  | option :: rest, st =>
    match writeFileOption options option st with
    | .error e => .error e
    | .ok st1 => writeFileOptionsLoop options rest st1

/-- Go `writeFileOptions`. -/
def writeFileOptions (l : Logged) : Except Logged Logged :=
  match l.pd.pb.GetOptions with
  | none => .ok l
  | some options =>
    match writeFileOptionsLoop options optionDefinitions (l, false) with
    | .error e => .error e
    | .ok (l1, printedOption) =>
      if printedOption then .ok (l1.write "\n") else .ok l1

/-- Go `writeFileDescriptor`. -/
def writeFileDescriptor (l : Logged) : Except Logged Logged := do
  let l := l.write "syntax = \""
  let l := l.write l.pd.descriptor.SyntaxName
  let l := l.write "\";\n\n"
  let packageName := l.pd.descriptor.FullName
  let l :=
    if packageName ≠ "" then
      ((l.write "package ").write packageName).write ";\n\n"
    else l
  let l ← l.writeFileOptions
  let l ← forEach writeImport l.pd.descriptor.Imports l
  let l := if l.pd.descriptor.Imports.length > 0 then l.write "\n" else l
  let l ← forEach writeService l.pd.descriptor.Services l
  let l ← writeMessages l.pd.descriptor.Messages l
  forEach writeEnum l.pd.descriptor.Enums l

/-- From `l` to `r` the counter was assigned only values that are not below its
value in `l`: the log of `r` is the log of `l` followed by such values. -/
def NeverBelow (l r : Logged) : Prop :=
  ∃ ext : List Int, r.log = l.log ++ ext ∧ ∀ d ∈ ext, l.pd.indendation ≤ d

/-- From `l` to `r` the counter never was below its value in `l`, and in `r` it
has that value again. -/
def Balanced (l r : Logged) : Prop :=
  r.pd.indendation = l.pd.indendation ∧ NeverBelow l r

/-- The outcome of a run started in `l`: a run that returns is balanced, and a
run that panics never had the counter below its value in `l` either. -/
def Within (l : Logged) : Except Logged Logged → Prop
  | .ok r => Balanced l r
  | .error e => NeverBelow l e

/-- A run of a function that does not assign the counter, against the same
function of the printer: both return, with the same printer state and the log
`g` unchanged, or both panic, with the log `g` unchanged. -/
def Leaf (g : List Int) : Except Logged Logged → Option ProtoDefinition → Prop
  | .ok r, some p => r = { pd := p, log := g }
  | .error e, none => e.log = g
  | _, _ => False

end Logged

namespace ProtoDefinition

/-! ## Lemmas on the printer state -/

theorem write_write (pd : ProtoDefinition) (s t : String) :
    (pd.write s).write t = pd.write (s ++ t) := by
  simp [write, String.append_assoc]

theorem write_congr (pd : ProtoDefinition) {s t : String} (h : s.data = t.data) :
    pd.write s = pd.write t := by
  rw [String.ext h]

theorem write_empty (pd : ProtoDefinition) : pd.write "" = pd := by
  simp [write]

theorem writeIndented_eq (pd : ProtoDefinition) (s : String)
    (h : 0 ≤ pd.indendation) :
    pd.writeIndented s = some (pd.write (pd.margin ++ s)) := by
  have h1 : ¬ pd.indendation < 0 := not_lt.mpr h
  simp [writeIndented, Repeat, h1, margin, write_write]

theorem writeType_cases : ∀ field : FieldDescriptor,
    (∃ t, ∀ pd, writeType field pd = some (pd.write t)) ∨
      (∀ pd, writeType field pd = none)
  | .mk a mapKey mapValue => by
    have hk : (∃ t, ∀ pd, writeTypeOrNil mapKey pd = some (pd.write t)) ∨
        (∀ pd, writeTypeOrNil mapKey pd = none) := by
      cases mapKey with
      | none => exact Or.inr (fun _ => rfl)
      | some k => simpa [writeTypeOrNil] using writeType_cases k
    have hv : (∃ t, ∀ pd, writeTypeOrNil mapValue pd = some (pd.write t)) ∨
        (∀ pd, writeTypeOrNil mapValue pd = none) := by
      cases mapValue with
      | none => exact Or.inr (fun _ => rfl)
      | some v => simpa [writeTypeOrNil] using writeType_cases v
    by_cases h1 : a.Kind = "message"
    · exact Or.inl ⟨"." ++ a.Message, fun pd => by simp [writeType, h1, write_write]⟩
    by_cases h2 : a.Kind = "enum"
    · exact Or.inl ⟨"." ++ a.Enum, fun pd => by simp [writeType, h1, h2, write_write]⟩
    by_cases h3 : a.Kind = "map"
    · rcases hk with ⟨tk, hk⟩ | hk
      · rcases hv with ⟨tv, hv⟩ | hv
        · exact Or.inl ⟨"map<" ++ tk ++ ", " ++ tv ++ ">", fun pd => by
            simp [writeType, h1, h2, h3, hk, hv, write_write]⟩
        · exact Or.inr (fun pd => by simp [writeType, h1, h2, h3, hk, hv])
      · exact Or.inr (fun pd => by simp [writeType, h1, h2, h3, hk])
    · exact Or.inl ⟨a.Kind, fun pd => by simp [writeType, h1, h2, h3]⟩

theorem writeType_frame (field : FieldDescriptor) (pd : ProtoDefinition) :
    writeType field pd = (typeName field).map (fun t => pd.write t) := by
  rcases writeType_cases field with ⟨t, h⟩ | h
  · simp [typeName, h, write]
  · simp [typeName, h]

theorem writeType_of_typeName {field : FieldDescriptor} {t : String}
    (h : typeName field = some t) (pd : ProtoDefinition) :
    writeType field pd = some (pd.write t) := by
  simp [writeType_frame, h]

theorem typeName_map_branch (a : FieldAttrs) (k v : FieldDescriptor)
    (tk tv : String) (hkind : a.Kind = "map")
    (hk : typeName k = some tk) (hv : typeName v = some tv) :
    typeName (.mk a (some k) (some v)) = some ("map<" ++ tk ++ ", " ++ tv ++ ">") := by
  have h1 : ¬ "map" = "message" := by decide
  have h2 : ¬ "map" = "enum" := by decide
  simp [typeName, writeType, writeTypeOrNil, hkind, h1, h2, writeType_of_typeName hk,
    writeType_of_typeName hv, write, String.append_assoc]

theorem writeField_eq (field : FieldDescriptor) (is_oneof : List Int)
    (pd : ProtoDefinition) (t : String) (h : 0 ≤ pd.indendation)
    (ht : typeName field = some t) :
    writeField field is_oneof pd =
      some (pd.write (pd.margin ++ fieldModifier field is_oneof pd ++ t ++ " " ++
        field.attrs.Name ++ " = " ++ Itoa field.attrs.Number ++
        fieldOptions field ++ ";\n")) := by
  unfold writeField
  rw [writeIndented_eq pd "" h]
  simp only [Option.bind_eq_bind, Option.some_bind, Option.pure_def]
  have key : ∀ q : ProtoDefinition, q.descriptor = pd.descriptor →
      (if is_oneof.length < 1 then
        if field.attrs.HasOptionalKeyword then q.write "optional "
        else if field.attrs.Cardinality = "repeated" then q.write "repeated "
        else if field.attrs.Cardinality = "required" ∧
            q.descriptor.SyntaxName = "proto2" then q.write "required "
        else q
      else q) = q.write (fieldModifier field is_oneof pd) := by
    intro q hq
    unfold fieldModifier
    rw [hq]
    split_ifs <;> simp [write_empty]
  rw [key _ (by simp [write])]
  rw [writeType_of_typeName ht]
  simp only [Option.some_bind]
  unfold fieldOptions defaultLiteral
  by_cases hs : field.attrs.Kind = "string" <;>
    by_cases he : field.attrs.Kind = "enum" <;>
    cases field.attrs.HasDefault <;> cases field.attrs.HasJSONName <;>
    simp [hs, he, write_write] <;>
    (apply write_congr; simp)

theorem margin_write (pd : ProtoDefinition) (s : String) :
    (pd.write s).margin = pd.margin := rfl

theorem indendation_write (pd : ProtoDefinition) (s : String) :
    (pd.write s).indendation = pd.indendation := rfl

theorem dedent_indent_write (pd : ProtoDefinition) (s : String) :
    (pd.indent.write s).dedent = pd.write s := by
  simp [indent, dedent, write]

theorem indent_write (pd : ProtoDefinition) (s : String) :
    (pd.write s).indent = pd.indent.write s := rfl

theorem concat_replicate_succ (s : String) (n : Nat) :
    concat (List.replicate (n + 1) s) = concat (List.replicate n s) ++ s := by
  induction n with
  | zero => simp [concat]
  | succ k ih =>
    have step : concat (List.replicate (k + 1 + 1) s) =
        s ++ concat (List.replicate (k + 1) s) := rfl
    have base : concat (List.replicate (k + 1) s) =
        s ++ concat (List.replicate k s) := rfl
    rw [step, ih, ← String.append_assoc, ← base, ih]

theorem margin_indent (pd : ProtoDefinition) (h : 0 ≤ pd.indendation) :
    pd.indent.margin = pd.margin ++ "  " := by
  obtain ⟨n, hn⟩ := Int.eq_ofNat_of_zero_le h
  have h1 : (pd.indendation + 1).toNat = n + 1 := by
    rw [hn]
    rfl
  have h2 : pd.indendation.toNat = n := by
    rw [hn]
    rfl
  simp only [margin, indent, h1, h2, concat_replicate_succ]

theorem forEach_oneof_members (ty : FieldDescriptor → String) :
    ∀ (fields : List FieldDescriptor) (pd : ProtoDefinition),
      0 ≤ pd.indendation →
      (∀ f ∈ fields, typeName f = some (ty f)) →
      forEach (fun field => writeField field [1]) fields pd =
        some (pd.write (concat (fields.map (fun f =>
          pd.margin ++ ty f ++ " " ++ f.attrs.Name ++ " = " ++ Itoa f.attrs.Number ++
            fieldOptions f ++ ";\n"))))
  | [], pd, _, _ => by simp [forEach, concat, write_empty]
  | f :: fs, pd, h, ht => by
    have hf : typeName f = some (ty f) := ht f (List.mem_cons_self _ _)
    have hfs : ∀ g ∈ fs, typeName g = some (ty g) :=
      fun g hg => ht g (List.mem_cons_of_mem _ hg)
    simp only [forEach]
    rw [writeField_eq f [1] pd (ty f) h hf]
    simp only []
    rw [forEach_oneof_members ty fs _ (by simpa [indendation_write] using h) hfs]
    simp only [write_write, margin_write, Option.some.injEq]
    apply write_congr
    simp [fieldModifier, concat]

theorem forEach_lines {α : Type} (body : α → ProtoDefinition → Option ProtoDefinition)
    (line : α → String) (n : Int) :
    ∀ (xs : List α) (pd : ProtoDefinition), pd.indendation = n →
      (∀ x ∈ xs, ∀ q : ProtoDefinition, q.indendation = n →
        body x q = some (q.write (line x))) →
      forEach body xs pd = some (pd.write (concat (xs.map line)))
  | [], pd, _, _ => by simp [forEach, concat, write_empty]
  | x :: xs, pd, hn, hb => by
    simp only [forEach]
    rw [hb x (List.mem_cons_self _ _) pd hn]
    simp only []
    rw [forEach_lines body line n xs (pd.write (line x)) hn
      (fun y hy q hq => hb y (List.mem_cons_of_mem _ hy) q hq)]
    simp [write_write, concat]

theorem forEach_congr_at {α : Type} (body : α → ProtoDefinition → Option ProtoDefinition)
    (x y : α) (hxy : ∀ q, body x q = body y q) (post : List α) :
    ∀ (pre : List α) (pd : ProtoDefinition),
      forEach body (pre ++ x :: post) pd = forEach body (pre ++ y :: post) pd
  | [], pd => by simp only [List.nil_append, forEach, hxy]
  | z :: pre, pd => by
    simp only [List.cons_append, forEach]
    cases body z pd with
    | none => rfl
    | some pd1 => exact forEach_congr_at body x y hxy post pre pd1

/-! ## The claims -/

/-- C1, counterexample: a synthetic oneof whose single member carries the
explicit optional-keyword flag is written with the `optional ` modifier. -/
theorem C1_counterexample :
    (writeOneof
        { Name := "_x", IsSynthetic := true,
          Fields := [.mk { Name := "x", Number := 1, HasOptionalKeyword := true,
                           ContainingOneof := some 0 } none none] }
        { indendation := 1 }).map (fun pd => pd.builder) =
      some "  optional int32 x = 1;\n" ∧
    "optional ".toList <:+: "  optional int32 x = 1;\n".toList := by
  decide

/-- C1, amended: for a oneof flagged synthetic with exactly one member field
`f`, `writeOneof` writes exactly what `writeField` writes for `f` as a plain
field outside a oneof context, at the current indentation and without a
`oneof` header or closing brace; the modifier follows the ordinary rules, so
`optional ` is printed when `f` carries the explicit optional-keyword flag. -/
theorem C1_synthetic_oneof_is_plain_field (oneof : OneofDescriptor)
    (f : FieldDescriptor) (pd : ProtoDefinition) (t : String)
    (hs : oneof.IsSynthetic = true) (hf : oneof.Fields = [f])
    (h : 0 ≤ pd.indendation) (ht : typeName f = some t) :
    writeOneof oneof pd = writeField f [] pd ∧
    writeOneof oneof pd =
      some (pd.write (pd.margin ++
        (if f.attrs.HasOptionalKeyword then "optional "
         else if f.attrs.Cardinality = "repeated" then "repeated "
         else if f.attrs.Cardinality = "required" ∧
           pd.descriptor.SyntaxName = "proto2" then "required "
         else "") ++
        t ++ " " ++ f.attrs.Name ++ " = " ++ Itoa f.attrs.Number ++
        fieldOptions f ++ ";\n")) := by
  have h1 : writeOneof oneof pd = writeField f [] pd := by
    simp [writeOneof, hs, hf]
  refine ⟨h1, ?_⟩
  rw [h1, writeField_eq f [] pd t h ht]
  simp [fieldModifier]

/-- C1, witness: a synthetic oneof with the single proto3-optional member
`optional int32 x = 1`. -/
theorem C1_synthetic_oneof_is_plain_field_witness :
    writeOneof
        { Name := "_x", IsSynthetic := true,
          Fields := [.mk { Name := "x", Number := 1, HasOptionalKeyword := true,
                           ContainingOneof := some 0 } none none] }
        { indendation := 1 } =
      some { builder := "  optional int32 x = 1;\n", indendation := 1 } := by
  have h := (C1_synthetic_oneof_is_plain_field
    { Name := "_x", IsSynthetic := true,
      Fields := [.mk { Name := "x", Number := 1, HasOptionalKeyword := true,
                       ContainingOneof := some 0 } none none] }
    (.mk { Name := "x", Number := 1, HasOptionalKeyword := true,
           ContainingOneof := some 0 } none none)
    { indendation := 1 } "int32" rfl rfl (by decide) (by decide)).2
  rw [h]
  rfl

/-- C2, the code at the failing input: a map field as `protoreflect` exposes it
(kind `message`, the entry message as its message type, non-nil key and
value) is written by `writeType` as the leading-dot name of its entry
message, not as `map<string, .pkg.Foo>`. -/
theorem C2_map_field_written_as_entry_message :
    FieldDescriptor.IsMap
        (.mk { Name := "attrs", Number := 1, Kind := "message",
               Cardinality := "repeated", Message := "pkg.M.AttrsEntry" }
          (some (.mk { Name := "key", Number := 1, Kind := "string" } none none))
          (some (.mk { Name := "value", Number := 2, Kind := "message",
                       Message := "pkg.Foo" } none none))) = true ∧
    typeName
        (.mk { Name := "attrs", Number := 1, Kind := "message",
               Cardinality := "repeated", Message := "pkg.M.AttrsEntry" }
          (some (.mk { Name := "key", Number := 1, Kind := "string" } none none))
          (some (.mk { Name := "value", Number := 2, Kind := "message",
                       Message := "pkg.Foo" } none none))) =
      some ".pkg.M.AttrsEntry" ∧
    typeName
        (.mk { Name := "attrs", Number := 1, Kind := "message",
               Cardinality := "repeated", Message := "pkg.M.AttrsEntry" }
          (some (.mk { Name := "key", Number := 1, Kind := "string" } none none))
          (some (.mk { Name := "value", Number := 2, Kind := "message",
                       Message := "pkg.Foo" } none none))) ≠
      some "map<string, .pkg.Foo>" := by
  decide

/-- C3: the loop of `writeMessage` over the reserved ranges writes one
statement per range, in order; for a range stored as inclusive start `S` and
exclusive end `E` with `S < E` (both 32-bit field numbers) the statement is
`reserved S;` when `S = E-1`, otherwise `reserved S to max;` when
`E-1 = 536870911`, and otherwise `reserved S to <E-1>;`. -/
theorem C3_reserved_range_statement (ranges : List (Int × Int))
    (pd : ProtoDefinition)
    (hr : ∀ r ∈ ranges, -2147483648 ≤ r.1 ∧ r.2 ≤ 2147483647 ∧ r.1 < r.2)
    (h : 0 ≤ pd.indendation) :
    forEach writeReservedRange ranges pd =
      some (pd.write (concat (ranges.map (fun r =>
        pd.margin ++
          (if r.1 = r.2 - 1 then "reserved " ++ Itoa r.1 ++ ";\n"
           else if r.2 - 1 = 536870911 then "reserved " ++ Itoa r.1 ++ " to max;\n"
           else "reserved " ++ Itoa r.1 ++ " to " ++ Itoa (r.2 - 1) ++ ";\n"))))) := by
  refine forEach_lines writeReservedRange _ pd.indendation ranges pd rfl ?_
  intro r hmem q hq
  obtain ⟨hS, hE, hlt⟩ := hr r hmem
  have hw : wrapInt32 (r.2 - 1) = r.2 - 1 := by
    unfold wrapInt32
    omega
  have hm : q.margin = pd.margin := by simp [margin, hq]
  unfold writeReservedRange
  rw [writeIndented_eq q _ (by rw [hq]; exact h)]
  simp only [Option.bind_eq_bind, Option.some_bind, Option.pure_def,
    if_neg (not_lt.mpr (le_of_lt hlt)), hw, MaxValidNumber, hm]
  split_ifs <;> simp only [write_write, Option.some.injEq] <;>
    (apply write_congr; simp)

/-- C3, witness: the ranges (5, 6), (5, 536870912) and (5, 9) of a message
body at depth 1. -/
theorem C3_reserved_range_statement_witness :
    forEach writeReservedRange [(5, 6), (5, 536870912), (5, 9)] { indendation := 1 } =
      some { builder := "  reserved 5;\n  reserved 5 to max;\n  reserved 5 to 8;\n",
             indendation := 1 } := by
  rw [C3_reserved_range_statement [(5, 6), (5, 536870912), (5, 9)]
    { indendation := 1 } (by decide) (by decide)]
  rfl

/-- C4: for a reserved range whose stored bounds are inverted (`a > b`),
`writeMessage` writes the same text as for the range stored as `(b, a)`,
wherever the range stands among the reserved ranges of the message: the
bounds are swapped before the end is decremented, so the statement starts at
`b` and ends at `a - 1`. -/
theorem C4_inverted_range_is_swapped (a b : Int) (pd : ProtoDefinition)
    (hgt : a > b) :
    (∀ (name : String) (reservedNames : List String) (pre post : List (Int × Int))
        (messages : List MessageDescriptor) (enums : List EnumDescriptor)
        (fields : List FieldDescriptor) (oneofs : List OneofDescriptor),
      writeMessage
          (.mk name reservedNames (pre ++ (a, b) :: post) messages enums fields oneofs)
          pd =
        writeMessage
          (.mk name reservedNames (pre ++ (b, a) :: post) messages enums fields oneofs)
          pd) ∧
    writeReservedRange (a, b) pd = writeReservedRange (b, a) pd ∧
    (0 ≤ pd.indendation →
      writeReservedRange (a, b) pd =
        some (pd.write (pd.margin ++ "reserved " ++ Itoa b ++
          (if b = wrapInt32 (a - 1) then ""
           else if wrapInt32 (a - 1) = 536870911 then " to max"
           else " to " ++ Itoa (wrapInt32 (a - 1))) ++ ";\n"))) := by
  have hba : ¬ b > a := not_lt.mpr (le_of_lt hgt)
  have hsame : ∀ q, writeReservedRange (a, b) q = writeReservedRange (b, a) q := by
    intro q
    unfold writeReservedRange
    simp only [if_pos hgt, if_neg hba]
  refine ⟨?_, hsame pd, fun h => ?_⟩
  · intro name reservedNames pre post messages enums fields oneofs
    simp only [writeMessage]
    cases pd.writeIndented "message " with
    | none => rfl
    | some pd1 =>
      simp only [Option.bind_eq_bind, Option.some_bind]
      cases forEach writeReservedName reservedNames
          (((pd1.write name).write " \x7b\n").indent) with
      | none => rfl
      | some pd2 =>
        simp only [Option.some_bind]
        rw [forEach_congr_at writeReservedRange (a, b) (b, a) hsame post pre pd2]
  · unfold writeReservedRange
    rw [writeIndented_eq pd _ h]
    simp only [Option.bind_eq_bind, Option.some_bind, Option.pure_def,
      if_pos hgt, MaxValidNumber]
    split_ifs <;> simp only [write_write, Option.some.injEq] <;>
      (apply write_congr; simp)

/-- C4, witness: the inverted range (9, 5) is written like (5, 9), alone and
inside a message. -/
theorem C4_inverted_range_is_swapped_witness :
    writeMessage (.mk "M" [] [(1, 2), (9, 5)] [] [] [] []) {} =
      writeMessage (.mk "M" [] [(1, 2), (5, 9)] [] [] [] []) {} ∧
    writeReservedRange (9, 5) { indendation := 1 } =
      some { builder := "  reserved 5 to 8;\n", indendation := 1 } := by
  have h := C4_inverted_range_is_swapped 9 5 { indendation := 1 } (by decide)
  refine ⟨?_, ?_⟩
  · exact (C4_inverted_range_is_swapped 9 5 {} (by decide)).1 "M" [] [(1, 2)] []
      [] [] [] []
  · rw [h.2.2 (by decide)]
    rfl

/-- C5: the text `writeField` writes between the field number and the
terminating `;` is ` [default = <lit>, json_name="<j>"]` when the field has a
default and a JSON-name override, ` [default = <lit>]` when it has only a
default, ` [json_name="<j>"]` when it has only an override, and empty when it
has neither; the literal of a string-kind default is the default in double
quotes, that of an enum-kind default the name of the default member. -/
theorem C5_option_clause (field : FieldDescriptor) (is_oneof : List Int)
    (pd : ProtoDefinition) (t : String) (h : 0 ≤ pd.indendation)
    (ht : typeName field = some t) :
    writeField field is_oneof pd =
      some (pd.write (pd.margin ++ fieldModifier field is_oneof pd ++ t ++ " " ++
        field.attrs.Name ++ " = " ++ Itoa field.attrs.Number ++
        (if field.attrs.HasDefault = true ∧ field.attrs.HasJSONName = true then
           " [default = " ++
             (if field.attrs.Kind = "string" then "\"" ++ field.attrs.Default ++ "\""
              else if field.attrs.Kind = "enum" then field.attrs.DefaultEnumValue
              else field.attrs.Default) ++
             ", json_name=\"" ++ field.attrs.JSONName ++ "\"]"
         else if field.attrs.HasDefault = true then
           " [default = " ++
             (if field.attrs.Kind = "string" then "\"" ++ field.attrs.Default ++ "\""
              else if field.attrs.Kind = "enum" then field.attrs.DefaultEnumValue
              else field.attrs.Default) ++ "]"
         else if field.attrs.HasJSONName = true then
           " [json_name=\"" ++ field.attrs.JSONName ++ "\"]"
         else "") ++
        ";\n")) := by
  rw [writeField_eq field is_oneof pd t h ht]
  unfold fieldOptions defaultLiteral
  by_cases hs : field.attrs.Kind = "string" <;>
    by_cases he : field.attrs.Kind = "enum" <;>
    cases field.attrs.HasDefault <;> cases field.attrs.HasJSONName <;>
    simp [hs, he] <;>
    (apply write_congr; simp)

/-- C5, witness: a string field with default `x` and JSON-name override `y`
ends in ` [default = "x", json_name="y"];`. -/
theorem C5_option_clause_witness :
    writeField
        (.mk { Name := "s", Number := 1, Kind := "string", HasDefault := true,
               Default := "x", HasJSONName := true, JSONName := "y" } none none)
        [] {} =
      some { builder := "string s = 1 [default = \"x\", json_name=\"y\"];\n" } := by
  rw [C5_option_clause
    (.mk { Name := "s", Number := 1, Kind := "string", HasDefault := true,
           Default := "x", HasJSONName := true, JSONName := "y" } none none)
    [] {} "string" (by decide) (by decide)]
  rfl

/-- C6: a field outside a oneof context with both the explicit
optional-keyword flag and repeated cardinality is written with the modifier
`optional ` directly before its type, whatever the syntax mode, and not with
the modifier `repeated `. -/
theorem C6_optional_before_repeated (field : FieldDescriptor)
    (pd : ProtoDefinition) (t : String)
    (ho : field.attrs.HasOptionalKeyword = true)
    (_hc : field.attrs.Cardinality = "repeated")
    (h : 0 ≤ pd.indendation) (ht : typeName field = some t) :
    writeField field [] pd =
      some (pd.write (pd.margin ++ "optional " ++ t ++ " " ++ field.attrs.Name ++
        " = " ++ Itoa field.attrs.Number ++ fieldOptions field ++ ";\n")) ∧
    writeField field [] pd ≠
      some (pd.write (pd.margin ++ "repeated " ++ t ++ " " ++ field.attrs.Name ++
        " = " ++ Itoa field.attrs.Number ++ fieldOptions field ++ ";\n")) := by
  have h1 : writeField field [] pd =
      some (pd.write (pd.margin ++ "optional " ++ t ++ " " ++ field.attrs.Name ++
        " = " ++ Itoa field.attrs.Number ++ fieldOptions field ++ ";\n")) := by
    rw [writeField_eq field [] pd t h ht]
    simp [fieldModifier, ho]
  refine ⟨h1, ?_⟩
  rw [h1]
  intro heq
  have hb := congrArg (fun r => r.map (fun q => q.builder.data)) heq
  simp [write] at hb

/-- C6, witness: `optional` wins over `repeated` under proto3 and proto2. -/
theorem C6_optional_before_repeated_witness :
    writeField
        (.mk { Name := "x", Number := 1, HasOptionalKeyword := true,
               Cardinality := "repeated" } none none)
        [] { descriptor := { SyntaxName := "proto2" } } =
      some { builder := "optional int32 x = 1;\n",
             descriptor := { SyntaxName := "proto2" } } := by
  rw [(C6_optional_before_repeated
    (.mk { Name := "x", Number := 1, HasOptionalKeyword := true,
           Cardinality := "repeated" } none none)
    { descriptor := { SyntaxName := "proto2" } } "int32" rfl rfl (by decide)
    (by decide)).1]
  rfl

/-- C7, counterexample: under proto2 a required field written as a member of a
oneof (the oneof context is present) gets no modifier: the line is
`bool c = 3;` and the text `required ` does not occur in it. -/
theorem C7_counterexample :
    (writeField (.mk { Name := "c", Number := 3, Kind := "bool",
                       Cardinality := "required" } none none)
        [1] { descriptor := { SyntaxName := "proto2" } }).map (fun pd => pd.builder) =
      some "bool c = 3;\n" ∧
    ¬ ("required ".data <:+: "bool c = 3;\n".data) := by
  decide

/-- C7, amended: a field with cardinality required and no explicit
optional-keyword flag is written with no modifier at all in a file whose syntax
mode is proto3, in every context (the line is the indentation followed directly
by the type), and with the modifier `required ` when the same field is written
outside a oneof context in a proto2 file; written as a member of a oneof in a
proto2 file it has no modifier either. -/
theorem C7_required_is_dialect_gated (field : FieldDescriptor)
    (is_oneof : List Int) (pd3 pd2 : ProtoDefinition) (t : String)
    (hc : field.attrs.Cardinality = "required")
    (ho : field.attrs.HasOptionalKeyword = false)
    (h3 : pd3.descriptor.SyntaxName = "proto3")
    (h2 : pd2.descriptor.SyntaxName = "proto2")
    (hi3 : 0 ≤ pd3.indendation) (hi2 : 0 ≤ pd2.indendation)
    (ht : typeName field = some t) :
    writeField field is_oneof pd3 =
      some (pd3.write (pd3.margin ++ t ++ " " ++ field.attrs.Name ++
        " = " ++ Itoa field.attrs.Number ++ fieldOptions field ++ ";\n")) ∧
    writeField field [] pd2 =
      some (pd2.write (pd2.margin ++ "required " ++ t ++ " " ++ field.attrs.Name ++
        " = " ++ Itoa field.attrs.Number ++ fieldOptions field ++ ";\n")) ∧
    (is_oneof ≠ [] →
      writeField field is_oneof pd2 =
        some (pd2.write (pd2.margin ++ t ++ " " ++ field.attrs.Name ++
          " = " ++ Itoa field.attrs.Number ++ fieldOptions field ++ ";\n"))) := by
  refine ⟨?_, ?_, ?_⟩
  · rw [writeField_eq field is_oneof pd3 t hi3 ht]
    simp [fieldModifier, hc, ho, h3]
  · rw [writeField_eq field [] pd2 t hi2 ht]
    simp [fieldModifier, hc, ho, h2]
  · intro hne
    have hlen : ¬ is_oneof.length < 1 := by
      cases is_oneof with
      | nil => exact absurd rfl hne
      | cons x xs => simp
    rw [writeField_eq field is_oneof pd2 t hi2 ht]
    simp [fieldModifier, hlen]

/-- C7, witness: the required field `int32 x = 1` under proto3 and proto2. -/
theorem C7_required_is_dialect_gated_witness :
    writeField (.mk { Name := "x", Number := 1, Cardinality := "required" } none none)
        [] { descriptor := { SyntaxName := "proto3" } } =
      some { builder := "int32 x = 1;\n", descriptor := { SyntaxName := "proto3" } } ∧
    writeField (.mk { Name := "x", Number := 1, Cardinality := "required" } none none)
        [] { descriptor := { SyntaxName := "proto2" } } =
      some { builder := "required int32 x = 1;\n",
             descriptor := { SyntaxName := "proto2" } } := by
  have h := C7_required_is_dialect_gated
    (.mk { Name := "x", Number := 1, Cardinality := "required" } none none) []
    { descriptor := { SyntaxName := "proto3" } }
    { descriptor := { SyntaxName := "proto2" } } "int32" rfl rfl rfl rfl
    (by decide) (by decide) (by decide)
  refine ⟨?_, ?_⟩
  · rw [h.1]
    rfl
  · rw [h.2.1]
    rfl

/-- C8: for a non-synthetic oneof, `writeOneof` writes `oneof <name> {`, then
one line per member in declared order, then `}`; whatever the member's
optional-keyword flag and cardinality, its line carries no modifier: it is
the indentation of the oneof body followed directly by the type, the name,
` = `, the number and the option clause. -/
theorem C8_oneof_members_without_modifier (oneof : OneofDescriptor)
    (pd : ProtoDefinition) (ty : FieldDescriptor → String)
    (hs : oneof.IsSynthetic = false) (h : 0 ≤ pd.indendation)
    (ht : ∀ f ∈ oneof.Fields, typeName f = some (ty f)) :
    writeOneof oneof pd =
      some (pd.write (pd.margin ++ "oneof " ++ oneof.Name ++ " \x7b\n" ++
        concat (oneof.Fields.map (fun f =>
          pd.margin ++ "  " ++ ty f ++ " " ++ f.attrs.Name ++ " = " ++
            Itoa f.attrs.Number ++ fieldOptions f ++ ";\n")) ++
        pd.margin ++ "\x7d\n")) := by
  unfold writeOneof
  rw [writeIndented_eq pd _ h]
  simp only [hs, Bool.false_eq_true, if_false, Option.bind_eq_bind,
    Option.some_bind, write_write, indent_write]
  rw [forEach_oneof_members ty oneof.Fields _
    (by simp only [indendation_write, indent]; omega) ht]
  simp only [Option.some_bind, write_write, dedent_indent_write, margin_write]
  rw [writeIndented_eq _ _ (by simpa [indendation_write] using h)]
  simp only [write_write, margin_write, margin_indent pd h, Option.some.injEq]
  apply write_congr
  simp

/-- C8, witness: a oneof whose members carry the optional-keyword flag and
repeated and required cardinality is written without any modifier. -/
theorem C8_oneof_members_without_modifier_witness :
    writeOneof
        { Name := "o",
          Fields := [.mk { Name := "a", Number := 1, HasOptionalKeyword := true }
                       none none,
                     .mk { Name := "b", Number := 2, Kind := "string",
                           Cardinality := "repeated" } none none,
                     .mk { Name := "c", Number := 3, Kind := "bool",
                           Cardinality := "required" } none none] }
        { indendation := 1, descriptor := { SyntaxName := "proto2" } } =
      some { builder :=
               "  oneof o \x7b\n    int32 a = 1;\n    string b = 2;\n    bool c = 3;\n  \x7d\n",
             indendation := 1, descriptor := { SyntaxName := "proto2" } } := by
  rw [C8_oneof_members_without_modifier
    { Name := "o",
      Fields := [.mk { Name := "a", Number := 1, HasOptionalKeyword := true }
                   none none,
                 .mk { Name := "b", Number := 2, Kind := "string",
                       Cardinality := "repeated" } none none,
                 .mk { Name := "c", Number := 3, Kind := "bool",
                       Cardinality := "required" } none none] }
    { indendation := 1, descriptor := { SyntaxName := "proto2" } }
    (fun f => f.attrs.Kind) rfl (by decide) (by decide)]
  rfl

theorem writeFileOption_string (o : FileOptions) (key name : String)
    (v : Option String) (st : ProtoDefinition × Bool)
    (hf : o.FieldByName name = some (v.map ReflectValue.String)) :
    writeFileOption o (key, name) st =
      some (st.1.write (stringOptionLine key v), st.2 || v.isSome) := by
  cases v with
  | none => simp [writeFileOption, hf, stringOptionLine, write_empty]
  | some x =>
    simp [writeFileOption, hf, stringOptionLine, writeStringFileOptions, write_write]

theorem writeFileOption_bool (o : FileOptions) (key name : String)
    (v : Option Bool) (st : ProtoDefinition × Bool)
    (hf : o.FieldByName name = some (v.map ReflectValue.Bool)) :
    writeFileOption o (key, name) st =
      some (st.1.write (boolOptionLine key v), st.2 || v.isSome) := by
  cases v with
  | none => simp [writeFileOption, hf, boolOptionLine, write_empty]
  | some x =>
    simp [writeFileOption, hf, boolOptionLine, writeBoolFileOptions, write_write]

theorem append_eq_empty (a b : String) : a ++ b = "" ↔ a = "" ∧ b = "" := by
  simp [String.ext_iff]

theorem stringOptionLine_eq_empty (key : String) (v : Option String) :
    stringOptionLine key v = "" ↔ v = none := by
  cases v <;> simp [stringOptionLine, String.ext_iff]

theorem boolOptionLine_eq_empty (key : String) (v : Option Bool) :
    boolOptionLine key v = "" ↔ v = none := by
  cases v <;> simp [boolOptionLine, String.ext_iff]

/-- C9: `writeFileOptions` writes, in the fixed order of the allow-list, one
`option <key> = <literal>;` line for exactly the allow-listed keys that are
present, followed by one blank line if and only if at least one option line
was written (that is, at least one key is present); with a nil options record
or no present key it writes nothing. -/
theorem C9_file_options (pd : ProtoDefinition) :
    writeFileOptions pd =
      some (match pd.pb.GetOptions with
        | none => pd
        | some o =>
          pd.write
            (stringOptionLine "java_package" o.JavaPackage ++
             stringOptionLine "java_outer_classname" o.JavaOuterClassname ++
             boolOptionLine "java_multiple_files" o.JavaMultipleFiles ++
             boolOptionLine "java_string_check_utf8" o.JavaStringCheckUtf8 ++
             stringOptionLine "go_package" o.GoPackage ++
             boolOptionLine "cc_enable_arenas" o.CcEnableArenas ++
             stringOptionLine "objc_class_prefix" o.ObjcClassPrefix ++
             stringOptionLine "csharp_namespace" o.CsharpNamespace ++
             stringOptionLine "swift_prefix" o.SwiftPrefix ++
             stringOptionLine "php_class_prefix" o.PhpClassPrefix ++
             stringOptionLine "php_namespace" o.PhpNamespace ++
             stringOptionLine "php_metadata_namespace" o.PhpMetadataNamespace ++
             stringOptionLine "ruby_package" o.RubyPackage ++
             (if o.JavaPackage = none ∧ o.JavaOuterClassname = none ∧
                 o.JavaMultipleFiles = none ∧ o.JavaStringCheckUtf8 = none ∧
                 o.GoPackage = none ∧ o.CcEnableArenas = none ∧
                 o.ObjcClassPrefix = none ∧ o.CsharpNamespace = none ∧
                 o.SwiftPrefix = none ∧ o.PhpClassPrefix = none ∧
                 o.PhpNamespace = none ∧ o.PhpMetadataNamespace = none ∧
                 o.RubyPackage = none then "" else "\n"))) ∧
    ∀ o : FileOptions,
      (stringOptionLine "java_package" o.JavaPackage ++
       stringOptionLine "java_outer_classname" o.JavaOuterClassname ++
       boolOptionLine "java_multiple_files" o.JavaMultipleFiles ++
       boolOptionLine "java_string_check_utf8" o.JavaStringCheckUtf8 ++
       stringOptionLine "go_package" o.GoPackage ++
       boolOptionLine "cc_enable_arenas" o.CcEnableArenas ++
       stringOptionLine "objc_class_prefix" o.ObjcClassPrefix ++
       stringOptionLine "csharp_namespace" o.CsharpNamespace ++
       stringOptionLine "swift_prefix" o.SwiftPrefix ++
       stringOptionLine "php_class_prefix" o.PhpClassPrefix ++
       stringOptionLine "php_namespace" o.PhpNamespace ++
       stringOptionLine "php_metadata_namespace" o.PhpMetadataNamespace ++
       stringOptionLine "ruby_package" o.RubyPackage = "") ↔
      (o.JavaPackage = none ∧ o.JavaOuterClassname = none ∧
       o.JavaMultipleFiles = none ∧ o.JavaStringCheckUtf8 = none ∧
       o.GoPackage = none ∧ o.CcEnableArenas = none ∧
       o.ObjcClassPrefix = none ∧ o.CsharpNamespace = none ∧
       o.SwiftPrefix = none ∧ o.PhpClassPrefix = none ∧
       o.PhpNamespace = none ∧ o.PhpMetadataNamespace = none ∧
       o.RubyPackage = none) := by
  constructor
  · unfold writeFileOptions
    cases hopt : pd.pb.GetOptions with
    | none => rfl
    | some o =>
      simp only [optionDefinitions, writeFileOptionsLoop]
      rw [writeFileOption_string o "java_package" "JavaPackage" o.JavaPackage _ (by rfl)]
      simp only []
      rw [writeFileOption_string o "java_outer_classname" "JavaOuterClassname" o.JavaOuterClassname _ (by rfl)]
      simp only []
      rw [writeFileOption_bool o "java_multiple_files" "JavaMultipleFiles" o.JavaMultipleFiles _ (by rfl)]
      simp only []
      rw [writeFileOption_bool o "java_string_check_utf8" "JavaStringCheckUtf8" o.JavaStringCheckUtf8 _ (by rfl)]
      simp only []
      rw [writeFileOption_string o "go_package" "GoPackage" o.GoPackage _ (by rfl)]
      simp only []
      rw [writeFileOption_bool o "cc_enable_arenas" "CcEnableArenas" o.CcEnableArenas _ (by rfl)]
      simp only []
      rw [writeFileOption_string o "objc_class_prefix" "ObjcClassPrefix" o.ObjcClassPrefix _ (by rfl)]
      simp only []
      rw [writeFileOption_string o "csharp_namespace" "CsharpNamespace" o.CsharpNamespace _ (by rfl)]
      simp only []
      rw [writeFileOption_string o "swift_prefix" "SwiftPrefix" o.SwiftPrefix _ (by rfl)]
      simp only []
      rw [writeFileOption_string o "php_class_prefix" "PhpClassPrefix" o.PhpClassPrefix _ (by rfl)]
      simp only []
      rw [writeFileOption_string o "php_namespace" "PhpNamespace" o.PhpNamespace _ (by rfl)]
      simp only []
      rw [writeFileOption_string o "php_metadata_namespace" "PhpMetadataNamespace" o.PhpMetadataNamespace _ (by rfl)]
      simp only []
      rw [writeFileOption_string o "ruby_package" "RubyPackage" o.RubyPackage _ (by rfl)]
      simp only [write_write, Bool.false_or]
      by_cases hall : o.JavaPackage = none ∧ o.JavaOuterClassname = none ∧
          o.JavaMultipleFiles = none ∧ o.JavaStringCheckUtf8 = none ∧
          o.GoPackage = none ∧ o.CcEnableArenas = none ∧
          o.ObjcClassPrefix = none ∧ o.CsharpNamespace = none ∧
          o.SwiftPrefix = none ∧ o.PhpClassPrefix = none ∧
          o.PhpNamespace = none ∧ o.PhpMetadataNamespace = none ∧
          o.RubyPackage = none
      · obtain ⟨h1, h2, h3, h4, h5, h6, h7, h8, h9, h10, h11, h12, h13⟩ := hall
        simp [h1, h2, h3, h4, h5, h6, h7, h8, h9, h10, h11, h12, h13,
          stringOptionLine, boolOptionLine]
      · have hp : (o.JavaPackage.isSome || o.JavaOuterClassname.isSome ||
            o.JavaMultipleFiles.isSome || o.JavaStringCheckUtf8.isSome ||
            o.GoPackage.isSome || o.CcEnableArenas.isSome ||
            o.ObjcClassPrefix.isSome || o.CsharpNamespace.isSome ||
            o.SwiftPrefix.isSome || o.PhpClassPrefix.isSome ||
            o.PhpNamespace.isSome || o.PhpMetadataNamespace.isSome ||
            o.RubyPackage.isSome) = true := by
          by_contra hc
          apply hall
          simpa [and_assoc] using hc
        simp only [hp, if_true, if_neg hall, write_write]
  · intro o
    simp only [append_eq_empty, stringOptionLine_eq_empty, boolOptionLine_eq_empty,
      and_assoc]

theorem unescapedQuotes_doubled : ∀ v : List Char,
    unescapedQuotes (v.flatMap (fun c => if c = '\\' then ['\\', '\\'] else [c]))
      false = v.count doubleQuote
  | [] => rfl
  | c :: cs => by
    have ih := unescapedQuotes_doubled cs
    have hne : ¬ doubleQuote = '\\' := by decide
    by_cases hb : c = '\\'
    · have hq : ¬ ('\\' == doubleQuote) = true := by decide
      simp [hb, unescapedQuotes, ih, List.count_cons, hq]
    · by_cases hq : c = doubleQuote
      · simp [hq, hne, unescapedQuotes, ih, List.count_cons]
      · have hq2 : ¬ (c == doubleQuote) = true := by simpa using hq
        simp [hb, hq, hq2, unescapedQuotes, ih, List.count_cons]

theorem count_backslash_doubled : ∀ v : List Char,
    (v.flatMap (fun c => if c = '\\' then ['\\', '\\'] else [c])).count '\\' =
      2 * v.count '\\'
  | [] => rfl
  | c :: cs => by
    have ih := count_backslash_doubled cs
    by_cases hb : c = '\\'
    · simp [hb, ih, List.count_cons]
      omega
    · have hb2 : ¬ (c == '\\') = true := by simpa using hb
      simp [hb, hb2, ih, List.count_cons]

/-- C10, counterexample: for the option value `a"b` the written line is
`option go_package = "a"b";`, which has three unescaped double quotes: the
double quote of the value is written unescaped between the two delimiters. -/
theorem C10_counterexample :
    (writeStringFileOptions "go_package" "a\"b" {}).builder =
      "option go_package = \"a\"b\";\n" ∧
    unescapedQuotes "option go_package = \"a\"b\";\n".toList false = 3 ∧
    unescapedQuotes (ReplaceAll "a\"b" '\\' "\\\\").toList false = 1 := by
  decide

/-- C10, amended: for a string-valued file option with value `v`,
`writeStringFileOptions` writes `option <key> = "<lit>";` where `lit` is `v`
with every backslash doubled and every other character, double quotes
included, copied unchanged: `lit` has twice the backslashes of `v`, and its
unescaped double quotes are exactly the double quotes of `v`, so the two
delimiters are the only unescaped double quotes of the literal when `v`
contains no double quote. -/
theorem C10_backslashes_doubled_quotes_copied (name v : String)
    (pd : ProtoDefinition) :
    writeStringFileOptions name v pd =
      pd.write ("option " ++ name ++ " = \"" ++ ReplaceAll v '\\' "\\\\" ++ "\";\n") ∧
    (ReplaceAll v '\\' "\\\\").toList =
      v.toList.flatMap (fun c => if c = '\\' then ['\\', '\\'] else [c]) ∧
    (ReplaceAll v '\\' "\\\\").toList.count '\\' = 2 * v.toList.count '\\' ∧
    unescapedQuotes (ReplaceAll v '\\' "\\\\").toList false =
      v.toList.count doubleQuote := by
  refine ⟨?_, rfl, ?_, ?_⟩
  · simp [writeStringFileOptions, write_write]
  · exact count_backslash_doubled v.toList
  · exact unescapedQuotes_doubled v.toList

/-- C12: `writeMethod` writes exactly one line: the indentation, then
`rpc n (` + (`stream ` if the method streams from the client) + `.I) returns (`
+ (`stream ` if it streams from the server) + `.O) {}` and a newline; both type
names carry a leading dot. -/
theorem C12_method_line (method : MethodDescriptor) (pd : ProtoDefinition)
    (h : 0 ≤ pd.indendation) :
    writeMethod method pd =
      some (pd.write (pd.margin ++ "rpc " ++ method.Name ++ " (" ++
        (if method.IsStreamingClient then "stream " else "") ++ "." ++ method.Input ++
        ") returns (" ++
        (if method.IsStreamingServer then "stream " else "") ++ "." ++ method.Output ++
        ") \x7b\x7d\n")) := by
  unfold writeMethod
  rw [writeIndented_eq pd _ h]
  cases method.IsStreamingClient <;> cases method.IsStreamingServer <;>
    simp [write_write] <;> (apply write_congr; simp)

/-- C12, witness: a bidirectional streaming method and a unary method inside
a service body. -/
theorem C12_method_line_witness :
    writeMethod { Name := "Chat", Input := "pkg.Req", Output := "pkg.Resp",
                  IsStreamingClient := true, IsStreamingServer := true }
        { indendation := 1 } =
      some { builder := "  rpc Chat (stream .pkg.Req) returns (stream .pkg.Resp) \x7b\x7d\n",
             indendation := 1 } ∧
    writeMethod { Name := "Get", Input := "pkg.Req", Output := "pkg.Resp" }
        { indendation := 1 } =
      some { builder := "  rpc Get (.pkg.Req) returns (.pkg.Resp) \x7b\x7d\n",
             indendation := 1 } := by
  constructor
  · rw [C12_method_line _ _ (by decide)]
    rfl
  · rw [C12_method_line _ _ (by decide)]
    rfl

theorem indexOf_append_sep (sep : Char) : ∀ (a b : List Char), sep ∉ a →
    (a ++ sep :: b).indexOf sep = a.length
  | [], b, _ => by simp
  | c :: a, b, h => by
    have hc : c ≠ sep := fun e => h (by simp [e])
    have ha : sep ∉ a := fun e => h (List.mem_cons_of_mem _ e)
    simp [List.indexOf_cons, hc, indexOf_append_sep sep a b ha]

/-- C14: when the go_package option `g` has the form `importPath;packageName`
(`importPath` being the part before the first `;`), `Filename` returns the path
join of `importPath` with the base name of the declared path `p`; when `g`
contains no `;` (in particular when the options record or the option is absent,
or `g` is empty), `Filename` returns `p` unchanged. -/
theorem C14_filename (Join : String → String → String) (Base : String → String)
    (pd : ProtoDefinition) :
    (∀ importPath packageName : String,
      GetGoPackage pd.pb = importPath ++ ";" ++ packageName →
      ';' ∉ importPath.toList →
      Filename Join Base pd = Join importPath (Base pd.descriptor.Path)) ∧
    (';' ∉ (GetGoPackage pd.pb).toList → Filename Join Base pd = pd.descriptor.Path) ∧
    (pd.pb.GetOptions = none → Filename Join Base pd = pd.descriptor.Path) ∧
    (∀ o, pd.pb.GetOptions = some o → o.GoPackage = none →
      Filename Join Base pd = pd.descriptor.Path) ∧
    (GetGoPackage pd.pb = "" → Filename Join Base pd = pd.descriptor.Path) := by
  have hno : ';' ∉ (GetGoPackage pd.pb).toList →
      Filename Join Base pd = pd.descriptor.Path := by
    intro h
    simp only [Filename, Index, if_neg h, if_true]
  refine ⟨?_, hno, ?_, ?_, ?_⟩
  · intro importPath packageName hg hnot
    have hmem : ';' ∈ (importPath ++ ";" ++ packageName).toList := by simp
    have hidx : (importPath ++ ";" ++ packageName).toList.indexOf ';' =
        importPath.toList.length := by
      have := indexOf_append_sep ';' importPath.toList packageName.toList hnot
      simpa using this
    have hne : ¬ ((importPath.toList.length : Int) = -1) := by omega
    simp only [Filename, Index, hg, hmem, if_true, hidx, hne, if_false, slicePrefix]
    congr 1
    apply String.ext
    simp
  · intro h
    apply hno
    simp [GetGoPackage, h]
  · intro o h hg
    apply hno
    simp [GetGoPackage, h, hg]
  · intro h
    apply hno
    simp [h]

/-- C14, witness: the hint `example.com/mod/api;apipb` with the declared path
`protos/v1/api.proto`, and a go_package without `;`; the two library functions
are instantiated by a plain join with `/` and by the text after the last `/`. -/
theorem C14_filename_witness :
    Filename (fun a b => a ++ "/" ++ b)
        (fun p => String.mk (p.toList.reverse.takeWhile (fun c => c != '/')).reverse)
        { pb := { GetOptions := some { GoPackage := some "example.com/mod/api;apipb" } },
          descriptor := { Path := "protos/v1/api.proto" } } =
      "example.com/mod/api/api.proto" ∧
    Filename (fun a b => a ++ "/" ++ b)
        (fun p => String.mk (p.toList.reverse.takeWhile (fun c => c != '/')).reverse)
        { pb := { GetOptions := some { GoPackage := some "example.com/mod/api" } },
          descriptor := { Path := "protos/v1/api.proto" } } =
      "protos/v1/api.proto" := by
  constructor
  · rw [(C14_filename _ _ _).1 "example.com/mod/api" "apipb" (by decide) (by decide)]
    decide
  · exact (C14_filename _ _ _).2.1 (by decide)

/-- C20, counterexample: for the stored bounds (5, 5) the statement written
is `reserved 5 to 4;`, whose first number is not less than its second. -/
theorem C20_counterexample :
    (writeReservedRange (5, 5) { indendation := 1 }).map (fun pd => pd.builder) =
      some ("  reserved " ++ Itoa 5 ++ " to " ++ Itoa 4 ++ ";\n") ∧
    ¬ ((5 : Int) < 4) := by
  decide

/-- C20, amended: for stored 32-bit reserved-range bounds `a ≠ b`, in either
order, the statement written starts with `min a b` and is `reserved X;`,
`reserved X to max;` or `reserved X to Y;` with `X < Y`.  For `a = b` the
statement is `reserved a to max;` when `a = 536870912` and otherwise
`reserved a to Y;` where `Y` is `a - 1` in 32-bit arithmetic (`2147483647` for
`a = -2147483648`, else `a - 1`).  For every pair the first number printed is
`min a b`. -/
theorem C20_reserved_statement_nonempty (a b : Int) (pd : ProtoDefinition)
    (ha : -2147483648 ≤ a ∧ a ≤ 2147483647)
    (hb : -2147483648 ≤ b ∧ b ≤ 2147483647)
    (h : 0 ≤ pd.indendation) :
    (a ≠ b →
      writeReservedRange (a, b) pd =
          some (pd.write (pd.margin ++ "reserved " ++ Itoa (min a b) ++ ";\n")) ∨
      writeReservedRange (a, b) pd =
          some (pd.write (pd.margin ++ "reserved " ++ Itoa (min a b) ++ " to max;\n")) ∨
      ∃ Y : Int, min a b < Y ∧
        writeReservedRange (a, b) pd =
          some (pd.write (pd.margin ++ "reserved " ++ Itoa (min a b) ++ " to " ++
            Itoa Y ++ ";\n"))) ∧
    (a = b →
      writeReservedRange (a, b) pd =
        some (pd.write (pd.margin ++ "reserved " ++ Itoa a ++ " to " ++
          (if a = 536870912 then "max"
           else Itoa (if a = -2147483648 then 2147483647 else a - 1)) ++ ";\n"))) ∧
    (∃ rest : String,
      writeReservedRange (a, b) pd =
        some (pd.write (pd.margin ++ "reserved " ++ Itoa (min a b) ++ rest))) := by
  refine ⟨?_, ?_, ?_⟩
  rotate_left 2
  · have hnorm : (if a > b then (b, a) else (a, b)).1 = min a b := by
      rcases le_or_lt a b with hab | hab
      · rw [if_neg (not_lt.mpr hab), min_eq_left hab]
      · rw [if_pos hab, min_eq_right (le_of_lt hab)]
    unfold writeReservedRange
    rw [writeIndented_eq pd _ h]
    simp only [Option.bind_eq_bind, Option.some_bind, Option.pure_def, hnorm,
      MaxValidNumber]
    generalize wrapInt32 ((if a > b then (b, a) else (a, b)).2 - 1) = e
    by_cases h1 : min a b = e
    · exact ⟨";\n", by simp only [if_pos h1, write_write]⟩
    · by_cases h2 : e = 536870911
      · exact ⟨" to max;\n", by
          simp only [if_neg h1, if_pos h2, write_write]
          exact congrArg some (write_congr pd (by simp))⟩
      · exact ⟨" to " ++ Itoa e ++ ";\n", by
          simp only [if_neg h1, if_neg h2, write_write]
          exact congrArg some (write_congr pd (by simp))⟩
  · intro hne
    have hw : wrapInt32 (max a b - 1) = max a b - 1 := by
      unfold wrapInt32
      rcases le_total a b with hab | hab
      · rw [max_eq_right hab]; omega
      · rw [max_eq_left hab]; omega
    have hlt : min a b < max a b := by
      rcases lt_or_gt_of_ne hne with hab | hab
      · rw [min_eq_left (le_of_lt hab), max_eq_right (le_of_lt hab)]
        exact hab
      · rw [min_eq_right (le_of_lt hab), max_eq_left (le_of_lt hab)]
        exact hab
    have hnorm : (if a > b then (b, a) else (a, b)) = (min a b, max a b) := by
      rcases lt_or_gt_of_ne hne with hab | hab
      · rw [if_neg (not_lt.mpr (le_of_lt hab)), min_eq_left (le_of_lt hab),
          max_eq_right (le_of_lt hab)]
      · rw [if_pos hab, min_eq_right (le_of_lt hab), max_eq_left (le_of_lt hab)]
    unfold writeReservedRange
    rw [writeIndented_eq pd _ h]
    simp only [Option.bind_eq_bind, Option.some_bind, Option.pure_def, hnorm, hw,
      MaxValidNumber]
    by_cases h1 : min a b = max a b - 1
    · left
      simp only [if_pos h1, write_write]
    · by_cases h2 : max a b - 1 = 536870911
      · right; left
        simp only [if_neg h1, if_pos h2, write_write]
        exact congrArg some (write_congr pd (by simp))
      · right; right
        refine ⟨max a b - 1, by omega, ?_⟩
        simp only [if_neg h1, if_neg h2, write_write]
  · intro hab
    subst hab
    have hw : wrapInt32 (a - 1) = if a = -2147483648 then 2147483647 else a - 1 := by
      unfold wrapInt32
      split_ifs <;> omega
    have h1 : ¬ a = (if a = -2147483648 then 2147483647 else a - 1) := by
      split_ifs <;> omega
    have h2 : (if a = -2147483648 then (2147483647 : Int) else a - 1) = 536870911 ↔
        a = 536870912 := by
      split_ifs <;> omega
    unfold writeReservedRange
    rw [writeIndented_eq pd _ h]
    simp only [Option.bind_eq_bind, Option.some_bind, Option.pure_def, gt_iff_lt,
      lt_self_iff_false, if_false, hw, MaxValidNumber, if_neg h1, h2, write_write]
    by_cases h3 : a = 536870912
    · simp only [if_pos h3, write_write]
      exact congrArg some (write_congr pd (by simp))
    · simp only [if_neg h3, write_write]
      exact congrArg some (write_congr pd (by simp))

/-- C20, witness: the bounds (9, 5), stored inverted, give `reserved 5 to 8;`. -/
theorem C20_reserved_statement_nonempty_witness :
    writeReservedRange (9, 5) { indendation := 1 } =
        some (({ indendation := 1 } : ProtoDefinition).write
          (({ indendation := 1 } : ProtoDefinition).margin ++ "reserved " ++
            Itoa (min 9 5) ++ ";\n")) ∨
    writeReservedRange (9, 5) { indendation := 1 } =
        some (({ indendation := 1 } : ProtoDefinition).write
          (({ indendation := 1 } : ProtoDefinition).margin ++ "reserved " ++
            Itoa (min 9 5) ++ " to max;\n")) ∨
    ∃ Y : Int, min 9 5 < Y ∧
      writeReservedRange (9, 5) { indendation := 1 } =
        some (({ indendation := 1 } : ProtoDefinition).write
          (({ indendation := 1 } : ProtoDefinition).margin ++ "reserved " ++
            Itoa (min 9 5) ++ " to " ++ Itoa Y ++ ";\n")) :=
  (C20_reserved_statement_nonempty 9 5 { indendation := 1 } (by decide) (by decide)
    (by decide)).1 (by decide)

/-! ## The printer writes the lines of the descriptor tree -/

theorem concat_append (xs ys : List String) :
    concat (xs ++ ys) = concat xs ++ concat ys := by
  induction xs with
  | nil => simp [concat]
  | cons x xs ih => simp [concat, ih, String.append_assoc]

theorem render_nil : render [] = "" := rfl

theorem render_cons (l : Line) (ls : List Line) :
    render (l :: ls) = l.render ++ render ls := rfl

theorem render_append (xs ys : List Line) :
    render (xs ++ ys) = render xs ++ render ys := by
  simp [render, concat_append]

theorem render_flatMap {α : Type} (L : α → List Line) (xs : List α) :
    render (xs.flatMap L) = concat (xs.map (fun x => render (L x))) := by
  induction xs with
  | nil => rfl
  | cons x xs ih => simp [List.flatMap_cons, render_append, concat, ih]

theorem render_map {α : Type} (l : α → Line) (xs : List α) :
    render (xs.map l) = concat (xs.map (fun x => (l x).render)) := by
  simp [render, List.map_map, Function.comp_def]

theorem concat_replicate_data (n : Nat) :
    (concat (List.replicate n "  ")).data = List.replicate (2 * n) ' ' := by
  induction n with
  | zero => rfl
  | succ k ih =>
    rw [List.replicate_succ, concat, String.data_append, ih]
    have h2 : 2 * (k + 1) = 2 * k + 1 + 1 := by omega
    rw [h2, List.replicate_succ, List.replicate_succ]
    rfl

theorem margin_data (pd : ProtoDefinition) (n : Nat) (h : pd.indendation = n) :
    pd.margin.data = List.replicate (2 * n) ' ' := by
  simp [margin, h, concat_replicate_data]

theorem stmt_render_data (level : Nat) (content : String) :
    (Line.stmt level content).render.data =
      List.replicate (2 * level) ' ' ++ (content.data ++ ['\n']) := by
  simp [Line.render]

theorem forEach_render {α : Type} (body : α → ProtoDefinition → Option ProtoDefinition)
    (L : α → List Line) (P : ProtoDefinition → Prop)
    (hP : ∀ q s, P q → P (q.write s)) :
    ∀ (xs : List α) (pd : ProtoDefinition), P pd →
      (∀ x ∈ xs, ∀ q, P q → body x q = some (q.write (render (L x)))) →
      forEach body xs pd = some (pd.write (render (xs.flatMap L)))
  | [], pd, _, _ => by simp [forEach, render_nil, write_empty]
  | x :: xs, pd, hpd, hb => by
    simp only [forEach]
    rw [hb x (List.mem_cons_self _ _) pd hpd]
    simp only []
    rw [forEach_render body L P hP xs _ (hP pd _ hpd)
      (fun y hy q hq => hb y (List.mem_cons_of_mem _ hy) q hq)]
    simp [write_write, List.flatMap_cons, render_append]

theorem forEach_render_map {α : Type}
    (body : α → ProtoDefinition → Option ProtoDefinition)
    (l : α → Line) (P : ProtoDefinition → Prop)
    (hP : ∀ q s, P q → P (q.write s))
    (xs : List α) (pd : ProtoDefinition) (hpd : P pd)
    (hb : ∀ x ∈ xs, ∀ q, P q → body x q = some (q.write (l x).render)) :
    forEach body xs pd = some (pd.write (render (xs.map l))) := by
  have h := forEach_render body (fun x => [l x]) P hP xs pd hpd
    (fun x hx q hq => by
      rw [hb x hx q hq]
      simp [render_cons, render_nil])
  rw [h]
  congr 3
  induction xs with
  | nil => rfl
  | cons x xs ih =>
    simp only [List.flatMap_cons, List.map_cons, List.singleton_append]
    rw [ih (fun y hy q hq => hb y (List.mem_cons_of_mem _ hy) q hq)
      (forEach_render body (fun x => [l x]) P hP xs pd hpd
        (fun y hy q hq => by
          rw [hb y (List.mem_cons_of_mem _ hy) q hq]
          simp [render_cons, render_nil]))]

theorem atLevel_write (d : FileDescriptor) (level : Nat) (q : ProtoDefinition)
    (s : String) (h : AtLevel d level q) : AtLevel d level (q.write s) := h

theorem atLevel_indent (d : FileDescriptor) (level : Nat) (q : ProtoDefinition)
    (h : AtLevel d level q) : AtLevel d (level + 1) q.indent := by
  refine ⟨?_, h.2⟩
  simp [indent, h.1]

theorem writeIndented_stmt (q : ProtoDefinition) (level : Nat) (content : String)
    (h : q.indendation = level) :
    q.writeIndented (content ++ "\n") = some (q.write (Line.stmt level content).render) := by
  rw [writeIndented_eq q _ (by rw [h]; exact Int.ofNat_nonneg level)]
  exact congrArg some (write_congr q (by simp [stmt_render_data, margin_data q level h]))

theorem writeReservedName_line (name : String) (q : ProtoDefinition) (level : Nat)
    (h : q.indendation = level) :
    writeReservedName name q =
      some (q.write (Line.stmt level ("reserved \"" ++ name ++ "\";")).render) := by
  unfold writeReservedName
  rw [writeIndented_eq q _ (by rw [h]; exact Int.ofNat_nonneg level)]
  simp only [Option.bind_eq_bind, Option.some_bind, Option.pure_def, write_write]
  exact congrArg some (write_congr q (by simp [stmt_render_data, margin_data q level h]))

theorem writeReservedRange_line (r : Int × Int) (q : ProtoDefinition) (level : Nat)
    (h : q.indendation = level) :
    writeReservedRange r q =
      some (q.write (Line.stmt level (reservedRangeText r)).render) := by
  unfold writeReservedRange reservedRangeText
  rw [writeIndented_eq q _ (by rw [h]; exact Int.ofNat_nonneg level)]
  simp only [Option.bind_eq_bind, Option.some_bind, Option.pure_def]
  by_cases hgt : r.1 > r.2
  · simp only [if_pos hgt]
    split_ifs <;> simp only [write_write] <;>
      exact congrArg some (write_congr q (by simp [stmt_render_data, margin_data q level h]))
  · simp only [if_neg hgt]
    split_ifs <;> simp only [write_write] <;>
      exact congrArg some (write_congr q (by simp [stmt_render_data, margin_data q level h]))

theorem writeEnumValue_line (value : String × Int) (q : ProtoDefinition) (level : Nat)
    (h : q.indendation = level) :
    writeEnumValue value q =
      some (q.write (Line.stmt level (value.1 ++ " = " ++ Itoa value.2 ++ ";")).render) := by
  unfold writeEnumValue
  rw [writeIndented_eq q _ (by rw [h]; exact Int.ofNat_nonneg level)]
  simp only [Option.bind_eq_bind, Option.some_bind, Option.pure_def, write_write]
  exact congrArg some (write_congr q (by simp [stmt_render_data, margin_data q level h]))

theorem writeType_total : ∀ field : FieldDescriptor, wellFormedField field = true →
    ∃ t, ∀ pd, writeType field pd = some (pd.write t)
  | .mk a mapKey mapValue, hwf => by
    by_cases h1 : a.Kind = "message"
    · exact ⟨"." ++ a.Message, fun pd => by simp [writeType, h1, write_write]⟩
    by_cases h2 : a.Kind = "enum"
    · exact ⟨"." ++ a.Enum, fun pd => by simp [writeType, h1, h2, write_write]⟩
    by_cases h3 : a.Kind = "map"
    · simp only [wellFormedField, h3, if_true, Bool.and_eq_true] at hwf
      obtain ⟨hk, hv⟩ := hwf
      cases mapKey with
      | none => simp [wellFormedFieldOrNil] at hk
      | some k =>
        cases mapValue with
        | none => simp [wellFormedFieldOrNil] at hv
        | some v =>
          obtain ⟨tk, htk⟩ := writeType_total k (by simpa [wellFormedFieldOrNil] using hk)
          obtain ⟨tv, htv⟩ := writeType_total v (by simpa [wellFormedFieldOrNil] using hv)
          exact ⟨"map<" ++ tk ++ ", " ++ tv ++ ">", fun pd => by
            simp [writeType, writeTypeOrNil, h1, h2, h3, htk, htv, write_write]⟩
    · exact ⟨a.Kind, fun pd => by simp [writeType, h1, h2, h3]⟩

theorem typeName_of_wellFormed (field : FieldDescriptor)
    (hwf : wellFormedField field = true) :
    typeName field = some ((typeName field).getD "") := by
  obtain ⟨t, ht⟩ := writeType_total field hwf
  simp [typeName, ht, write]

theorem writeField_line (d : FileDescriptor) (field : FieldDescriptor)
    (is_oneof : List Int) (q : ProtoDefinition) (level : Nat)
    (hwf : wellFormedField field = true) (h : AtLevel d level q) :
    writeField field is_oneof q = some (q.write (fieldLine d is_oneof level field).render) := by
  rw [writeField_eq field is_oneof q _ (by rw [h.1]; exact Int.ofNat_nonneg level)
    (typeName_of_wellFormed field hwf)]
  have hm : fieldModifier field is_oneof q =
      fieldModifier field is_oneof { descriptor := d } := by
    simp [fieldModifier, h.2]
  exact congrArg some (write_congr q (by
    simp [fieldLine, stmt_render_data, margin_data q level h.1, hm]))

theorem writeEnum_lines (enum : EnumDescriptor) (q : ProtoDefinition) (level : Nat)
    (h : q.indendation = level) :
    writeEnum enum q = some (q.write (render (enumLines level enum))) := by
  have h0 : 0 ≤ q.indendation := by rw [h]; exact Int.ofNat_nonneg level
  unfold writeEnum
  rw [writeIndented_eq q _ h0]
  simp only [Option.bind_eq_bind, Option.some_bind, write_write, indent_write]
  rw [forEach_render_map writeEnumValue
    (fun v => Line.stmt (level + 1) (v.1 ++ " = " ++ Itoa v.2 ++ ";"))
    (fun s => s.indendation = ((level + 1 : Nat) : Int)) (fun _ _ hs => hs)
    enum.Values _ (by simp [indent, write, h])
    (fun v _ s hs => writeEnumValue_line v s (level + 1) hs)]
  simp only [Option.some_bind, write_write, dedent_indent_write]
  rw [writeIndented_eq _ _ (by simpa [indendation_write] using h0)]
  simp only [write_write, margin_write]
  exact congrArg some (write_congr q (by
    simp [enumLines, render_append, render_cons, render_nil, stmt_render_data,
      margin_data q level h, Line.render]))

theorem writeOneof_lines (d : FileDescriptor) (oneof : OneofDescriptor)
    (q : ProtoDefinition) (level : Nat) (hwf : wellFormedOneof oneof = true)
    (h : AtLevel d level q) :
    writeOneof oneof q = some (q.write (render (oneofLines d level oneof))) := by
  have h0 : 0 ≤ q.indendation := by rw [h.1]; exact Int.ofNat_nonneg level
  simp only [wellFormedOneof, Bool.and_eq_true, Bool.or_eq_true, Bool.not_eq_true',
    List.all_eq_true] at hwf
  obtain ⟨hne, hall⟩ := hwf
  unfold writeOneof oneofLines
  by_cases hs : oneof.IsSynthetic = true
  · simp only [hs, if_true]
    cases hf : oneof.Fields with
    | nil => simp [hs, hf] at hne
    | cons f fs =>
      have hfw : wellFormedField f = true := hall f (by simp [hf])
      simp only [List.getElem?_cons_zero, List.take_succ_cons, List.take_zero,
        List.map_cons, List.map_nil]
      rw [writeField_line d f [] q level hfw h]
      simp [render_cons, render_nil]
  · simp only [hs, if_false]
    rw [writeIndented_eq q _ h0]
    simp only [Option.bind_eq_bind, Option.some_bind, write_write, indent_write]
    rw [forEach_render_map (fun field => writeField field [1])
      (fieldLine d [1] (level + 1)) (AtLevel d (level + 1))
      (atLevel_write d (level + 1)) oneof.Fields _
      (atLevel_write d (level + 1) _ _ (atLevel_indent d level q h))
      (fun f hf s hs => writeField_line d f [1] s (level + 1) (hall f hf) hs)]
    simp only [Option.some_bind, write_write, dedent_indent_write]
    rw [writeIndented_eq _ _ (by simpa [indendation_write] using h0)]
    simp only [write_write, margin_write]
    exact congrArg some (write_congr q (by
      simp [render_append, render_cons, render_nil, stmt_render_data,
        margin_data q level h.1]))

theorem writePlainFields_lines (d : FileDescriptor) (fields : List FieldDescriptor)
    (q : ProtoDefinition) (level : Nat)
    (hwf : fields.all wellFormedField = true) (h : AtLevel d level q) :
    forEach writePlainField fields q =
      some (q.write (render ((fields.filter
        (fun f => f.attrs.ContainingOneof = none)).map (fieldLine d [] level)))) := by
  simp only [List.all_eq_true] at hwf
  rw [forEach_render writePlainField
    (fun f => if f.attrs.ContainingOneof = none then [fieldLine d [] level f] else [])
    (AtLevel d level) (atLevel_write d level) fields q h
    (fun f hf s hs => by
      unfold writePlainField
      by_cases hc : f.attrs.ContainingOneof = none
      · simp only [hc, if_true]
        rw [writeField_line d f [] s level (hwf f hf) hs]
        simp [render_cons, render_nil]
      · simp only [hc, if_false]
        simp [render_nil, write_empty])]
  congr 3
  clear hwf
  induction fields with
  | nil => rfl
  | cons f fs ih =>
    by_cases hc : f.attrs.ContainingOneof = none
    · simp [List.flatMap_cons, List.filter_cons, hc, ih]
    · simp [List.flatMap_cons, List.filter_cons, hc, ih]

mutual
theorem writeMessage_lines (d : FileDescriptor) :
    ∀ (m : MessageDescriptor) (q : ProtoDefinition) (level : Nat),
      wellFormedMessage m = true → AtLevel d level q →
      writeMessage m q = some (q.write (render (messageLines d level m)))
  | .mk name reservedNames reservedRanges messages enums fields oneofs, q, level,
      hwf, h => by
    have h0 : 0 ≤ q.indendation := by rw [h.1]; exact Int.ofNat_nonneg level
    simp only [wellFormedMessage, Bool.and_eq_true] at hwf
    obtain ⟨⟨hms, hfs⟩, hos⟩ := hwf
    have hP := atLevel_write d (level + 1)
    have hq1 : ∀ s, AtLevel d (level + 1) (q.indent.write s) :=
      fun s => atLevel_write d (level + 1) _ s (atLevel_indent d level q h)
    simp only [writeMessage, messageLines]
    rw [writeIndented_eq q _ h0]
    simp only [Option.bind_eq_bind, Option.some_bind, write_write, indent_write]
    rw [forEach_render_map writeReservedName
      (fun n => Line.stmt (level + 1) ("reserved \"" ++ n ++ "\";"))
      (AtLevel d (level + 1)) hP reservedNames _ (hq1 _)
      (fun n _ s hs => writeReservedName_line n s (level + 1) hs.1)]
    simp only [Option.some_bind, write_write]
    rw [forEach_render_map writeReservedRange
      (fun r => Line.stmt (level + 1) (reservedRangeText r))
      (AtLevel d (level + 1)) hP reservedRanges _ (hq1 _)
      (fun r _ s hs => writeReservedRange_line r s (level + 1) hs.1)]
    simp only [Option.some_bind, write_write]
    rw [writeMessages_lines d messages _ (level + 1) hms (hq1 _)]
    simp only [Option.some_bind, write_write]
    rw [forEach_render writeEnum (enumLines (level + 1)) (AtLevel d (level + 1)) hP
      enums _ (hq1 _) (fun e _ s hs => writeEnum_lines e s (level + 1) hs.1)]
    simp only [Option.some_bind, write_write]
    rw [writePlainFields_lines d fields _ (level + 1) hfs (hq1 _)]
    simp only [Option.some_bind, write_write]
    rw [forEach_render writeOneof (oneofLines d (level + 1)) (AtLevel d (level + 1)) hP
      oneofs _ (hq1 _)
      (fun o ho s hs => writeOneof_lines d o s (level + 1)
        (List.all_eq_true.mp hos o ho) hs)]
    simp only [Option.some_bind, write_write, dedent_indent_write]
    rw [writeIndented_eq _ _ (by simpa [indendation_write] using h0)]
    simp only [write_write, margin_write]
    exact congrArg some (write_congr q (by
      simp [render_append, render_cons, render_nil, stmt_render_data,
        margin_data q level h.1, Line.render]))
theorem writeMessages_lines (d : FileDescriptor) :
    ∀ (ms : List MessageDescriptor) (q : ProtoDefinition) (level : Nat),
      wellFormedMessages ms = true → AtLevel d level q →
      writeMessages ms q = some (q.write (render (messagesLines d level ms)))
  | [], q, level, _, _ => by
    simp [writeMessages, messagesLines, render_nil, write_empty]
  | m :: ms, q, level, hwf, h => by
    simp only [wellFormedMessages, Bool.and_eq_true] at hwf
    simp only [writeMessages, messagesLines]
    rw [writeMessage_lines d m q level hwf.1 h]
    simp only []
    rw [writeMessages_lines d ms _ level hwf.2 (atLevel_write d level q _ h)]
    simp [write_write, render_append]
end

theorem writeMethod_line (method : MethodDescriptor) (q : ProtoDefinition)
    (level : Nat) (h : q.indendation = level) :
    writeMethod method q = some (q.write (methodLine level method).render) := by
  unfold writeMethod methodLine
  rw [writeIndented_eq q _ (by rw [h]; exact Int.ofNat_nonneg level)]
  cases method.IsStreamingClient <;> cases method.IsStreamingServer <;>
    simp only [Option.bind_eq_bind, Option.some_bind, Option.pure_def, write_write,
      Bool.false_eq_true, if_true, if_false] <;>
    exact congrArg some (write_congr q (by
      simp [stmt_render_data, margin_data q level h]))

theorem writeService_lines (service : ServiceDescriptor) (q : ProtoDefinition)
    (h : q.indendation = 0) :
    writeService service q = some (q.write (render (serviceLines service))) := by
  have h' : q.indendation = ((0 : Nat) : Int) := by simpa using h
  have h0 : 0 ≤ q.indendation := by rw [h]
  unfold writeService serviceLines
  simp only [Option.bind_eq_bind, write_write, indent_write]
  rw [forEach_render_map writeMethod (methodLine 1)
    (fun s => s.indendation = ((1 : Nat) : Int)) (fun _ _ hs => hs)
    service.Methods _ (by simp [indent, write, h])
    (fun m _ s hs => writeMethod_line m s 1 hs)]
  simp only [Option.some_bind, write_write, dedent_indent_write]
  rw [writeIndented_eq _ _ (by simpa [indendation_write] using h0)]
  simp only [write_write, margin_write]
  exact congrArg some (write_congr q (by
    simp [render_append, render_cons, render_nil, stmt_render_data,
      margin_data q 0 h', Line.render]))

theorem writeImport_line (fileImport : FileImport) (q : ProtoDefinition) :
    writeImport fileImport q = some (q.write (importLine fileImport).render) := by
  unfold writeImport importLine
  cases fileImport.IsPublic <;>
    simp only [write_write, Bool.false_eq_true, if_true, if_false] <;>
    exact congrArg some (write_congr q (by simp [stmt_render_data]))

theorem writeFileOptionsLoop_lines (o : FileOptions) :
    ∀ (defs : List (String × String)) (st : ProtoDefinition × Bool),
      (∀ x ∈ defs, o.FieldByName x.2 ≠ none) →
      writeFileOptionsLoop o defs st =
        some (st.1.write (render (defs.filterMap (optionLine o))),
          st.2 || !(defs.filterMap (optionLine o)).isEmpty)
  | [], st, _ => by
    simp [writeFileOptionsLoop, render_nil, write_empty]
  | x :: defs, st, hdef => by
    have hx : o.FieldByName x.2 ≠ none := hdef x (List.mem_cons_self _ _)
    have ih := fun st1 => writeFileOptionsLoop_lines o defs st1
      (fun y hy => hdef y (List.mem_cons_of_mem _ hy))
    simp only [writeFileOptionsLoop, writeFileOption]
    cases hf : o.FieldByName x.2 with
    | none => exact absurd hf hx
    | some v =>
      cases v with
      | none =>
        simp only [ih, List.filterMap_cons, optionLine, hf]
      | some e =>
        cases e with
        | String s =>
          simp only [ih, List.filterMap_cons, optionLine, hf, writeStringFileOptions,
            write_write, Bool.true_or, List.isEmpty_cons, Bool.not_false, Bool.or_true,
            Option.some.injEq, Prod.mk.injEq, and_true]
          exact write_congr st.1 (by simp [render_cons, stmt_render_data])
        | Bool b =>
          simp only [ih, List.filterMap_cons, optionLine, hf, writeBoolFileOptions,
            write_write, Bool.true_or, List.isEmpty_cons, Bool.not_false, Bool.or_true,
            Option.some.injEq, Prod.mk.injEq, and_true]
          exact write_congr st.1 (by simp [render_cons, stmt_render_data])

theorem writeFileOptions_lines (q : ProtoDefinition) :
    writeFileOptions q = some (q.write (render (optionsLines q.pb.GetOptions))) := by
  unfold writeFileOptions optionsLines
  cases q.pb.GetOptions with
  | none => simp [render_nil, write_empty]
  | some o =>
    simp only []
    rw [writeFileOptionsLoop_lines o optionDefinitions (q, false)
      (by simp [optionDefinitions, FileOptions.FieldByName])]
    simp only [Bool.false_or]
    cases hE : (optionDefinitions.filterMap (optionLine o)).isEmpty with
    | true => simp [render_append, render_nil]
    | false =>
      simp only [Bool.not_false, if_true, Bool.false_eq_true, if_false, write_write]
      exact congrArg some (write_congr q (by
        simp [render_append, render_cons, render_nil, Line.render]))

theorem descriptor_write (q : ProtoDefinition) (s : String) :
    (q.write s).descriptor = q.descriptor := rfl

theorem pb_write (q : ProtoDefinition) (s : String) : (q.write s).pb = q.pb := rfl

theorem writeFileDescriptor_lines (q : ProtoDefinition)
    (hwf : wellFormedMessages q.descriptor.Messages = true)
    (h : q.indendation = 0) :
    writeFileDescriptor q =
      some (q.write (render (fileLines q.pb q.descriptor))) := by
  have h' : AtLevel q.descriptor 0 q := ⟨by simpa using h, rfl⟩
  have hP := atLevel_write q.descriptor 0
  unfold writeFileDescriptor fileLines
  simp only [Option.bind_eq_bind, write_write, descriptor_write, pb_write]
  by_cases hp : q.descriptor.FullName = "" <;>
    by_cases hi : q.descriptor.Imports.length > 0 <;>
    (simp only [hp, hi, ne_eq, not_true_eq_false, not_false_eq_true, if_true, if_false,
       write_write]
     rw [writeFileOptions_lines]
     simp only [Option.some_bind, write_write, descriptor_write, pb_write]
     rw [forEach_render_map writeImport importLine (fun _ => True)
       (fun _ _ _ => trivial) q.descriptor.Imports _ trivial
       (fun i _ s _ => writeImport_line i s)]
     simp only [Option.some_bind, write_write, descriptor_write, hi, if_true, if_false]
     rw [forEach_render writeService serviceLines (AtLevel q.descriptor 0) hP
       q.descriptor.Services _ (hP q _ h')
       (fun sv _ s hs => writeService_lines sv s (by simpa using hs.1))]
     simp only [Option.some_bind, write_write, descriptor_write]
     rw [writeMessages_lines q.descriptor q.descriptor.Messages _ 0 hwf (hP q _ h')]
     simp only [Option.some_bind, write_write, descriptor_write]
     rw [forEach_render writeEnum (enumLines 0) (AtLevel q.descriptor 0) hP
       q.descriptor.Enums _ (hP q _ h')
       (fun e _ s hs => writeEnum_lines e s 0 hs.1)]
     simp only [write_write]
     exact congrArg some (write_congr q (by
       simp [render_append, render_cons, render_nil, stmt_render_data, Line.render])))

theorem messagesLines_eq_flatMap (d : FileDescriptor) (level : Nat)
    (ms : List MessageDescriptor) :
    messagesLines d level ms = ms.flatMap (messageLines d level) := by
  induction ms with
  | nil => simp [messagesLines]
  | cons m ms ih => simp [messagesLines, List.flatMap_cons, ih]

theorem wellFormedMessages_mem (ms : List MessageDescriptor)
    (h : wellFormedMessages ms = true) : ∀ m ∈ ms, wellFormedMessage m = true := by
  induction ms with
  | nil => intro m hm; cases hm
  | cons x xs ih =>
    simp only [wellFormedMessages, Bool.and_eq_true] at h
    intro m hm
    rcases List.mem_cons.mp hm with rfl | hm
    · exact h.1
    · exact ih h.2 m hm

/-- C11: the text `writeMessage` writes for a well-formed message is the
header `message <name> {`, then, one level deeper and in this order, one
`reserved "<name>";` line per reserved name, one reserved statement per
reserved range, the lines of every nested message (each message complete
before the next), the lines of every nested enum, the line of every field
whose containing-oneof reference is empty, and the lines of every oneof, each
group in the order of its input sequence; then `}` and a blank line.  The
lines of a nested message, enum, field and oneof are the text `writeMessage`,
`writeEnum`, `writeField` and `writeOneof` write for it at that level. -/
theorem C11_message_body_order (d : FileDescriptor) (name : String)
    (reservedNames : List String) (reservedRanges : List (Int × Int))
    (messages : List MessageDescriptor) (enums : List EnumDescriptor)
    (fields : List FieldDescriptor) (oneofs : List OneofDescriptor)
    (q : ProtoDefinition) (level : Nat)
    (hwf : wellFormedMessage
      (.mk name reservedNames reservedRanges messages enums fields oneofs) = true)
    (h : AtLevel d level q) :
    writeMessage (.mk name reservedNames reservedRanges messages enums fields oneofs) q =
      some (q.write (render
        ([Line.stmt level ("message " ++ name ++ " \x7b")] ++
          reservedNames.map (fun n => Line.stmt (level + 1) ("reserved \"" ++ n ++ "\";")) ++
          reservedRanges.map (fun r => Line.stmt (level + 1) (reservedRangeText r)) ++
          messages.flatMap (messageLines d (level + 1)) ++
          enums.flatMap (enumLines (level + 1)) ++
          (fields.filter (fun f => f.attrs.ContainingOneof = none)).map
            (fieldLine d [] (level + 1)) ++
          oneofs.flatMap (oneofLines d (level + 1)) ++
          [Line.stmt level "\x7d", Line.blank]))) ∧
    (∀ m ∈ messages, ∀ s, AtLevel d (level + 1) s →
      writeMessage m s = some (s.write (render (messageLines d (level + 1) m)))) ∧
    (∀ e ∈ enums, ∀ s, AtLevel d (level + 1) s →
      writeEnum e s = some (s.write (render (enumLines (level + 1) e)))) ∧
    (∀ f ∈ fields, ∀ s, AtLevel d (level + 1) s →
      writeField f [] s = some (s.write (fieldLine d [] (level + 1) f).render)) ∧
    (∀ o ∈ oneofs, ∀ s, AtLevel d (level + 1) s →
      writeOneof o s = some (s.write (render (oneofLines d (level + 1) o)))) := by
  have hwf' := hwf
  simp only [wellFormedMessage, Bool.and_eq_true, List.all_eq_true] at hwf'
  obtain ⟨⟨hms, hfs⟩, hos⟩ := hwf'
  refine ⟨?_, ?_, ?_, ?_, ?_⟩
  · rw [writeMessage_lines d _ q level hwf h]
    simp only [messageLines, messagesLines_eq_flatMap]
  · intro m hm s hs
    exact writeMessage_lines d m s (level + 1) (wellFormedMessages_mem messages hms m hm) hs
  · intro e _ s hs
    exact writeEnum_lines e s (level + 1) hs.1
  · intro f hf s hs
    exact writeField_line d f [] s (level + 1) (hfs f hf) hs
  · intro o ho s hs
    exact writeOneof_lines d o s (level + 1) (hos o ho) hs

/-- C11, witness: a message with a reserved name, a reserved range, a nested
message, a nested enum, two plain fields and a oneof. -/
theorem C11_message_body_order_witness :
    writeMessage
        (.mk "M" ["old"] [(5, 9)] [.mk "N" [] [] [] [] [] []]
          [{ Name := "E", Values := [("A", 0)] }]
          [.mk { Name := "a", Number := 1 } none none,
           .mk { Name := "b", Number := 2, Kind := "string", ContainingOneof := some 0 }
             none none,
           .mk { Name := "c", Number := 3, Kind := "bool", Cardinality := "repeated" }
             none none]
          [{ Name := "o",
             Fields := [.mk { Name := "b", Number := 2, Kind := "string",
                              ContainingOneof := some 0 } none none] }])
        {} =
      some { builder :=
        "message M \x7b\n  reserved \"old\";\n  reserved 5 to 8;\n  message N \x7b\n  \x7d\n\n  enum E \x7b\n    A = 0;\n  \x7d\n\n  int32 a = 1;\n  repeated bool c = 3;\n  oneof o \x7b\n    string b = 2;\n  \x7d\n\x7d\n\n" } := by
  rw [(C11_message_body_order {} "M" ["old"] [(5, 9)] [.mk "N" [] [] [] [] [] []]
    [{ Name := "E", Values := [("A", 0)] }]
    [.mk { Name := "a", Number := 1 } none none,
     .mk { Name := "b", Number := 2, Kind := "string", ContainingOneof := some 0 }
       none none,
     .mk { Name := "c", Number := 3, Kind := "bool", Cardinality := "repeated" }
       none none]
    [{ Name := "o",
       Fields := [.mk { Name := "b", Number := 2, Kind := "string",
                        ContainingOneof := some 0 } none none] }]
    {} 0 (by rfl) ⟨rfl, rfl⟩).1]
  rfl

/-- C13: for a well-formed file, `writeFileDescriptor` writes
`syntax = "<mode>";` and a blank line; after that, for an empty package name,
immediately the text of the file options, imports, services, messages and
enums (no `package` statement and no blank line in its place), and for a
non-empty package name `p` first `package p;` and a blank line. -/
theorem C13_package_statement (q : ProtoDefinition)
    (hwf : wellFormedMessages q.descriptor.Messages = true)
    (h : q.indendation = 0) :
    writeFileDescriptor q =
      some (q.write
        ("syntax = \"" ++ q.descriptor.SyntaxName ++ "\";\n\n" ++
          (if q.descriptor.FullName = "" then ""
           else "package " ++ q.descriptor.FullName ++ ";\n\n") ++
          render
            (optionsLines q.pb.GetOptions ++
              q.descriptor.Imports.map importLine ++
              (if q.descriptor.Imports.length > 0 then [Line.blank] else []) ++
              q.descriptor.Services.flatMap serviceLines ++
              q.descriptor.Messages.flatMap (messageLines q.descriptor 0) ++
              q.descriptor.Enums.flatMap (enumLines 0)))) := by
  rw [writeFileDescriptor_lines q hwf h]
  unfold fileLines
  rw [messagesLines_eq_flatMap]
  by_cases hp : q.descriptor.FullName = ""
  · simp only [hp, ne_eq, not_true_eq_false, if_false, if_true]
    exact congrArg some (write_congr q (by
      simp [render_append, render_cons, render_nil, stmt_render_data, Line.render]))
  · simp only [hp, ne_eq, not_false_eq_true, if_true, if_false]
    exact congrArg some (write_congr q (by
      simp [render_append, render_cons, render_nil, stmt_render_data, Line.render]))

/-- C13, witness: a file without package and the same file with package
`pkg`, each with one message. -/
theorem C13_package_statement_witness :
    writeFileDescriptor
        { descriptor := { Messages := [.mk "M" [] [] [] [] [] []] } } =
      some { builder := "syntax = \"proto3\";\n\nmessage M \x7b\n\x7d\n\n",
             descriptor := { Messages := [.mk "M" [] [] [] [] [] []] } } ∧
    writeFileDescriptor
        { descriptor := { FullName := "pkg", Messages := [.mk "M" [] [] [] [] [] []] } } =
      some { builder := "syntax = \"proto3\";\n\npackage pkg;\n\nmessage M \x7b\n\x7d\n\n",
             descriptor := { FullName := "pkg",
                             Messages := [.mk "M" [] [] [] [] [] []] } } := by
  constructor
  · rw [C13_package_statement
      { descriptor := { Messages := [.mk "M" [] [] [] [] [] []] } } (by rfl) rfl]
    rfl
  · rw [C13_package_statement
      { descriptor := { FullName := "pkg", Messages := [.mk "M" [] [] [] [] [] []] } }
      (by rfl) rfl]
    rfl

/-- C16: rendering is total on well-formed descriptor trees.  For a file whose
messages are well-formed (every synthetic oneof has a member field, and every
field whose kind is reported as `map` has a key and a value descriptor),
`writeFileDescriptor`, started at depth 0, returns a text; `writeMessage`
returns on every well-formed message, `writeType` on every well-formed field,
and the index-0 access of `writeOneof` is defined. -/
theorem C16_rendering_total (q : ProtoDefinition)
    (hwf : wellFormedMessages q.descriptor.Messages = true)
    (h : q.indendation = 0) :
    (∃ text, writeFileDescriptor q = some (q.write text)) ∧
    (∀ (m : MessageDescriptor) (s : ProtoDefinition), wellFormedMessage m = true →
      0 ≤ s.indendation → ∃ text, writeMessage m s = some (s.write text)) ∧
    (∀ field : FieldDescriptor, wellFormedField field = true →
      ∃ text, ∀ s, writeType field s = some (s.write text)) ∧
    (∀ oneof : OneofDescriptor, wellFormedOneof oneof = true →
      oneof.IsSynthetic = true → ∃ field, oneof.Fields[0]? = some field) := by
  refine ⟨⟨_, writeFileDescriptor_lines q hwf h⟩, ?_, writeType_total, ?_⟩
  · intro m s hm hs
    obtain ⟨n, hn⟩ := Int.eq_ofNat_of_zero_le hs
    exact ⟨_, writeMessage_lines s.descriptor m s n hm ⟨hn, rfl⟩⟩
  · intro oneof ho hs
    simp only [wellFormedOneof, Bool.and_eq_true, Bool.or_eq_true, Bool.not_eq_true',
      hs, Bool.true_eq_false, false_or] at ho
    cases hf : oneof.Fields with
    | nil => simp [hf] at ho
    | cons f fs => exact ⟨f, by simp⟩

/-- C16, witness: a file with a nested message, a synthetic oneof and a field
of kind `map` with key and value is rendered. -/
theorem C16_rendering_total_witness :
    ∃ text,
      writeFileDescriptor
          { descriptor := { Messages :=
              [.mk "M" [] [] [.mk "N" [] [] [] [] [] []] []
                [.mk { Name := "x", Number := 1, HasOptionalKeyword := true,
                       ContainingOneof := some 0 } none none,
                 .mk { Name := "m", Number := 2, Kind := "map" }
                   (some (.mk { Kind := "string" } none none))
                   (some (.mk { Kind := "message", Message := "pkg.Foo" } none none))]
                [{ Name := "_x", IsSynthetic := true,
                   Fields := [.mk { Name := "x", Number := 1, HasOptionalKeyword := true,
                                    ContainingOneof := some 0 } none none] }]] } } =
        some (({ descriptor := { Messages :=
              [.mk "M" [] [] [.mk "N" [] [] [] [] [] []] []
                [.mk { Name := "x", Number := 1, HasOptionalKeyword := true,
                       ContainingOneof := some 0 } none none,
                 .mk { Name := "m", Number := 2, Kind := "map" }
                   (some (.mk { Kind := "string" } none none))
                   (some (.mk { Kind := "message", Message := "pkg.Foo" } none none))]
                [{ Name := "_x", IsSynthetic := true,
                   Fields := [.mk { Name := "x", Number := 1, HasOptionalKeyword := true,
                                    ContainingOneof := some 0 } none none] }]] } } :
          ProtoDefinition).write text) :=
  (C16_rendering_total _ (by rfl) rfl).1

/-! ## The indentation counter -/

theorem writeIndented_keeps {q r : ProtoDefinition} {s : String}
    (h : q.writeIndented s = some r) : r.indendation = q.indendation := by
  unfold writeIndented at h
  cases hrep : Repeat "  " q.indendation with
  | none => simp [hrep] at h
  | some sp =>
    simp only [hrep, Option.some.injEq] at h
    rw [← h]
    rfl

theorem forEach_keeps {α : Type} (body : α → ProtoDefinition → Option ProtoDefinition)
    (hb : ∀ x q r, body x q = some r → r.indendation = q.indendation) :
    ∀ (xs : List α) (q r : ProtoDefinition), forEach body xs q = some r →
      r.indendation = q.indendation
  | [], q, r, h => by
    simp only [forEach, Option.some.injEq] at h
    rw [h]
  | x :: xs, q, r, h => by
    simp only [forEach] at h
    cases hx : body x q with
    | none => simp [hx] at h
    | some q1 =>
      simp only [hx] at h
      rw [forEach_keeps body hb xs q1 r h, hb x q q1 hx]

theorem writeType_keeps (field : FieldDescriptor) (q r : ProtoDefinition)
    (h : writeType field q = some r) : r.indendation = q.indendation := by
  rcases writeType_cases field with ⟨t, ht⟩ | hn
  · rw [ht] at h
    simp only [Option.some.injEq] at h
    rw [← h]
    rfl
  · simp [hn] at h

theorem writeField_keeps (field : FieldDescriptor) (is_oneof : List Int)
    (q r : ProtoDefinition) (h : writeField field is_oneof q = some r) :
    r.indendation = q.indendation := by
  unfold writeField at h
  simp only [Option.bind_eq_bind, Option.bind_eq_some, Option.pure_def,
    Option.some.injEq] at h
  obtain ⟨q1, h1, q2, h2, hr⟩ := h
  have e1 := writeIndented_keeps h1
  have e2 := writeType_keeps field _ _ h2
  rw [← hr]
  have e3 : q2.indendation = q.indendation := by
    rw [e2]
    split_ifs <;> simp [write, e1]
  split_ifs <;> simp [write, e3]

theorem writeEnumValue_keeps (value : String × Int) (q r : ProtoDefinition)
    (h : writeEnumValue value q = some r) : r.indendation = q.indendation := by
  unfold writeEnumValue at h
  simp only [Option.bind_eq_bind, Option.bind_eq_some, Option.pure_def,
    Option.some.injEq] at h
  obtain ⟨q1, h1, hr⟩ := h
  rw [← hr]
  simp [write, writeIndented_keeps h1]

theorem writeEnum_dedent (enum : EnumDescriptor) (q r : ProtoDefinition)
    (h : writeEnum enum q = some r) :
    r.indendation = q.indendation ∧
    ∃ s : ProtoDefinition, s.indendation = q.indendation + 1 ∧
      s.dedent.writeIndented "\x7d\n\n" = some r := by
  unfold writeEnum at h
  simp only [Option.bind_eq_bind, Option.bind_eq_some] at h
  obtain ⟨q1, h1, s, hs, hr⟩ := h
  have e1 := writeIndented_keeps h1
  have e2 := forEach_keeps writeEnumValue writeEnumValue_keeps _ _ _ hs
  have e3 := writeIndented_keeps hr
  have e4 : s.indendation = q.indendation + 1 := by
    rw [e2]
    simp [indent, write, e1]
  refine ⟨?_, s, e4, hr⟩
  rw [e3]
  simp [dedent, e4]

theorem writeMethod_keeps (method : MethodDescriptor) (q r : ProtoDefinition)
    (h : writeMethod method q = some r) : r.indendation = q.indendation := by
  unfold writeMethod at h
  simp only [Option.bind_eq_bind, Option.bind_eq_some, Option.pure_def,
    Option.some.injEq] at h
  obtain ⟨q1, h1, hr⟩ := h
  rw [← hr]
  split_ifs <;> simp [write, writeIndented_keeps h1]

theorem writeService_dedent (service : ServiceDescriptor) (q r : ProtoDefinition)
    (h : writeService service q = some r) :
    r.indendation = q.indendation ∧
    ∃ s : ProtoDefinition, s.indendation = q.indendation + 1 ∧
      s.dedent.writeIndented "\x7d\n\n" = some r := by
  unfold writeService at h
  simp only [Option.bind_eq_bind, Option.bind_eq_some] at h
  obtain ⟨s, hs, hr⟩ := h
  have e2 := forEach_keeps writeMethod writeMethod_keeps _ _ _ hs
  have e3 := writeIndented_keeps hr
  have e4 : s.indendation = q.indendation + 1 := by
    rw [e2]
    simp [indent, write]
  refine ⟨?_, s, e4, hr⟩
  rw [e3]
  simp [dedent, e4]

theorem writeOneof_dedent (oneof : OneofDescriptor) (q r : ProtoDefinition)
    (h : writeOneof oneof q = some r) :
    r.indendation = q.indendation ∧
    (oneof.IsSynthetic = false →
      ∃ s : ProtoDefinition, s.indendation = q.indendation + 1 ∧
        s.dedent.writeIndented "\x7d\n" = some r) := by
  simp only [writeOneof] at h
  by_cases hsyn : oneof.IsSynthetic = true
  · simp only [hsyn, if_true] at h
    refine ⟨?_, fun hf => by simp [hsyn] at hf⟩
    cases hf : oneof.Fields[0]? with
    | none => simp [hf] at h
    | some f =>
      simp only [hf] at h
      exact writeField_keeps f [] q r h
  · simp only [hsyn, Bool.false_eq_true, if_false, Option.bind_eq_bind,
      Option.bind_eq_some] at h
    obtain ⟨q1, h1, s, hs, hr⟩ := h
    have e1 := writeIndented_keeps h1
    have e2 := forEach_keeps (fun field => writeField field [1])
      (fun f => writeField_keeps f [1]) _ _ _ hs
    have e3 := writeIndented_keeps hr
    have e4 : s.indendation = q.indendation + 1 := by
      rw [e2]
      simp [indent, write, e1]
    refine ⟨?_, fun _ => ⟨s, e4, hr⟩⟩
    rw [e3]
    simp [dedent, e4]

theorem writeReservedName_keeps (name : String) (q r : ProtoDefinition)
    (h : writeReservedName name q = some r) : r.indendation = q.indendation := by
  unfold writeReservedName at h
  simp only [Option.bind_eq_bind, Option.bind_eq_some, Option.pure_def,
    Option.some.injEq] at h
  obtain ⟨q1, h1, hr⟩ := h
  rw [← hr]
  simp [write, writeIndented_keeps h1]

theorem writeReservedRange_keeps (range : Int × Int) (q r : ProtoDefinition)
    (h : writeReservedRange range q = some r) : r.indendation = q.indendation := by
  unfold writeReservedRange at h
  simp only [Option.bind_eq_bind, Option.bind_eq_some, Option.pure_def,
    Option.some.injEq] at h
  obtain ⟨q1, h1, hr⟩ := h
  rw [← hr]
  split_ifs <;> simp [write, writeIndented_keeps h1]

theorem writePlainField_keeps (field : FieldDescriptor) (q r : ProtoDefinition)
    (h : writePlainField field q = some r) : r.indendation = q.indendation := by
  unfold writePlainField at h
  split_ifs at h
  · exact writeField_keeps field [] q r h
  · simp only [Option.some.injEq] at h
    rw [h]

mutual
theorem writeMessage_dedent :
    ∀ (m : MessageDescriptor) (q r : ProtoDefinition), writeMessage m q = some r →
      r.indendation = q.indendation ∧
      ∃ s : ProtoDefinition, s.indendation = q.indendation + 1 ∧
        s.dedent.writeIndented "\x7d\n\n" = some r
  | .mk name reservedNames reservedRanges messages enums fields oneofs, q, r, h => by
    simp only [writeMessage, Option.bind_eq_bind, Option.bind_eq_some] at h
    obtain ⟨q1, h1, q2, h2, q3, h3, q4, h4, q5, h5, q6, h6, s, hs, hr⟩ := h
    have e1 := writeIndented_keeps h1
    have e2 := forEach_keeps writeReservedName writeReservedName_keeps _ _ _ h2
    have e3 := forEach_keeps writeReservedRange writeReservedRange_keeps _ _ _ h3
    have e4 := writeMessages_keeps messages q3 q4 h4
    have e5 := forEach_keeps writeEnum (fun e a b hab => (writeEnum_dedent e a b hab).1)
      _ _ _ h5
    have e6 := forEach_keeps writePlainField writePlainField_keeps _ _ _ h6
    have e7 := forEach_keeps writeOneof (fun o a b hab => (writeOneof_dedent o a b hab).1)
      _ _ _ hs
    have e8 := writeIndented_keeps hr
    have e9 : s.indendation = q.indendation + 1 := by
      rw [e7, e6, e5, e4, e3, e2]
      simp [indent, write, e1]
    refine ⟨?_, s, e9, hr⟩
    rw [e8]
    simp [dedent, e9]
theorem writeMessages_keeps :
    ∀ (ms : List MessageDescriptor) (q r : ProtoDefinition), writeMessages ms q = some r →
      r.indendation = q.indendation
  | [], q, r, h => by
    simp only [writeMessages, Option.some.injEq] at h
    rw [h]
  | m :: ms, q, r, h => by
    simp only [writeMessages] at h
    cases hm : writeMessage m q with
    | none => simp [hm] at h
    | some q1 =>
      simp only [hm] at h
      rw [writeMessages_keeps ms q1 r h, (writeMessage_dedent m q q1 hm).1]
end

theorem writeFileDescriptor_keeps (q r : ProtoDefinition)
    (h : writeFileDescriptor q = some r) : r.indendation = q.indendation := by
  unfold writeFileDescriptor at h
  simp only [Option.bind_eq_bind, Option.bind_eq_some] at h
  obtain ⟨q1, h1, q2, h2, q3, h3, q4, h4, h5⟩ := h
  rw [writeFileOptions_lines] at h1
  simp only [Option.some.injEq] at h1
  have e1 : q1.indendation = q.indendation := by
    rw [← h1]
    split_ifs <;> rfl
  have e2 := forEach_keeps writeImport (fun i a b hab => by
    rw [writeImport_line] at hab
    simp only [Option.some.injEq] at hab
    rw [← hab]
    rfl) _ _ _ h2
  have e3 := forEach_keeps writeService
    (fun sv a b hab => (writeService_dedent sv a b hab).1) _ _ _ h3
  have e4 := writeMessages_keeps _ _ _ h4
  have e5 := forEach_keeps writeEnum (fun e a b hab => (writeEnum_dedent e a b hab).1)
    _ _ _ h5
  rw [e5, e4, e3]
  split_ifs <;> simp [write, e2, e1]

/-! ## The logged printer is the printer, and its log never falls below the entry depth -/

theorem leaf_ok (p : ProtoDefinition) (g : List Int) :
    Logged.Leaf g (.ok { pd := p, log := g }) (some p) := rfl

theorem leaf_cases {g : List Int} {A : Except Logged Logged}
    {a : Option ProtoDefinition} (h : Logged.Leaf g A a) :
    (∃ p, A = .ok { pd := p, log := g } ∧ a = some p) ∨
      (∃ e : Logged, A = .error e ∧ e.log = g ∧ a = none) := by
  cases A with
  | error e =>
    cases a with
    | none => exact Or.inr ⟨e, rfl, h, rfl⟩
    | some p => exact absurd h id
  | ok r =>
    cases a with
    | none => exact absurd h id
    | some p =>
      have e : r = { pd := p, log := g } := h
      exact Or.inl ⟨p, by rw [e], rfl⟩

theorem leaf_error {g : List Int} {e : Logged} (h : e.log = g) :
    Logged.Leaf g (.error e) none := h

theorem leaf_bind {g : List Int} {A : Except Logged Logged} {a : Option ProtoDefinition}
    {K : Logged → Except Logged Logged} {k : ProtoDefinition → Option ProtoDefinition}
    (h1 : Logged.Leaf g A a)
    (h2 : ∀ p, Logged.Leaf g (K { pd := p, log := g }) (k p)) :
    Logged.Leaf g (A >>= K) (a.bind k) := by
  cases A with
  | error e =>
    cases a with
    | none => exact h1
    | some p => exact absurd h1 id
  | ok r =>
    cases a with
    | none => exact absurd h1 id
    | some p =>
      have e : r = { pd := p, log := g } := h1
      subst e
      exact h2 p

theorem leaf_writeIndented (l : Logged) (s : String) :
    Logged.Leaf l.log (l.writeIndented s) (l.pd.writeIndented s) := by
  unfold Logged.writeIndented writeIndented
  cases Repeat "  " l.pd.indendation <;> rfl

theorem logged_ite (c : Prop) [Decidable c] (a b : ProtoDefinition) (g : List Int) :
    (if c then ({ pd := a, log := g } : Logged) else { pd := b, log := g }) =
      { pd := if c then a else b, log := g } := by
  split_ifs <;> rfl

theorem leaf_forEach {α : Type} (B : α → Logged → Except Logged Logged)
    (b : α → ProtoDefinition → Option ProtoDefinition)
    (h : ∀ x l, Logged.Leaf l.log (B x l) (b x l.pd)) :
    ∀ (xs : List α) (l : Logged),
      Logged.Leaf l.log (Logged.forEach B xs l) (forEach b xs l.pd)
  | [], l => rfl
  | x :: xs, l => by
    simp only [Logged.forEach, forEach]
    have hx := h x l
    cases hB : B x l with
    | error e =>
      cases hb : b x l.pd with
      | none =>
        rw [hB, hb] at hx
        exact hx
      | some p =>
        rw [hB, hb] at hx
        exact absurd hx id
    | ok r =>
      cases hb : b x l.pd with
      | none =>
        rw [hB, hb] at hx
        exact absurd hx id
      | some p =>
        rw [hB, hb] at hx
        have e : r = { pd := p, log := l.log } := hx
        subst e
        exact leaf_forEach B b h xs _

theorem leaf_writeMethod (m : MethodDescriptor) (l : Logged) :
    Logged.Leaf l.log (Logged.writeMethod m l) (writeMethod m l.pd) := by
  unfold Logged.writeMethod writeMethod
  refine leaf_bind (leaf_writeIndented _ _) (fun p => ?_)
  simp only [Logged.write, logged_ite]
  exact leaf_ok _ _

theorem leaf_writeType : ∀ (field : FieldDescriptor) (l : Logged),
    Logged.Leaf l.log (Logged.writeType field l) (writeType field l.pd)
  | .mk a mapKey mapValue, l => by
    have hk : ∀ l : Logged,
        Logged.Leaf l.log (Logged.writeTypeOrNil mapKey l) (writeTypeOrNil mapKey l.pd) := by
      intro l
      cases mapKey with
      | none => exact rfl
      | some k => simpa [Logged.writeTypeOrNil, writeTypeOrNil] using leaf_writeType k l
    have hv : ∀ l : Logged,
        Logged.Leaf l.log (Logged.writeTypeOrNil mapValue l)
          (writeTypeOrNil mapValue l.pd) := by
      intro l
      cases mapValue with
      | none => exact rfl
      | some v => simpa [Logged.writeTypeOrNil, writeTypeOrNil] using leaf_writeType v l
    by_cases h1 : a.Kind = "message"
    · simp only [Logged.writeType, writeType, h1, if_true]
      exact leaf_ok _ _
    by_cases h2 : a.Kind = "enum"
    · simp only [Logged.writeType, writeType, h1, h2, if_true, if_false]
      exact leaf_ok _ _
    by_cases h3 : a.Kind = "map"
    · simp only [Logged.writeType, writeType]
      rw [if_neg h1, if_neg h2, if_pos h3, if_neg h1, if_neg h2, if_pos h3]
      rcases leaf_cases (hk (l.write "map<")) with ⟨p, hA, ha⟩ | ⟨e, hA, he, ha⟩
      · have ha2 : writeTypeOrNil mapKey (l.pd.write "map<") = some p := ha
        have hA2 : Logged.writeTypeOrNil mapKey (l.write "map<") =
            Except.ok { pd := p, log := l.log } := hA
        rw [hA2, ha2]
        simp only []
        rcases leaf_cases (hv (Logged.write { pd := p, log := l.log } ", ")) with
          ⟨p2, hB, hb⟩ | ⟨e, hB, he, hb⟩
        · have hb2 : writeTypeOrNil mapValue (p.write ", ") = some p2 := hb
          rw [hB, hb2]
          exact leaf_ok _ _
        · have hb2 : writeTypeOrNil mapValue (p.write ", ") = none := hb
          rw [hB, hb2]
          exact leaf_error he
      · have ha2 : writeTypeOrNil mapKey (l.pd.write "map<") = none := ha
        rw [hA, ha2]
        exact leaf_error he
    · simp only [Logged.writeType, writeType, h1, h2, h3, if_false]
      exact leaf_ok _ _

theorem leaf_writeField (field : FieldDescriptor) (is_oneof : List Int) (l : Logged) :
    Logged.Leaf l.log (Logged.writeField field is_oneof l)
      (writeField field is_oneof l.pd) := by
  unfold Logged.writeField writeField
  refine leaf_bind (leaf_writeIndented _ _) (fun p => ?_)
  simp only [Logged.write, logged_ite]
  refine leaf_bind (leaf_writeType field _) (fun p2 => ?_)
  simp only [Logged.write, logged_ite]
  exact leaf_ok _ _

theorem leaf_writeEnumValue (v : String × Int) (l : Logged) :
    Logged.Leaf l.log (Logged.writeEnumValue v l) (writeEnumValue v l.pd) := by
  unfold Logged.writeEnumValue writeEnumValue
  exact leaf_bind (leaf_writeIndented _ _) (fun p => leaf_ok _ _)

theorem leaf_writeReservedName (n : String) (l : Logged) :
    Logged.Leaf l.log (Logged.writeReservedName n l) (writeReservedName n l.pd) := by
  unfold Logged.writeReservedName writeReservedName
  exact leaf_bind (leaf_writeIndented _ _) (fun p => leaf_ok _ _)

theorem leaf_writeReservedRange (r : Int × Int) (l : Logged) :
    Logged.Leaf l.log (Logged.writeReservedRange r l) (writeReservedRange r l.pd) := by
  unfold Logged.writeReservedRange writeReservedRange
  refine leaf_bind (leaf_writeIndented _ _) (fun p => ?_)
  simp only [Logged.write, logged_ite]
  exact leaf_ok _ _

theorem leaf_writePlainField (field : FieldDescriptor) (l : Logged) :
    Logged.Leaf l.log (Logged.writePlainField field l) (writePlainField field l.pd) := by
  unfold Logged.writePlainField writePlainField
  split_ifs
  · exact leaf_writeField field [] l
  · exact leaf_ok _ _

theorem leaf_writeImport (i : FileImport) (l : Logged) :
    Logged.Leaf l.log (Logged.writeImport i l) (writeImport i l.pd) := by
  unfold Logged.writeImport writeImport
  simp only [Logged.write, logged_ite]
  exact leaf_ok _ _

theorem leaf_writeFileOptionsLoop (o : FileOptions) :
    ∀ (opts : List (String × String)) (l : Logged) (b : Bool),
      match Logged.writeFileOptionsLoop o opts (l, b),
          writeFileOptionsLoop o opts (l.pd, b) with
      | .ok st, some st2 => st = ({ pd := st2.1, log := l.log }, st2.2)
      | .error e, none => e.log = l.log
      | _, _ => False
  | [], l, b => rfl
  | opt :: rest, l, b => by
    simp only [Logged.writeFileOptionsLoop, writeFileOptionsLoop,
      Logged.writeFileOption, writeFileOption]
    cases o.FieldByName opt.2 with
    | none => exact rfl
    | some v =>
      cases v with
      | none => exact leaf_writeFileOptionsLoop o rest l b
      | some w =>
        cases w with
        | String s =>
          exact leaf_writeFileOptionsLoop o rest (l.writeStringFileOptions opt.1 s) true
        | Bool c =>
          exact leaf_writeFileOptionsLoop o rest (l.writeBoolFileOptions opt.1 c) true

theorem leaf_writeFileOptions (l : Logged) :
    Logged.Leaf l.log (Logged.writeFileOptions l) (writeFileOptions l.pd) := by
  unfold Logged.writeFileOptions writeFileOptions
  cases l.pd.pb.GetOptions with
  | none => exact leaf_ok _ _
  | some o =>
    simp only []
    have h := leaf_writeFileOptionsLoop o optionDefinitions l false
    cases hL : Logged.writeFileOptionsLoop o optionDefinitions (l, false) with
    | error e =>
      cases hl : writeFileOptionsLoop o optionDefinitions (l.pd, false) with
      | none =>
        rw [hL, hl] at h
        exact leaf_error h
      | some st2 =>
        rw [hL, hl] at h
        exact absurd h id
    | ok st =>
      cases hl : writeFileOptionsLoop o optionDefinitions (l.pd, false) with
      | none =>
        rw [hL, hl] at h
        exact absurd h id
      | some st2 =>
        rw [hL, hl] at h
        have e : st = ({ pd := st2.1, log := l.log }, st2.2) := h
        subst e
        obtain ⟨p, b⟩ := st2
        cases b
        · exact leaf_ok _ _
        · exact leaf_ok _ _

theorem neverBelow_refl (l : Logged) : Logged.NeverBelow l l :=
  ⟨[], by simp, by simp⟩

theorem balanced_refl (l : Logged) : Logged.Balanced l l :=
  ⟨rfl, neverBelow_refl l⟩

theorem neverBelow_trans {a b c : Logged} (h1 : Logged.Balanced a b)
    (h2 : Logged.NeverBelow b c) : Logged.NeverBelow a c := by
  obtain ⟨e1, x1, hx1, hb1⟩ := h1
  obtain ⟨x2, hx2, hb2⟩ := h2
  refine ⟨x1 ++ x2, by rw [hx2, hx1, List.append_assoc], ?_⟩
  intro d hd
  rcases List.mem_append.mp hd with hd | hd
  · exact hb1 d hd
  · rw [← e1]
    exact hb2 d hd

theorem balanced_trans {a b c : Logged} (h1 : Logged.Balanced a b)
    (h2 : Logged.Balanced b c) : Logged.Balanced a c :=
  ⟨h2.1.trans h1.1, neverBelow_trans h1 h2.2⟩

theorem within_trans {a b : Logged} {R : Except Logged Logged}
    (h1 : Logged.Balanced a b) (h2 : Logged.Within b R) : Logged.Within a R := by
  cases R with
  | error e => exact neverBelow_trans h1 h2
  | ok r => exact balanced_trans h1 h2

theorem balanced_write (l : Logged) (s : String) : Logged.Balanced l (l.write s) :=
  ⟨rfl, [], by simp [Logged.write], by simp⟩

theorem within_of_leaf {l : Logged} {R : Except Logged Logged}
    {o : Option ProtoDefinition} (h : Logged.Leaf l.log R o)
    (hk : ∀ p, o = some p → p.indendation = l.pd.indendation) : Logged.Within l R := by
  rcases leaf_cases h with ⟨p, hR, ho⟩ | ⟨e, hR, he, -⟩
  · rw [hR]
    exact ⟨hk p ho, [], by simp, by simp⟩
  · rw [hR]
    exact ⟨[], by simp [he], by simp⟩

theorem erase_of_leaf {g : List Int} {R : Except Logged Logged}
    {o : Option ProtoDefinition} (h : Logged.Leaf g R o) :
    R.toOption.map (fun r => r.pd) = o := by
  rcases leaf_cases h with ⟨p, hR, ho⟩ | ⟨e, hR, -, ho⟩
  · rw [hR, ho]
    rfl
  · rw [hR, ho]
    rfl

theorem within_writeIndented (l : Logged) (s : String) :
    Logged.Within l (l.writeIndented s) :=
  within_of_leaf (leaf_writeIndented l s) (fun _ hp => writeIndented_keeps hp)

theorem within_bind {l : Logged} {A : Except Logged Logged}
    {K : Logged → Except Logged Logged} (h1 : Logged.Within l A)
    (h2 : ∀ l1, Logged.Balanced l l1 → Logged.Within l (K l1)) :
    Logged.Within l (A >>= K) := by
  cases A with
  | error e => exact h1
  | ok l1 => exact h2 l1 h1

theorem neverBelow_indent {l e : Logged} (h : Logged.NeverBelow l.indent e) :
    Logged.NeverBelow l e := by
  obtain ⟨x, hx, hb⟩ := h
  refine ⟨[l.pd.indendation + 1] ++ x, ?_, ?_⟩
  · rw [hx]
    simp [Logged.indent, indent]
  · intro d hd
    simp only [List.mem_append, List.mem_singleton] at hd
    rcases hd with hd | hd
    · omega
    · have := hb d hd
      have e2 : l.indent.pd.indendation = l.pd.indendation + 1 := rfl
      omega

theorem balanced_block {l s : Logged} (h : Logged.Balanced l.indent s) :
    Logged.Balanced l s.dedent := by
  obtain ⟨e, x, hx, hb⟩ := h
  have e1 : s.pd.indendation = l.pd.indendation + 1 := e
  refine ⟨?_, [l.pd.indendation + 1] ++ x ++ [l.pd.indendation], ?_, ?_⟩
  · show s.pd.indendation - 1 = l.pd.indendation
    omega
  · show s.log ++ [s.pd.indendation - 1] = _
    rw [hx, e1]
    simp [Logged.indent, indent]
  · intro d hd
    simp only [List.mem_append, List.mem_singleton] at hd
    rcases hd with (hd | hd) | hd
    · omega
    · have := hb d hd
      have e2 : l.indent.pd.indendation = l.pd.indendation + 1 := rfl
      omega
    · omega

theorem within_inner_bind {l cur : Logged} {A : Except Logged Logged}
    {K : Logged → Except Logged Logged} (hc : Logged.Balanced l.indent cur)
    (h1 : Logged.Within cur A)
    (h2 : ∀ c1, Logged.Balanced l.indent c1 → Logged.Within l (K c1)) :
    Logged.Within l (A >>= K) := by
  cases A with
  | error e => exact neverBelow_indent (neverBelow_trans hc h1)
  | ok c1 => exact h2 c1 (balanced_trans hc h1)

theorem within_close {l s : Logged} (c : String) (h : Logged.Balanced l.indent s) :
    Logged.Within l (s.dedent.writeIndented c) :=
  within_trans (balanced_block h) (within_writeIndented _ _)

theorem within_forEach {α : Type} (B : α → Logged → Except Logged Logged)
    (hB : ∀ x a, Logged.Within a (B x a)) :
    ∀ (xs : List α) (l : Logged), Logged.Within l (Logged.forEach B xs l)
  | [], l => balanced_refl l
  | x :: xs, l => by
    simp only [Logged.forEach]
    have hx := hB x l
    cases hb : B x l with
    | error e =>
      rw [hb] at hx
      exact hx
    | ok l1 =>
      rw [hb] at hx
      exact within_trans hx (within_forEach B hB xs l1)

theorem within_forEach_leaf {α : Type} (B : α → Logged → Except Logged Logged)
    (b : α → ProtoDefinition → Option ProtoDefinition)
    (h : ∀ x l, Logged.Leaf l.log (B x l) (b x l.pd))
    (hk : ∀ x q r, b x q = some r → r.indendation = q.indendation)
    (xs : List α) (l : Logged) : Logged.Within l (Logged.forEach B xs l) :=
  within_forEach B (fun x a => within_of_leaf (h x a) (fun p hp => hk x _ p hp)) xs l

theorem erase_forEach {α : Type} (B : α → Logged → Except Logged Logged)
    (b : α → ProtoDefinition → Option ProtoDefinition)
    (h : ∀ x l, (B x l).toOption.map (fun r => r.pd) = b x l.pd) :
    ∀ (xs : List α) (l : Logged),
      (Logged.forEach B xs l).toOption.map (fun r => r.pd) = forEach b xs l.pd
  | [], l => rfl
  | x :: xs, l => by
    simp only [Logged.forEach, forEach, ← h x l]
    cases B x l with
    | error e => rfl
    | ok l1 => exact erase_forEach B b h xs l1

theorem erase_bind (A : Except Logged Logged) (a : Option ProtoDefinition)
    (K : Logged → Except Logged Logged) (k : ProtoDefinition → Option ProtoDefinition)
    (h1 : A.toOption.map (fun r => r.pd) = a)
    (h2 : ∀ l, (K l).toOption.map (fun r => r.pd) = k l.pd) :
    (A >>= K).toOption.map (fun r => r.pd) = a.bind k := by
  cases A with
  | error e =>
    rw [← h1]
    rfl
  | ok l =>
    rw [← h1]
    exact h2 l

theorem erase_writeIndented (l : Logged) (s : String) :
    (l.writeIndented s).toOption.map (fun r => r.pd) = l.pd.writeIndented s :=
  erase_of_leaf (leaf_writeIndented l s)

theorem erase_writeEnum (e : EnumDescriptor) (l : Logged) :
    (Logged.writeEnum e l).toOption.map (fun r => r.pd) = writeEnum e l.pd := by
  unfold Logged.writeEnum writeEnum
  refine erase_bind _ _ _ _ (erase_writeIndented _ _) (fun l1 => ?_)
  refine erase_bind _ _ _ _ ?_ (fun l2 => ?_)
  · exact erase_forEach _ _ (fun v a => erase_of_leaf (leaf_writeEnumValue v a)) _ _
  · exact erase_writeIndented _ _

theorem within_writeEnum (e : EnumDescriptor) (l : Logged) :
    Logged.Within l (Logged.writeEnum e l) := by
  unfold Logged.writeEnum
  refine within_bind (within_writeIndented _ _) (fun l1 b1 => ?_)
  refine within_trans (balanced_trans b1
    (balanced_trans (balanced_write l1 e.Name) (balanced_write _ " \x7b\n"))) ?_
  exact within_inner_bind (balanced_refl _)
    (within_forEach_leaf _ _ leaf_writeEnumValue writeEnumValue_keeps _ _)
    (fun s bs => within_close _ bs)

theorem erase_writeService (sv : ServiceDescriptor) (l : Logged) :
    (Logged.writeService sv l).toOption.map (fun r => r.pd) = writeService sv l.pd := by
  unfold Logged.writeService writeService
  refine erase_bind _ _ _ _ ?_ (fun l2 => ?_)
  · exact erase_forEach _ _ (fun v a => erase_of_leaf (leaf_writeMethod v a)) _ _
  · exact erase_writeIndented _ _

theorem within_writeService (sv : ServiceDescriptor) (l : Logged) :
    Logged.Within l (Logged.writeService sv l) := by
  unfold Logged.writeService
  refine within_trans (balanced_trans (balanced_write l "service ")
    (balanced_trans (balanced_write _ sv.Name) (balanced_write _ " \x7b\n"))) ?_
  exact within_inner_bind (balanced_refl _)
    (within_forEach_leaf _ _ leaf_writeMethod writeMethod_keeps _ _)
    (fun s bs => within_close _ bs)

theorem erase_writeOneof (o : OneofDescriptor) (l : Logged) :
    (Logged.writeOneof o l).toOption.map (fun r => r.pd) = writeOneof o l.pd := by
  unfold Logged.writeOneof writeOneof
  by_cases hs : o.IsSynthetic = true
  · simp only [hs, if_true]
    cases o.Fields[0]? with
    | none => rfl
    | some f => exact erase_of_leaf (leaf_writeField f [] l)
  · simp only [hs, Bool.false_eq_true, if_false]
    refine erase_bind _ _ _ _ (erase_writeIndented _ _) (fun l1 => ?_)
    refine erase_bind _ _ _ _ ?_ (fun l2 => ?_)
    · exact erase_forEach _ _ (fun v a => erase_of_leaf (leaf_writeField v [1] a)) _ _
    · exact erase_writeIndented _ _

theorem within_writeOneof (o : OneofDescriptor) (l : Logged) :
    Logged.Within l (Logged.writeOneof o l) := by
  unfold Logged.writeOneof
  by_cases hsyn : o.IsSynthetic = true
  · simp only [hsyn, if_true]
    cases o.Fields[0]? with
    | none => exact neverBelow_refl l
    | some f =>
      exact within_of_leaf (leaf_writeField f [] l)
        (fun p hp => writeField_keeps f [] _ _ hp)
  · simp only [hsyn, Bool.false_eq_true, if_false]
    refine within_bind (within_writeIndented _ _) (fun l1 b1 => ?_)
    refine within_trans (balanced_trans b1 (balanced_trans (balanced_write l1 "oneof ")
      (balanced_trans (balanced_write _ o.Name) (balanced_write _ " \x7b\n")))) ?_
    exact within_inner_bind (balanced_refl _)
      (within_forEach_leaf _ _ (fun f a => leaf_writeField f [1] a)
        (fun f q r h => writeField_keeps f [1] q r h) _ _)
      (fun s bs => within_close _ bs)

mutual
theorem erase_writeMessage : ∀ (m : MessageDescriptor) (l : Logged),
    (Logged.writeMessage m l).toOption.map (fun r => r.pd) = writeMessage m l.pd
  | .mk name reservedNames reservedRanges messages enums fields oneofs, l => by
    simp only [Logged.writeMessage, writeMessage]
    refine erase_bind _ _ _ _ (erase_writeIndented _ _) (fun l1 => ?_)
    refine erase_bind _ _ _ _ ?_ (fun l2 => ?_)
    · exact erase_forEach _ _ (fun v a => erase_of_leaf (leaf_writeReservedName v a)) _ _
    refine erase_bind _ _ _ _ ?_ (fun l3 => ?_)
    · exact erase_forEach _ _ (fun v a => erase_of_leaf (leaf_writeReservedRange v a)) _ _
    refine erase_bind _ _ _ _ (erase_writeMessages messages l3) (fun l4 => ?_)
    refine erase_bind _ _ _ _ (erase_forEach _ _ erase_writeEnum _ _) (fun l5 => ?_)
    refine erase_bind _ _ _ _ ?_ (fun l6 => ?_)
    · exact erase_forEach _ _ (fun v a => erase_of_leaf (leaf_writePlainField v a)) _ _
    refine erase_bind _ _ _ _ (erase_forEach _ _ erase_writeOneof _ _) (fun l7 => ?_)
    exact erase_writeIndented _ _
theorem erase_writeMessages : ∀ (ms : List MessageDescriptor) (l : Logged),
    (Logged.writeMessages ms l).toOption.map (fun r => r.pd) = writeMessages ms l.pd
  | [], l => rfl
  | m :: ms, l => by
    simp only [Logged.writeMessages, writeMessages, ← erase_writeMessage m l]
    cases Logged.writeMessage m l with
    | error e => rfl
    | ok l1 => exact erase_writeMessages ms l1
end

mutual
theorem within_writeMessage : ∀ (m : MessageDescriptor) (l : Logged),
    Logged.Within l (Logged.writeMessage m l)
  | .mk name reservedNames reservedRanges messages enums fields oneofs, l => by
    simp only [Logged.writeMessage]
    refine within_bind (within_writeIndented _ _) (fun l1 b1 => ?_)
    refine within_trans (balanced_trans b1
      (balanced_trans (balanced_write l1 name) (balanced_write _ " \x7b\n"))) ?_
    refine within_inner_bind (balanced_refl _)
      (within_forEach_leaf _ _ leaf_writeReservedName writeReservedName_keeps _ _)
      (fun l2 b2 => ?_)
    refine within_inner_bind b2
      (within_forEach_leaf _ _ leaf_writeReservedRange writeReservedRange_keeps _ _)
      (fun l3 b3 => ?_)
    refine within_inner_bind b3 (within_writeMessages messages l3) (fun l4 b4 => ?_)
    refine within_inner_bind b4 (within_forEach _ within_writeEnum _ _) (fun l5 b5 => ?_)
    refine within_inner_bind b5
      (within_forEach_leaf _ _ leaf_writePlainField writePlainField_keeps _ _)
      (fun l6 b6 => ?_)
    refine within_inner_bind b6 (within_forEach _ within_writeOneof _ _) (fun s bs => ?_)
    exact within_close _ bs
theorem within_writeMessages : ∀ (ms : List MessageDescriptor) (l : Logged),
    Logged.Within l (Logged.writeMessages ms l)
  | [], l => balanced_refl l
  | m :: ms, l => by
    simp only [Logged.writeMessages]
    have hm := within_writeMessage m l
    cases hb : Logged.writeMessage m l with
    | error e =>
      rw [hb] at hm
      exact hm
    | ok l1 =>
      rw [hb] at hm
      exact within_trans hm (within_writeMessages ms l1)
end

theorem erase_writeFileDescriptor (l : Logged) :
    (Logged.writeFileDescriptor l).toOption.map (fun r => r.pd) =
      writeFileDescriptor l.pd := by
  unfold Logged.writeFileDescriptor writeFileDescriptor
  refine erase_bind _ _ _ _ ?_ (fun l1 => ?_)
  · by_cases hp : l.pd.descriptor.FullName = ""
    · simp only [Logged.write, write, hp, ne_eq, not_true_eq_false, if_false]
      exact erase_of_leaf (leaf_writeFileOptions _)
    · simp only [Logged.write, write, hp, ne_eq, not_false_eq_true, if_true]
      exact erase_of_leaf (leaf_writeFileOptions _)
  refine erase_bind _ _ _ _ ?_ (fun l2 => ?_)
  · exact erase_forEach _ _ (fun v a => erase_of_leaf (leaf_writeImport v a)) _ _
  refine erase_bind _ _ _ _ ?_ (fun l3 => ?_)
  · by_cases hi : l2.pd.descriptor.Imports.length > 0
    · simp only [hi, if_true]
      exact erase_forEach _ _ erase_writeService _ _
    · simp only [hi, if_false]
      exact erase_forEach _ _ erase_writeService _ _
  refine erase_bind _ _ _ _ (erase_writeMessages _ _) (fun l4 => ?_)
  exact erase_forEach _ _ erase_writeEnum _ _

theorem within_writeFileOptions (l : Logged) :
    Logged.Within l (Logged.writeFileOptions l) :=
  within_of_leaf (leaf_writeFileOptions l) (fun p hp => by
    rw [writeFileOptions_lines] at hp
    simp only [Option.some.injEq] at hp
    rw [← hp]
    rfl)

theorem within_writeFileDescriptor (l : Logged) :
    Logged.Within l (Logged.writeFileDescriptor l) := by
  unfold Logged.writeFileDescriptor
  have hpre : ∀ a : Logged, Logged.Balanced l a →
      Logged.Within l (do
        let l1 ← a.writeFileOptions
        let l2 ← Logged.forEach Logged.writeImport l1.pd.descriptor.Imports l1
        let l3 ← Logged.forEach Logged.writeService
          (if l2.pd.descriptor.Imports.length > 0 then l2.write "\n"
            else l2).pd.descriptor.Services
          (if l2.pd.descriptor.Imports.length > 0 then l2.write "\n" else l2)
        let l4 ← Logged.writeMessages l3.pd.descriptor.Messages l3
        Logged.forEach Logged.writeEnum l4.pd.descriptor.Enums l4) := by
    intro a ha
    refine within_trans ha ?_
    refine within_bind (within_writeFileOptions a) (fun l1 b1 => ?_)
    refine within_trans b1 ?_
    refine within_bind (within_forEach_leaf _ _ leaf_writeImport (fun i q r h => by
      rw [writeImport_line] at h
      simp only [Option.some.injEq] at h
      rw [← h]
      rfl) _ _) (fun l2 b2 => ?_)
    have b23 : Logged.Balanced l2
        (if l2.pd.descriptor.Imports.length > 0 then l2.write "\n" else l2) := by
      split_ifs
      · exact balanced_write _ _
      · exact balanced_refl _
    refine within_trans (balanced_trans b2 b23) ?_
    refine within_bind (within_forEach _ within_writeService _ _) (fun l3 b3 => ?_)
    refine within_trans b3 ?_
    refine within_bind (within_writeMessages _ _) (fun l4 b4 => ?_)
    exact within_trans b4 (within_forEach _ within_writeEnum _ _)
  by_cases hp : l.pd.descriptor.FullName = ""
  · simp only [Logged.write, write, hp, ne_eq, not_true_eq_false, if_false]
    exact hpre _ ⟨rfl, [], by simp, by simp⟩
  · simp only [Logged.write, write, hp, ne_eq, not_false_eq_true, if_true]
    exact hpre _ ⟨rfl, [], by simp, by simp⟩

/-- C18: the indentation counter is balanced.  When `writeMessage`,
`writeEnum`, `writeService` or `writeOneof` returns, the counter has the value
it had before the call.  The printer run with a log of every value assigned to
the counter computes the same result as the printer, and in each of these
functions and in `writeFileDescriptor` no value assigned is below the value at
entry, whether the run returns or panics; when it returns the counter has the
value at entry again.  So, started at depth 0, every value the counter takes
during `writeFileDescriptor` is at least 0, and the counter is 0 when it
returns; on a well-formed file `writeFileDescriptor` does return. -/
theorem C18_indentation_balanced :
    (∀ (m : MessageDescriptor) (q r : ProtoDefinition), writeMessage m q = some r →
      r.indendation = q.indendation) ∧
    (∀ (e : EnumDescriptor) (q r : ProtoDefinition), writeEnum e q = some r →
      r.indendation = q.indendation) ∧
    (∀ (sv : ServiceDescriptor) (q r : ProtoDefinition), writeService sv q = some r →
      r.indendation = q.indendation) ∧
    (∀ (o : OneofDescriptor) (q r : ProtoDefinition), writeOneof o q = some r →
      r.indendation = q.indendation) ∧
    (∀ (m : MessageDescriptor) (l : Logged),
      (Logged.writeMessage m l).toOption.map (fun r => r.pd) = writeMessage m l.pd ∧
      Logged.Within l (Logged.writeMessage m l)) ∧
    (∀ (e : EnumDescriptor) (l : Logged),
      (Logged.writeEnum e l).toOption.map (fun r => r.pd) = writeEnum e l.pd ∧
      Logged.Within l (Logged.writeEnum e l)) ∧
    (∀ (sv : ServiceDescriptor) (l : Logged),
      (Logged.writeService sv l).toOption.map (fun r => r.pd) = writeService sv l.pd ∧
      Logged.Within l (Logged.writeService sv l)) ∧
    (∀ (o : OneofDescriptor) (l : Logged),
      (Logged.writeOneof o l).toOption.map (fun r => r.pd) = writeOneof o l.pd ∧
      Logged.Within l (Logged.writeOneof o l)) ∧
    (∀ l : Logged,
      (Logged.writeFileDescriptor l).toOption.map (fun r => r.pd) =
        writeFileDescriptor l.pd ∧
      Logged.Within l (Logged.writeFileDescriptor l)) ∧
    (∀ (q : ProtoDefinition) (r : Logged), q.indendation = 0 →
      Logged.writeFileDescriptor { pd := q, log := [] } = .ok r →
      (∀ v ∈ r.log, 0 ≤ v) ∧ r.pd.indendation = 0) ∧
    (∀ (q : ProtoDefinition) (e : Logged), q.indendation = 0 →
      Logged.writeFileDescriptor { pd := q, log := [] } = .error e →
      ∀ v ∈ e.log, 0 ≤ v) ∧
    (∀ q r : ProtoDefinition, q.indendation = 0 → writeFileDescriptor q = some r →
      r.indendation = 0) ∧
    (∀ q : ProtoDefinition, wellFormedMessages q.descriptor.Messages = true →
      q.indendation = 0 →
      ∃ r : Logged, Logged.writeFileDescriptor { pd := q, log := [] } = .ok r ∧
        writeFileDescriptor q = some r.pd ∧
        (∀ v ∈ r.log, 0 ≤ v) ∧ r.pd.indendation = 0) := by
  have hok : ∀ (q : ProtoDefinition) (r : Logged), q.indendation = 0 →
      Logged.writeFileDescriptor { pd := q, log := [] } = .ok r →
      (∀ v ∈ r.log, 0 ≤ v) ∧ r.pd.indendation = 0 := by
    intro q r h0 h
    have hw := within_writeFileDescriptor { pd := q, log := [] }
    rw [h] at hw
    obtain ⟨e, x, hx, hb⟩ := hw
    refine ⟨?_, e.trans h0⟩
    intro v hv
    rw [hx, List.nil_append] at hv
    have := hb v hv
    exact h0 ▸ this
  have herr : ∀ (q : ProtoDefinition) (e : Logged), q.indendation = 0 →
      Logged.writeFileDescriptor { pd := q, log := [] } = .error e →
      ∀ v ∈ e.log, 0 ≤ v := by
    intro q e h0 h
    have hw := within_writeFileDescriptor { pd := q, log := [] }
    rw [h] at hw
    obtain ⟨x, hx, hb⟩ := hw
    intro v hv
    rw [hx, List.nil_append] at hv
    have := hb v hv
    exact h0 ▸ this
  refine ⟨fun m q r h => (writeMessage_dedent m q r h).1,
    fun e q r h => (writeEnum_dedent e q r h).1,
    fun sv q r h => (writeService_dedent sv q r h).1,
    fun o q r h => (writeOneof_dedent o q r h).1,
    fun m l => ⟨erase_writeMessage m l, within_writeMessage m l⟩,
    fun e l => ⟨erase_writeEnum e l, within_writeEnum e l⟩,
    fun sv l => ⟨erase_writeService sv l, within_writeService sv l⟩,
    fun o l => ⟨erase_writeOneof o l, within_writeOneof o l⟩,
    fun l => ⟨erase_writeFileDescriptor l, within_writeFileDescriptor l⟩,
    hok, herr, ?_, ?_⟩
  · intro q r h0 h
    rw [writeFileDescriptor_keeps q r h, h0]
  · intro q hwf h0
    have hq := writeFileDescriptor_lines q hwf h0
    have he := erase_writeFileDescriptor { pd := q, log := [] }
    rw [show ({ pd := q, log := [] } : Logged).pd = q from rfl, hq] at he
    cases hR : Logged.writeFileDescriptor { pd := q, log := [] } with
    | error e =>
      rw [hR] at he
      exact absurd he (by simp [Except.toOption])
    | ok r =>
      rw [hR] at he
      have hp : r.pd = q.write (render (fileLines q.pb q.descriptor)) := by
        simpa [Except.toOption] using he
      refine ⟨r, rfl, ?_, hok q r h0 hR⟩
      rw [hq, hp]

/-- C18, witness: a file with a service, a message that holds a nested message
and a oneof, and an enum; the log shows the counter going 1, 0 for the
service, 1, 2, 1, 2, 1, 0 for the message and 1, 0 for the enum.  A file whose
message holds a synthetic oneof without members panics inside the message,
with the log 1. -/
theorem C18_indentation_balanced_witness :
    (∃ r : Logged,
      Logged.writeFileDescriptor
        { pd := { descriptor :=
            { Messages := [.mk "M" [] [] [.mk "N" [] [] [] [] [] []] [] []
                [{ Name := "o", Fields := [.mk { Name := "b", Number := 2 } none none] }]],
              Services := [{ Name := "S", Methods := [{ Name := "Get" }] }],
              Enums := [{ Name := "E", Values := [("A", 0)] }] } },
          log := [] } = .ok r ∧
      r.pd.builder = "syntax = \"proto3\";\n\nservice S \x7b\n  rpc Get (.) returns (.) \x7b\x7d\n\x7d\n\nmessage M \x7b\n  message N \x7b\n  \x7d\n\n  oneof o \x7b\n    int32 b = 2;\n  \x7d\n\x7d\n\nenum E \x7b\n  A = 0;\n\x7d\n\n" ∧
      r.log = [1, 0, 1, 2, 1, 2, 1, 0, 1, 0] ∧
      (∀ v ∈ r.log, 0 ≤ v) ∧ r.pd.indendation = 0) ∧
    (∃ e : Logged,
      Logged.writeFileDescriptor
        { pd := { descriptor :=
            { Messages := [.mk "M" [] [] [] [] []
                [{ Name := "_x", IsSynthetic := true, Fields := [] }]] } },
          log := [] } = .error e ∧
      e.pd.builder = "syntax = \"proto3\";\n\nmessage M \x7b\n" ∧
      e.log = [1] ∧ (∀ v ∈ e.log, 0 ≤ v)) := by
  have he : Logged.writeFileDescriptor
        { pd := { descriptor :=
            { Messages := [.mk "M" [] [] [] [] []
                [{ Name := "_x", IsSynthetic := true, Fields := [] }]] } },
          log := [] } =
      .error { pd := { builder := "syntax = \"proto3\";\n\nmessage M \x7b\n",
                       indendation := 1,
                       descriptor :=
            { Messages := [.mk "M" [] [] [] [] []
                [{ Name := "_x", IsSynthetic := true, Fields := [] }]] } },
               log := [1] } := by rfl
  have hr : Logged.writeFileDescriptor
        { pd := { descriptor :=
            { Messages := [.mk "M" [] [] [.mk "N" [] [] [] [] [] []] [] []
                [{ Name := "o", Fields := [.mk { Name := "b", Number := 2 } none none] }]],
              Services := [{ Name := "S", Methods := [{ Name := "Get" }] }],
              Enums := [{ Name := "E", Values := [("A", 0)] }] } },
          log := [] } =
      .ok { pd := { builder := "syntax = \"proto3\";\n\nservice S \x7b\n  rpc Get (.) returns (.) \x7b\x7d\n\x7d\n\nmessage M \x7b\n  message N \x7b\n  \x7d\n\n  oneof o \x7b\n    int32 b = 2;\n  \x7d\n\x7d\n\nenum E \x7b\n  A = 0;\n\x7d\n\n",
                    descriptor :=
            { Messages := [.mk "M" [] [] [.mk "N" [] [] [] [] [] []] [] []
                [{ Name := "o", Fields := [.mk { Name := "b", Number := 2 } none none] }]],
              Services := [{ Name := "S", Methods := [{ Name := "Get" }] }],
              Enums := [{ Name := "E", Values := [("A", 0)] }] } },
            log := [1, 0, 1, 2, 1, 2, 1, 0, 1, 0] } := by rfl
  exact ⟨⟨_, hr, rfl, rfl, C18_indentation_balanced.2.2.2.2.2.2.2.2.2.1 _ _ rfl hr⟩,
    ⟨_, he, rfl, rfl, C18_indentation_balanced.2.2.2.2.2.2.2.2.2.2.1 _ _ rfl he⟩⟩

theorem flatMap_insert_perm {β : Type} (f : β) (g : Nat → List β) (j : Nat) :
    ∀ l : List Nat, l.Nodup → j ∈ l →
      (l.flatMap (fun i => if i = j then f :: g i else g i)).Perm (f :: l.flatMap g)
  | [], _, hj => by cases hj
  | a :: l, hnd, hj => by
    have hnd' := List.nodup_cons.mp hnd
    by_cases ha : a = j
    · subst ha
      have hrest : l.flatMap (fun i => if i = a then f :: g i else g i) = l.flatMap g := by
        apply List.flatMap_congr
        intro i hi
        have hne : i ≠ a := fun e => hnd'.1 (e ▸ hi)
        simp [hne]
      simp [List.flatMap_cons, hrest]
    · have hj' : j ∈ l := by
        rcases List.mem_cons.mp hj with e | e
        · exact absurd e.symm ha
        · exact e
      have ih := flatMap_insert_perm f g j l hnd'.2 hj'
      simp only [List.flatMap_cons, ha, if_false]
      exact (List.Perm.append_left (g a) ih).trans List.perm_middle

theorem filter_oneof_perm (k : Nat) : ∀ fs : List FieldDescriptor,
    (∀ f ∈ fs, ∀ i, f.attrs.ContainingOneof = some i → i < k) →
    (fs.filter (fun f => !decide (f.attrs.ContainingOneof = none))).Perm
      ((List.range k).flatMap (fun i =>
        fs.filter (fun f => f.attrs.ContainingOneof = some i)))
  | [], _ => by simp
  | f :: fs, h => by
    have ih := filter_oneof_perm k fs (fun g hg => h g (List.mem_cons_of_mem _ hg))
    cases hc : f.attrs.ContainingOneof with
    | none =>
      simpa [List.filter_cons, hc] using ih
    | some j =>
      have hj : j < k := h f (List.mem_cons_self _ _) j hc
      have hfun : (fun i => (f :: fs).filter
          (fun f => decide (f.attrs.ContainingOneof = some i))) =
          (fun i => if i = j then
            f :: fs.filter (fun f => decide (f.attrs.ContainingOneof = some i))
            else fs.filter (fun f => decide (f.attrs.ContainingOneof = some i))) := by
        funext i
        by_cases hij : i = j
        · simp [List.filter_cons, hc, hij]
        · have hji : ¬ j = i := fun e => hij e.symm
          simp [List.filter_cons, hc, hij, hji]
      rw [hfun]
      have hp := flatMap_insert_perm f
        (fun i => fs.filter (fun f => decide (f.attrs.ContainingOneof = some i))) j
        (List.range k) (List.nodup_range k) (List.mem_range.mpr hj)
      have hl : (f :: fs).filter (fun f => !decide (f.attrs.ContainingOneof = none)) =
          f :: fs.filter (fun f => !decide (f.attrs.ContainingOneof = none)) := by
        simp [List.filter_cons, hc]
      rw [hl]
      exact (List.Perm.cons f ih).trans hp.symm

theorem flatMap_members_perm (g : Nat → List FieldDescriptor) :
    ∀ (os : List OneofDescriptor) (off : Nat),
    (∀ (i : Nat) (o : OneofDescriptor), os[i]? = some o → o.Fields.Perm (g (off + i))) →
    (os.flatMap (fun o => o.Fields)).Perm ((List.range' off os.length).flatMap g)
  | [], _, _ => by simp
  | o :: os, off, h => by
    have h0 : o.Fields.Perm (g off) := by
      have := h 0 o (by simp)
      simpa using this
    have ih := flatMap_members_perm g os (off + 1) (fun i o2 hi => by
      have := h (i + 1) o2 (by simpa using hi)
      have e : off + (i + 1) = off + 1 + i := by omega
      rw [e] at this
      exact this)
    simp only [List.flatMap_cons, List.length_cons, List.range'_succ]
    exact List.Perm.append h0 ih

/-- C19, counterexample: the message has the single field `b`, which refers to
the oneof `o` and is a member of it and of no other oneof; no field has an
empty reference and no oneof is synthetic, so the conditions of the claim hold.
The oneof lists `b` twice, and two field statements are written for the one
field. -/
theorem C19_counterexample :
    ∃ (b : FieldDescriptor) (o : OneofDescriptor),
      b = .mk { Name := "b", Number := 2, ContainingOneof := some 0 } none none ∧
      o = { Name := "o", Fields := [b, b] } ∧
      (∀ f ∈ [b], ∀ i : Nat, f.attrs.ContainingOneof = some i →
        ∃ o1, [o][i]? = some o1 ∧ f ∈ o1.Fields ∧
          ∀ (j : Nat) (o2 : OneofDescriptor), [o][j]? = some o2 → f ∈ o2.Fields → j = i) ∧
      (∀ f ∈ [b], f.attrs.ContainingOneof = none → ∀ o1 ∈ [o], f ∉ o1.Fields) ∧
      (∀ o1 ∈ [o], o1.IsSynthetic = true → o1.Fields.length = 1) ∧
      [b].length = 1 ∧
      writeMessage (.mk "M" [] [] [] [] [b] [o]) {} =
        some { builder :=
          "message M \x7b\n  oneof o \x7b\n    int32 b = 2;\n    int32 b = 2;\n  \x7d\n\x7d\n\n" } := by
  refine ⟨_, _, rfl, rfl, ?_, ?_, ?_, rfl, rfl⟩
  · intro f hf i hi
    simp only [List.mem_singleton] at hf
    subst hf
    simp only [FieldDescriptor.attrs, Option.some.injEq] at hi
    subst hi
    refine ⟨_, rfl, by simp, ?_⟩
    intro j o2 hj _
    cases j with
    | zero => rfl
    | succ j => simp at hj
  · intro f hf hn
    simp only [List.mem_singleton] at hf
    subst hf
    simp [FieldDescriptor.attrs] at hn
  · intro o1 ho hs
    simp only [List.mem_singleton] at ho
    subst ho
    simp at hs

/-- C19, amended: in a well-formed message in which the member list of every
oneof is a rearrangement of the fields of the message that refer to it (each
such field listed exactly once, in any order, and nothing else), every
reference points to a oneof of the message, and every synthetic oneof has
exactly one member, `writeMessage` writes one field statement for every field
outside a oneof and one for every member of every oneof, and these fields
together are the fields of the message, each exactly once (a permutation of
the field sequence). -/
theorem C19_each_field_once (d : FileDescriptor) (name : String)
    (reservedNames : List String) (reservedRanges : List (Int × Int))
    (messages : List MessageDescriptor) (enums : List EnumDescriptor)
    (fields : List FieldDescriptor) (oneofs : List OneofDescriptor)
    (q : ProtoDefinition) (level : Nat)
    (hwf : wellFormedMessage
      (.mk name reservedNames reservedRanges messages enums fields oneofs) = true)
    (h : AtLevel d level q)
    (hmem : ∀ (i : Nat) (o : OneofDescriptor), oneofs[i]? = some o →
      o.Fields.Perm (fields.filter (fun f => f.attrs.ContainingOneof = some i)))
    (hidx : ∀ f ∈ fields, ∀ i, f.attrs.ContainingOneof = some i → i < oneofs.length)
    (hsyn : ∀ o ∈ oneofs, o.IsSynthetic = true → o.Fields.length = 1) :
    writeMessage (.mk name reservedNames reservedRanges messages enums fields oneofs) q =
      some (q.write (render
        ([Line.stmt level ("message " ++ name ++ " \x7b")] ++
          reservedNames.map (fun n => Line.stmt (level + 1) ("reserved \"" ++ n ++ "\";")) ++
          reservedRanges.map (fun r => Line.stmt (level + 1) (reservedRangeText r)) ++
          messages.flatMap (messageLines d (level + 1)) ++
          enums.flatMap (enumLines (level + 1)) ++
          (fields.filter (fun f => f.attrs.ContainingOneof = none)).map
            (fieldLine d [] (level + 1)) ++
          oneofs.flatMap (fun o =>
            if o.IsSynthetic then o.Fields.map (fieldLine d [] (level + 1))
            else
              [Line.stmt (level + 1) ("oneof " ++ o.Name ++ " \x7b")] ++
                o.Fields.map (fieldLine d [1] (level + 1 + 1)) ++
                [Line.stmt (level + 1) "\x7d"]) ++
          [Line.stmt level "\x7d", Line.blank]))) ∧
    (fields.filter (fun f => f.attrs.ContainingOneof = none) ++
      oneofs.flatMap (fun o => o.Fields)).Perm fields := by
  constructor
  · rw [writeMessage_lines d _ q level hwf h]
    simp only [messageLines, messagesLines_eq_flatMap]
    have hone : oneofs.flatMap (oneofLines d (level + 1)) =
        oneofs.flatMap (fun o =>
          if o.IsSynthetic then o.Fields.map (fieldLine d [] (level + 1))
          else
            [Line.stmt (level + 1) ("oneof " ++ o.Name ++ " \x7b")] ++
              o.Fields.map (fieldLine d [1] (level + 1 + 1)) ++
              [Line.stmt (level + 1) "\x7d"]) := by
      apply List.flatMap_congr
      intro o ho
      unfold oneofLines
      by_cases hs : o.IsSynthetic = true
      · have hl := hsyn o ho hs
        simp only [hs, if_true]
        rw [List.take_of_length_le (by omega)]
      · simp only [hs, Bool.false_eq_true, if_false]
    rw [hone]
  · have hflat : (oneofs.flatMap (fun o => o.Fields)).Perm
        ((List.range oneofs.length).flatMap (fun i =>
          fields.filter (fun f => f.attrs.ContainingOneof = some i))) := by
      rw [List.range_eq_range']
      exact flatMap_members_perm _ oneofs 0 (fun i o hi => by
        rw [Nat.zero_add]
        exact hmem i o hi)
    have hp := filter_oneof_perm oneofs.length fields hidx
    have hsplit := List.filter_append_perm
      (fun f : FieldDescriptor => decide (f.attrs.ContainingOneof = none)) fields
    exact (List.Perm.append_left _ (hflat.trans hp.symm)).trans hsplit

/-- C19, witness: a message with a plain field, a oneof whose two members are
listed in the opposite order of the field sequence, and a synthetic oneof with
one member writes each of its four fields once. -/
theorem C19_each_field_once_witness :
    writeMessage
        (.mk "M" [] [] [] []
          [.mk { Name := "a", Number := 1 } none none,
           .mk { Name := "b", Number := 2, ContainingOneof := some 0 } none none,
           .mk { Name := "x", Number := 3, HasOptionalKeyword := true,
                 ContainingOneof := some 1 } none none,
           .mk { Name := "c", Number := 4, ContainingOneof := some 0 } none none]
          [{ Name := "o",
             Fields := [.mk { Name := "c", Number := 4, ContainingOneof := some 0 }
                          none none,
                        .mk { Name := "b", Number := 2, ContainingOneof := some 0 }
                          none none] },
           { Name := "_x", IsSynthetic := true,
             Fields := [.mk { Name := "x", Number := 3, HasOptionalKeyword := true,
                              ContainingOneof := some 1 } none none] }])
        {} =
      some { builder :=
        "message M \x7b\n  int32 a = 1;\n  oneof o \x7b\n    int32 c = 4;\n    int32 b = 2;\n  \x7d\n  optional int32 x = 3;\n\x7d\n\n" } := by
  rw [(C19_each_field_once {} "M" [] [] [] []
    [.mk { Name := "a", Number := 1 } none none,
     .mk { Name := "b", Number := 2, ContainingOneof := some 0 } none none,
     .mk { Name := "x", Number := 3, HasOptionalKeyword := true,
           ContainingOneof := some 1 } none none,
     .mk { Name := "c", Number := 4, ContainingOneof := some 0 } none none]
    [{ Name := "o",
       Fields := [.mk { Name := "c", Number := 4, ContainingOneof := some 0 } none none,
                  .mk { Name := "b", Number := 2, ContainingOneof := some 0 } none none] },
     { Name := "_x", IsSynthetic := true,
       Fields := [.mk { Name := "x", Number := 3, HasOptionalKeyword := true,
                        ContainingOneof := some 1 } none none] }]
    {} 0 (by rfl) ⟨rfl, rfl⟩
    (by
      intro i o hi
      match i, hi with
      | 0, hi =>
        simp only [List.getElem?_cons_zero, Option.some.injEq] at hi
        subst hi
        exact List.Perm.swap _ _ _
      | 1, hi =>
        simp only [List.getElem?_cons_succ, List.getElem?_cons_zero,
          Option.some.injEq] at hi
        subst hi
        exact List.Perm.refl _
      | n + 2, hi => simp at hi)
    (by
      intro f hf i hi
      simp only [List.mem_cons, List.mem_singleton, List.not_mem_nil, or_false] at hf
      rcases hf with rfl | rfl | rfl | rfl <;>
        simp [FieldDescriptor.attrs] at hi <;> (subst hi; decide))
    (by
      intro o ho _
      simp only [List.mem_cons, List.mem_singleton, List.not_mem_nil, or_false] at ho
      rcases ho with rfl | rfl <;> simp_all)).1]
  rfl

/-! ## Indentation of the lines -/

theorem ite_ne_of {α : Type} {c : Prop} [Decidable c] {a b x : α} (ha : a ≠ x)
    (hb : b ≠ x) : (if c then a else b) ≠ x := by
  split <;> assumption

theorem digitChar_ne_newline (n : Nat) : Nat.digitChar n ≠ '\n' := by
  unfold Nat.digitChar
  repeat (first | exact (by decide) | apply ite_ne_of (by decide))

theorem toDigitsCore_noNewline (b : Nat) : ∀ (fuel n : Nat) (ds : List Char),
    (∀ c ∈ ds, c ≠ '\n') → ∀ c ∈ Nat.toDigitsCore b fuel n ds, c ≠ '\n'
  | 0, _, ds, h => by simpa [Nat.toDigitsCore] using h
  | fuel + 1, n, ds, h => by
    have hd : ∀ c ∈ Nat.digitChar (n % b) :: ds, c ≠ '\n' := by
      intro c hc
      rcases List.mem_cons.mp hc with e | e
      · rw [e]; exact digitChar_ne_newline _
      · exact h c e
    simp only [Nat.toDigitsCore]
    split_ifs
    · exact hd
    · exact toDigitsCore_noNewline b fuel _ _ hd

theorem noNewline_append (a b : String) :
    noNewline (a ++ b) = (noNewline a && noNewline b) := by
  simp [noNewline, List.all_append]

theorem noNewline_Itoa (n : Int) : noNewline (Itoa n) = true := by
  have hnat : ∀ m : Nat, noNewline (toString m) = true := by
    intro m
    simp only [noNewline, List.all_eq_true, bne_iff_ne, ne_eq]
    intro c hc
    exact toDigitsCore_noNewline 10 _ _ [] (by simp) c hc
  cases n with
  | ofNat m => exact hnat m
  | negSucc m =>
    show noNewline ("-" ++ toString (m + 1)) = true
    rw [noNewline_append, hnat]
    rfl

theorem noNewline_FormatBool (b : Bool) : noNewline (FormatBool b) = true := by
  cases b <;> rfl

theorem noNewline_ReplaceAll (v : String) (h : noNewline v = true) :
    noNewline (ReplaceAll v '\\' "\\\\") = true := by
  simp only [noNewline, List.all_eq_true, bne_iff_ne, ne_eq] at h ⊢
  intro c hc
  simp only [ReplaceAll, String.toList, List.mem_flatMap] at hc
  obtain ⟨x, hx, hcx⟩ := hc
  by_cases hb : x = '\\'
  · simp only [hb, if_true] at hcx
    have hl : "\\\\".data = ['\\', '\\'] := rfl
    have : c = '\\' := by
      simp only [hl, List.mem_cons, List.mem_singleton, List.not_mem_nil, or_false,
        or_self] at hcx
      exact hcx
    rw [this]
    decide
  · simp only [hb, if_false, List.mem_singleton] at hcx
    rw [hcx]
    exact h x hx

theorem noNewline_of_isWord (s : String) (h : isWord s = true) : noNewline s = true := by
  simp only [isWord, Bool.and_eq_true, List.all_eq_true, bne_iff_ne, ne_eq] at h
  simp only [noNewline, List.all_eq_true, bne_iff_ne, ne_eq]
  exact fun c hc => (h.2 c hc).2

theorem startsWithNonSpace_of_isWord (s : String) (h : isWord s = true) :
    startsWithNonSpace s = true := by
  simp only [isWord, Bool.and_eq_true, List.all_eq_true, bne_iff_ne, ne_eq] at h
  unfold startsWithNonSpace
  cases hs : s.data with
  | nil => simp [hs] at h
  | cons c cs =>
    have := (h.2 c (by rw [hs]; exact List.mem_cons_self _ _)).1
    simpa using this

theorem startsWithNonSpace_append (a b : String) (h : startsWithNonSpace a = true) :
    startsWithNonSpace (a ++ b) = true := by
  unfold startsWithNonSpace at h ⊢
  cases ha : a.data with
  | nil => simp [ha] at h
  | cons c cs =>
    simp only [ha] at h
    simp only [String.data_append, ha, List.cons_append]
    exact h

theorem proper_stmt (level : Nat) (a b : String) (h1 : startsWithNonSpace a = true)
    (h2 : noNewline a = true) (h3 : noNewline b = true) :
    Line.proper (.stmt level (a ++ b)) = true := by
  simp [Line.proper, startsWithNonSpace_append a b h1, noNewline_append, h2, h3]

theorem writeType_tidy : ∀ field : FieldDescriptor, tidyField field = true →
    wellFormedField field = true →
    ∃ t, (∀ pd, writeType field pd = some (pd.write t)) ∧
      startsWithNonSpace t = true ∧ noNewline t = true
  | .mk a mapKey mapValue, ht, hwf => by
    simp only [tidyField, Bool.and_eq_true] at ht
    obtain ⟨⟨⟨⟨⟨⟨⟨⟨hkind, _⟩, hmsg⟩, henum⟩, _⟩, _⟩, _⟩, hk⟩, hv⟩ := ht
    by_cases h1 : a.Kind = "message"
    · exact ⟨"." ++ a.Message, fun pd => by simp [writeType, h1, write_write],
        startsWithNonSpace_append _ _ (by decide),
        by rw [noNewline_append, hmsg]; rfl⟩
    by_cases h2 : a.Kind = "enum"
    · exact ⟨"." ++ a.Enum, fun pd => by simp [writeType, h1, h2, write_write],
        startsWithNonSpace_append _ _ (by decide),
        by rw [noNewline_append, henum]; rfl⟩
    by_cases h3 : a.Kind = "map"
    · simp only [wellFormedField, h3, if_true, Bool.and_eq_true] at hwf
      obtain ⟨wk, wv⟩ := hwf
      cases mapKey with
      | none => simp [wellFormedFieldOrNil] at wk
      | some k =>
        cases mapValue with
        | none => simp [wellFormedFieldOrNil] at wv
        | some v =>
          obtain ⟨tk, htk, _, nk⟩ := writeType_tidy k (by simpa [tidyFieldOrNil] using hk)
            (by simpa [wellFormedFieldOrNil] using wk)
          obtain ⟨tv, htv, _, nv⟩ := writeType_tidy v (by simpa [tidyFieldOrNil] using hv)
            (by simpa [wellFormedFieldOrNil] using wv)
          refine ⟨"map<" ++ (tk ++ (", " ++ (tv ++ ">"))), fun pd => ?_,
            startsWithNonSpace_append _ _ (by decide), ?_⟩
          · simp [writeType, writeTypeOrNil, h1, h2, h3, htk, htv, write_write,
              String.append_assoc]
          · simp only [noNewline_append, nk, nv, Bool.and_true, Bool.true_and]
            decide
    · exact ⟨a.Kind, fun pd => by simp [writeType, h1, h2, h3],
        startsWithNonSpace_of_isWord _ hkind, noNewline_of_isWord _ hkind⟩

theorem fieldModifier_cases (field : FieldDescriptor) (is_oneof : List Int)
    (pd : ProtoDefinition) :
    fieldModifier field is_oneof pd = "" ∨
      (startsWithNonSpace (fieldModifier field is_oneof pd) = true ∧
        noNewline (fieldModifier field is_oneof pd) = true) := by
  unfold fieldModifier
  split_ifs
  · right; exact ⟨by decide, by decide⟩
  · right; exact ⟨by decide, by decide⟩
  · right; exact ⟨by decide, by decide⟩
  · left; rfl
  · left; rfl

theorem fieldOptions_noNewline (field : FieldDescriptor) (ht : tidyField field = true) :
    noNewline (fieldOptions field) = true := by
  cases field with
  | mk a mapKey mapValue =>
    simp only [tidyField, Bool.and_eq_true] at ht
    obtain ⟨⟨⟨⟨⟨⟨⟨⟨_, _⟩, _⟩, _⟩, hdef⟩, hdev⟩, hjson⟩, _⟩, _⟩ := ht
    have hlit : noNewline (defaultLiteral (.mk a mapKey mapValue)) = true := by
      unfold defaultLiteral
      simp only [FieldDescriptor.attrs]
      split_ifs
      · simp only [noNewline_append, hdef, Bool.and_true, Bool.true_and]
        decide
      · exact hdev
      · exact hdef
    unfold fieldOptions
    simp only [FieldDescriptor.attrs] at hlit ⊢
    by_cases hd : a.HasDefault = true <;> by_cases hj : a.HasJSONName = true <;>
      simp +decide [hd, hj, noNewline_append, hlit, hjson]

theorem fieldLine_proper (d : FileDescriptor) (is_oneof : List Int) (level : Nat)
    (field : FieldDescriptor) (ht : tidyField field = true)
    (hwf : wellFormedField field = true) :
    (fieldLine d is_oneof level field).proper = true := by
  obtain ⟨t, hw, hs, hn⟩ := writeType_tidy field ht hwf
  have htn : typeName field = some t := by simp [typeName, hw, write]
  have hopt := fieldOptions_noNewline field ht
  have hname : noNewline field.attrs.Name = true := by
    cases field with
    | mk a mapKey mapValue =>
      simp only [tidyField, Bool.and_eq_true] at ht
      exact noNewline_of_isWord _ ht.1.1.1.1.1.1.1.2
  have hrest : noNewline (t ++ (" " ++ (field.attrs.Name ++ (" = " ++
      (Itoa field.attrs.Number ++ (fieldOptions field ++ ";")))))) = true := by
    simp only [noNewline_append, hn, hname, noNewline_Itoa, hopt, Bool.and_true,
      Bool.true_and]
    decide
  unfold fieldLine
  simp only [htn, Option.getD_some, String.append_assoc]
  rcases fieldModifier_cases field is_oneof { descriptor := d } with hm | ⟨hm1, hm2⟩
  · rw [hm]
    have he : "" ++ (t ++ (" " ++ (field.attrs.Name ++ (" = " ++
        (Itoa field.attrs.Number ++ (fieldOptions field ++ ";")))))) =
        t ++ (" " ++ (field.attrs.Name ++ (" = " ++
        (Itoa field.attrs.Number ++ (fieldOptions field ++ ";"))))) := by
      apply String.ext
      simp
    rw [he]
    refine proper_stmt level _ _ hs hn ?_
    simp only [noNewline_append, hname, noNewline_Itoa, hopt, Bool.and_true,
      Bool.true_and]
    decide
  · exact proper_stmt level _ _ hm1 hm2 hrest

theorem proper_lit (level : Nat) (lit rest : String)
    (h1 : startsWithNonSpace lit = true) (h2 : noNewline (lit ++ rest) = true) :
    Line.proper (.stmt level (lit ++ rest)) = true := by
  simp [Line.proper, startsWithNonSpace_append lit rest h1, h2]

theorem reservedRange_proper (level : Nat) (r : Int × Int) :
    Line.proper (.stmt level (reservedRangeText r)) = true := by
  unfold reservedRangeText
  simp only [String.append_assoc]
  refine proper_lit level _ _ (by decide) ?_
  split_ifs <;> simp +decide [noNewline_append, noNewline_Itoa]

theorem enumLines_proper (level : Nat) (e : EnumDescriptor) (ht : tidyEnum e = true) :
    ∀ l ∈ enumLines level e, l.proper = true := by
  simp only [tidyEnum, Bool.and_eq_true, List.all_eq_true] at ht
  obtain ⟨hname, hvals⟩ := ht
  intro l hl
  simp only [enumLines, List.mem_append, List.mem_cons, List.mem_singleton,
    List.not_mem_nil, or_false, List.mem_map] at hl
  rcases hl with (rfl | ⟨v, hv, rfl⟩) | rfl | rfl
  · simp only [String.append_assoc]
    exact proper_lit level _ _ (by decide)
      (by simp +decide [noNewline_append, noNewline_of_isWord _ hname])
  · simp only [String.append_assoc]
    exact proper_stmt _ _ _ (startsWithNonSpace_of_isWord _ (hvals v hv))
      (noNewline_of_isWord _ (hvals v hv))
      (by simp +decide [noNewline_append, noNewline_Itoa])
  · rfl
  · rfl

theorem oneofLines_proper (d : FileDescriptor) (level : Nat) (o : OneofDescriptor)
    (ht : tidyOneof o = true) (hwf : wellFormedOneof o = true) :
    ∀ l ∈ oneofLines d level o, l.proper = true := by
  simp only [tidyOneof, Bool.and_eq_true, List.all_eq_true] at ht
  simp only [wellFormedOneof, Bool.and_eq_true, List.all_eq_true] at hwf
  obtain ⟨hname, hfs⟩ := ht
  intro l hl
  unfold oneofLines at hl
  by_cases hs : o.IsSynthetic = true
  · simp only [hs, if_true, List.mem_map] at hl
    obtain ⟨f, hf, rfl⟩ := hl
    have hmem : f ∈ o.Fields := List.mem_of_mem_take hf
    exact fieldLine_proper d [] level f (hfs f hmem) (hwf.2 f hmem)
  · simp only [hs, Bool.false_eq_true, if_false, List.mem_append, List.mem_cons,
      List.mem_singleton, List.not_mem_nil, or_false, List.mem_map] at hl
    rcases hl with (rfl | ⟨f, hf, rfl⟩) | rfl
    · simp only [String.append_assoc]
      exact proper_lit level _ _ (by decide)
        (by simp +decide [noNewline_append, noNewline_of_isWord _ hname])
    · exact fieldLine_proper d [1] (level + 1) f (hfs f hf) (hwf.2 f hf)
    · rfl

mutual
theorem messageLines_proper (d : FileDescriptor) :
    ∀ (m : MessageDescriptor) (level : Nat), tidyMessage m = true →
      wellFormedMessage m = true → ∀ l ∈ messageLines d level m, l.proper = true
  | .mk name reservedNames reservedRanges messages enums fields oneofs, level, ht, hwf => by
    simp only [tidyMessage, Bool.and_eq_true, List.all_eq_true] at ht
    simp only [wellFormedMessage, Bool.and_eq_true, List.all_eq_true] at hwf
    obtain ⟨⟨⟨⟨⟨hname, hrn⟩, hms⟩, hes⟩, hfs⟩, hos⟩ := ht
    obtain ⟨⟨wms, wfs⟩, wos⟩ := hwf
    intro l hl
    simp only [messageLines, List.mem_append, List.mem_cons, List.mem_singleton,
      List.not_mem_nil, or_false, List.mem_map, List.mem_flatMap, List.mem_filter] at hl
    rcases hl with
      ((((((rfl | ⟨n, hn, rfl⟩) | ⟨r, _, rfl⟩) | hm) | ⟨e, he, hle⟩) |
        ⟨f, ⟨hf, _⟩, rfl⟩) | ⟨o, ho, hlo⟩) | rfl | rfl
    · simp only [String.append_assoc]
      exact proper_lit level _ _ (by decide)
        (by simp +decide [noNewline_append, noNewline_of_isWord _ hname])
    · simp only [String.append_assoc]
      exact proper_lit _ _ _ (by decide)
        (by simp +decide [noNewline_append, noNewline_of_isWord _ (hrn n hn)])
    · exact reservedRange_proper _ r
    · exact messagesLines_proper d messages (level + 1) hms wms l hm
    · exact enumLines_proper (level + 1) e (hes e he) l hle
    · exact fieldLine_proper d [] (level + 1) f (hfs f hf) (wfs f hf)
    · exact oneofLines_proper d (level + 1) o (hos o ho) (wos o ho) l hlo
    · rfl
    · rfl
theorem messagesLines_proper (d : FileDescriptor) :
    ∀ (ms : List MessageDescriptor) (level : Nat), tidyMessages ms = true →
      wellFormedMessages ms = true → ∀ l ∈ messagesLines d level ms, l.proper = true
  | [], _, _, _ => by
    intro l hl
    simp [messagesLines] at hl
  | m :: ms, level, ht, hwf => by
    simp only [tidyMessages, Bool.and_eq_true] at ht
    simp only [wellFormedMessages, Bool.and_eq_true] at hwf
    intro l hl
    simp only [messagesLines, List.mem_append] at hl
    rcases hl with hl | hl
    · exact messageLines_proper d m level ht.1 hwf.1 l hl
    · exact messagesLines_proper d ms level ht.2 hwf.2 l hl
end

theorem methodLine_proper (level : Nat) (m : MethodDescriptor) (ht : tidyMethod m = true) :
    (methodLine level m).proper = true := by
  simp only [tidyMethod, Bool.and_eq_true] at ht
  obtain ⟨⟨hname, hin⟩, hout⟩ := ht
  unfold methodLine
  simp only [String.append_assoc]
  refine proper_lit level _ _ (by decide) ?_
  split_ifs <;>
    simp +decide [noNewline_append, noNewline_of_isWord _ hname, hin, hout]

theorem serviceLines_proper (sv : ServiceDescriptor) (ht : tidyService sv = true) :
    ∀ l ∈ serviceLines sv, l.proper = true := by
  simp only [tidyService, Bool.and_eq_true, List.all_eq_true] at ht
  obtain ⟨hname, hms⟩ := ht
  intro l hl
  simp only [serviceLines, List.mem_append, List.mem_cons, List.mem_singleton,
    List.not_mem_nil, or_false, List.mem_map] at hl
  rcases hl with (rfl | ⟨m, hm, rfl⟩) | rfl | rfl
  · simp only [String.append_assoc]
    exact proper_lit 0 _ _ (by decide)
      (by simp +decide [noNewline_append, noNewline_of_isWord _ hname])
  · exact methodLine_proper 1 m (hms m hm)
  · rfl
  · rfl

theorem importLine_proper (i : FileImport) (ht : noNewline i.Path = true) :
    (importLine i).proper = true := by
  unfold importLine
  simp only [String.append_assoc]
  refine proper_lit 0 _ _ (by decide) ?_
  split_ifs <;> simp +decide [noNewline_append, ht]

theorem optionLine_string_proper (o : FileOptions) (key name : String)
    (v : Option String) (hf : o.FieldByName name = some (v.map ReflectValue.String))
    (hv : tidyOption v = true) (hkey : noNewline key = true) (l : Line)
    (hl : optionLine o (key, name) = some l) : l.proper = true := by
  unfold optionLine at hl
  cases v with
  | none => simp [hf] at hl
  | some s =>
    simp only [hf, Option.map_some', Option.some.injEq] at hl
    rw [← hl]
    simp only [String.append_assoc]
    exact proper_lit 0 _ _ (by decide)
      (by simp +decide [noNewline_append, hkey, noNewline_ReplaceAll s hv])

theorem optionLine_bool_proper (o : FileOptions) (key name : String)
    (v : Option Bool) (hf : o.FieldByName name = some (v.map ReflectValue.Bool))
    (hkey : noNewline key = true) (l : Line)
    (hl : optionLine o (key, name) = some l) : l.proper = true := by
  unfold optionLine at hl
  cases v with
  | none => simp [hf] at hl
  | some b =>
    simp only [hf, Option.map_some', Option.some.injEq] at hl
    rw [← hl]
    simp only [String.append_assoc]
    exact proper_lit 0 _ _ (by decide)
      (by simp +decide [noNewline_append, hkey, noNewline_FormatBool])

theorem optionLine_proper (o : FileOptions) (ht : tidyOptions (some o) = true)
    (x : String × String) (hx : x ∈ optionDefinitions) (l : Line)
    (hl : optionLine o x = some l) : l.proper = true := by
  simp only [tidyOptions, Bool.and_eq_true] at ht
  obtain ⟨⟨⟨⟨⟨⟨⟨⟨⟨t1, t2⟩, t3⟩, t4⟩, t5⟩, t6⟩, t7⟩, t8⟩, t9⟩, t10⟩ := ht
  simp only [optionDefinitions, List.mem_cons, List.mem_singleton, List.not_mem_nil,
    or_false] at hx
  rcases hx with rfl | rfl | rfl | rfl | rfl | rfl | rfl | rfl | rfl | rfl | rfl | rfl | rfl
  · exact optionLine_string_proper o _ _ o.JavaPackage (by rfl) t1 (by decide) l hl
  · exact optionLine_string_proper o _ _ o.JavaOuterClassname (by rfl) t2 (by decide) l hl
  · exact optionLine_bool_proper o _ _ o.JavaMultipleFiles (by rfl) (by decide) l hl
  · exact optionLine_bool_proper o _ _ o.JavaStringCheckUtf8 (by rfl) (by decide) l hl
  · exact optionLine_string_proper o _ _ o.GoPackage (by rfl) t3 (by decide) l hl
  · exact optionLine_bool_proper o _ _ o.CcEnableArenas (by rfl) (by decide) l hl
  · exact optionLine_string_proper o _ _ o.ObjcClassPrefix (by rfl) t4 (by decide) l hl
  · exact optionLine_string_proper o _ _ o.CsharpNamespace (by rfl) t5 (by decide) l hl
  · exact optionLine_string_proper o _ _ o.SwiftPrefix (by rfl) t6 (by decide) l hl
  · exact optionLine_string_proper o _ _ o.PhpClassPrefix (by rfl) t7 (by decide) l hl
  · exact optionLine_string_proper o _ _ o.PhpNamespace (by rfl) t8 (by decide) l hl
  · exact optionLine_string_proper o _ _ o.PhpMetadataNamespace (by rfl) t9 (by decide) l hl
  · exact optionLine_string_proper o _ _ o.RubyPackage (by rfl) t10 (by decide) l hl

theorem optionsLines_proper (opts : Option FileOptions) (ht : tidyOptions opts = true) :
    ∀ l ∈ optionsLines opts, l.proper = true := by
  cases opts with
  | none =>
    intro l hl
    simp [optionsLines] at hl
  | some o =>
    intro l hl
    simp only [optionsLines, List.mem_append, List.mem_filterMap] at hl
    rcases hl with ⟨x, hx, hxl⟩ | hl
    · exact optionLine_proper o ht x hx l hxl
    · split_ifs at hl
      · simp at hl
      · simp only [List.mem_singleton] at hl
        rw [hl]
        rfl

theorem fileLines_proper (pb : FileDescriptorProto) (d : FileDescriptor)
    (ht : tidyFile pb d = true) (hwf : wellFormedMessages d.Messages = true) :
    ∀ l ∈ fileLines pb d, l.proper = true := by
  simp only [tidyFile, Bool.and_eq_true, List.all_eq_true] at ht
  obtain ⟨⟨⟨⟨⟨⟨hsyn, hpkg⟩, hopt⟩, himp⟩, hsv⟩, hms⟩, hes⟩ := ht
  intro l hl
  simp only [fileLines, List.mem_append, List.mem_cons, List.mem_singleton,
    List.not_mem_nil, or_false, List.mem_map, List.mem_flatMap] at hl
  rcases hl with
    ((((((( rfl | rfl) | hp) | ho) | ⟨i, hi, rfl⟩) | hb) | ⟨sv, hs, hls⟩) | hm) |
      ⟨e, he, hle⟩
  · simp only [String.append_assoc]
    exact proper_lit 0 _ _ (by decide) (by simp +decide [noNewline_append, hsyn])
  · rfl
  · split_ifs at hp
    · simp only [List.mem_cons, List.mem_singleton, List.not_mem_nil, or_false] at hp
      rcases hp with rfl | rfl
      · simp only [String.append_assoc]
        exact proper_lit 0 _ _ (by decide) (by simp +decide [noNewline_append, hpkg])
      · rfl
    · simp at hp
  · exact optionsLines_proper _ hopt l ho
  · exact importLine_proper i (himp i hi)
  · split_ifs at hb
    · simp only [List.mem_singleton] at hb
      rw [hb]
      rfl
    · simp at hb
  · exact serviceLines_proper sv (hsv sv hs) l hls
  · exact messagesLines_proper d d.Messages 0 hms hwf l hm
  · exact enumLines_proper 0 e (hes e he) l hle

theorem textLines_append_newline (rest : List Char) : ∀ a : List Char, '\n' ∉ a →
    textLines (a ++ '\n' :: rest) = a :: textLines rest
  | [], _ => by simp [textLines]
  | c :: a, h => by
    have hc : c ≠ '\n' := fun e => h (by simp [e])
    have ha : '\n' ∉ a := fun e => h (List.mem_cons_of_mem _ e)
    have ih := textLines_append_newline rest a ha
    simp only [List.cons_append, textLines, hc, if_false]
    show (match textLines (a ++ '\n' :: rest) with
      | [] => [[c]]
      | l :: ls => (c :: l) :: ls) = (c :: a) :: textLines rest
    rw [ih]

theorem chars_noNewline (l : Line) (h : l.proper = true) : '\n' ∉ l.chars := by
  cases l with
  | blank => simp [Line.chars]
  | stmt level content =>
    simp only [Line.proper, Bool.and_eq_true, noNewline, List.all_eq_true, bne_iff_ne,
      ne_eq] at h
    simp only [Line.chars, List.mem_append, List.mem_replicate, not_or]
    exact ⟨fun e => absurd e.2 (by decide), fun e => h.2 _ e rfl⟩

theorem render_data_line (l : Line) : l.render.data = l.chars ++ ['\n'] := by
  cases l with
  | blank => rfl
  | stmt level content => simp [Line.render, Line.chars]

theorem textLines_render : ∀ ls : List Line, (∀ l ∈ ls, l.proper = true) →
    textLines (render ls).data = ls.map Line.chars ++ [[]]
  | [], _ => rfl
  | l :: ls, h => by
    have ih := textLines_render ls (fun x hx => h x (List.mem_cons_of_mem _ hx))
    have hl := chars_noNewline l (h l (List.mem_cons_self _ _))
    rw [render_cons, String.data_append, render_data_line, List.append_assoc,
      List.singleton_append, textLines_append_newline _ _ hl, ih]
    rfl

theorem stmt_chars (level : Nat) (content : String)
    (h : (Line.stmt level content).proper = true) :
    ∃ c cs, c ≠ ' ' ∧
      (Line.stmt level content).chars = List.replicate (2 * level) ' ' ++ c :: cs := by
  simp only [Line.proper, Bool.and_eq_true, startsWithNonSpace] at h
  cases hd : content.data with
  | nil => simp [hd] at h
  | cons c cs =>
    simp only [hd, bne_iff_ne, ne_eq] at h
    exact ⟨c, cs, h.1, by simp [Line.chars, hd]⟩

/-- C15, counterexample: in a proto2 file whose names are words, a string field
with the default value `a`, newline, ` b` is written as a statement whose
second line ` b"];` begins with one space character, which is not 2 times a
nesting level. -/
theorem C15_counterexample :
    isWord "M" = true ∧ isWord "s" = true ∧
    (writeFileDescriptor
        { descriptor := { SyntaxName := "proto2", Messages :=
            [.mk "M" [] [] [] []
              [.mk { Name := "s", Number := 1, Kind := "string",
                     HasOptionalKeyword := true, HasDefault := true,
                     Default := "a\n b" } none none] []] } }).map (fun pd => pd.builder) =
      some "syntax = \"proto2\";\n\nmessage M \x7b\n  optional string s = 1 [default = \"a\n b\"];\n\x7d\n\n" ∧
    " b\"];".data ∈ textLines
      "syntax = \"proto2\";\n\nmessage M \x7b\n  optional string s = 1 [default = \"a\n b\"];\n\x7d\n\n".data ∧
    leadingSpaces " b\"];".data = 1 ∧
    ¬ ∃ k : Nat, leadingSpaces " b\"];".data = 2 * k := by
  refine ⟨by decide, by decide, by rfl, by decide, by decide, ?_⟩
  rintro ⟨k, hk⟩
  have h1 : leadingSpaces " b\"];".data = 1 := by decide
  omega

/-- C15, amended: for a well-formed file whose strings are tidy (every name a
word, that is non-empty and free of spaces and newlines, and every other
string free of newlines), the text `writeFileDescriptor` writes is the text
of the lines of the descriptor tree; the lines of that text are exactly
these lines, and every statement line at nesting level `k` (top-level
declarations at level 0, a body one level deeper than its header) begins
with exactly 2·k space characters followed by a character that is not a
space. -/
theorem C15_indentation_by_level (q : ProtoDefinition)
    (ht : tidyFile q.pb q.descriptor = true)
    (hwf : wellFormedMessages q.descriptor.Messages = true)
    (h : q.indendation = 0) :
    writeFileDescriptor q = some (q.write (render (fileLines q.pb q.descriptor))) ∧
    textLines (render (fileLines q.pb q.descriptor)).data =
      (fileLines q.pb q.descriptor).map Line.chars ++ [[]] ∧
    ∀ (level : Nat) (content : String),
      Line.stmt level content ∈ fileLines q.pb q.descriptor →
      ∃ c cs, c ≠ ' ' ∧
        (Line.stmt level content).chars = List.replicate (2 * level) ' ' ++ c :: cs := by
  have hp := fileLines_proper q.pb q.descriptor ht hwf
  exact ⟨writeFileDescriptor_lines q hwf h, textLines_render _ hp,
    fun level content hl => stmt_chars level content (hp _ hl)⟩

/-- C15, witness: a file with a message, a nested message and a field at
nesting level 2. -/
theorem C15_indentation_by_level_witness :
    textLines (render (fileLines {}
        { Messages := [.mk "M" [] [] [.mk "N" [] [] [] []
            [.mk { Name := "a", Number := 1 } none none] []] [] [] []] })).data =
      ["syntax = \"proto3\";".data, [], "message M \x7b".data, "  message N \x7b".data,
       "    int32 a = 1;".data, "  \x7d".data, [], "\x7d".data, [], []] := by
  rw [(C15_indentation_by_level
    { descriptor := { Messages := [.mk "M" [] [] [.mk "N" [] [] [] []
        [.mk { Name := "a", Number := 1 } none none] []] [] [] []] } }
    (by rfl) (by rfl) rfl).2.1]
  rfl

end ProtoDefinition

end Protodump
